import Mathlib

/-!
Trading-Bot-Simulation: embedding of the strategy engine and the backtester

Shallow embedding of `Market`, `Strategy` and its three concrete policies, and
`TradingBot` from the C++ sources, followed by the properties proved about them.

Conventions of the embedding

* `double` values are modelled as exact rationals (`ℚ`): rounding, infinities and
  NaN are outside the model.  `std::numeric_limits<double>::max()` is the
  rational `DBL_MAX` below.
* `int` values are modelled as `Int` and computed without wrap-around.  Where an
  `int` expression of a moving-average computation or of a factory can leave the
  32-bit range (signed overflow, undefined in C++), the instrumented result
  records it in its `overflow` flag.  In `runSimulation` the day counter ends at
  `numTradingDays` and `numTradingDays - 101` is computed for
  `numTradingDays > 1` only, so nothing overflows there.
* Allocation always succeeds.  The counters of `TradingBot` are naturals: they
  could leave the `int` range only with 2^30 strategies stored.
* `exp` and `sqrt` and the values drawn by `generateZ` are parameters of
  `Market.simulate`.  `Market.simulateGen` threads the function-local statics of
  `generateZ` (`GenState`) through the call; the stream of the generator is the
  parameter `RandomSource`.
* A file is the sequence of numbers its tokens denote (`MarketFile`); files open
  successfully.  `ostream << double` writes six significant digits
  (`streamDouble`); reading a token gives the number it denotes.
* A pointer that may be null is an `Option`; an array is a `List` whose length is
  the allocated size.
* A counted `for` loop is the left fold of its body over the list of the values
  the loop variable takes (`forRange`).
-/

namespace TradingBotSim

/-! ## Market -/

/-- The value of `std::numeric_limits<double>::max()`: `(2^53 - 1) * 2^971`. -/
def DBL_MAX : ℚ := (2 ^ 53 - 1) * 2 ^ 971

/-- The value of `INT_MAX` for the 32-bit `int`. -/
def INT_MAX : Int := 2147483647

/-- The value of `INT_MIN` for the 32-bit `int`. -/
def INT_MIN : Int := -2147483648

/-- Whether a value is representable in the 32-bit `int`. -/
def fitsInt (x : Int) : Bool := decide (INT_MIN ≤ x ∧ x ≤ INT_MAX)

/-- Values taken by the variable of `for (int i = lo; i < hi; i++)`, in order. -/
def forRange (lo hi : Int) : List Int :=
  (List.range (hi - lo).toNat).map (fun (k : Nat) => lo + (k : Int))

/-- Class `Market` (Market.h).  `prices` is the `double **` member: `none` is the
null pointer, the list is the allocated array and each slot is a nullable
`double *`. -/
structure Market where
  initialPrice : ℚ
  volatility : ℚ
  expectedYearlyReturn : ℚ
  numTradingDays : Int
  prices : Option (List (Option ℚ))
  seed : Int

/-- Method `Market::getNumTradingDays`. -/
def Market.getNumTradingDays (m : Market) : Int := m.numTradingDays

/-- Method `Market::getPrice`.  A slot index that passes the bounds check but lies
outside the allocated array (undefined behaviour in C++) reads as `0`. -/
def Market.getPrice (m : Market) (index : Int) : ℚ :=
  if index < 0 ∨ index ≥ m.numTradingDays ∨ m.prices.isNone then 0
  else
    match (m.prices.getD []).get? index.toNat with
    | some (some p) => p
    | some none => 0
    | none => 0

/-! ## Strategy -/

/-- Enumeration `Action` (Strategy.h). -/
inductive Action where
  | BUY
  | SELL
  | HOLD
  deriving DecidableEq, Repr

/-- Abstract class `Strategy` as the backtester sees it: the name and the pure
virtual `decideAction(market, index, currentHolding)`. -/
structure Strategy where
  name : String
  decideAction : Market → Int → ℚ → Action

/-- A moving-average result with two instrumentation fields (the source returns
`value`): the number of floating-point divisions executed, and whether an `int`
expression of the execution left the 32-bit range. -/
structure Averaged where
  value : ℚ
  divisions : Nat
  overflow : Bool

/-- Body of the summation loop of `Strategy::calculateMovingAverage`:
`sum += market->getPrice(i); count++`. -/
def Strategy.sumStep (market : Market) (acc : ℚ × Int) (i : Int) : ℚ × Int :=
  (acc.1 + market.getPrice i, acc.2 + 1)

/-- The `int` expressions evaluated by the loop branch of a moving-average
computation stay in the 32-bit range: `index - window`, `index - window + 1`, and
the last value `index + 1` that `i++` gives the loop counter of
`for (int i = startIdx; i <= index; i++)` (`count` and `position` never exceed it). -/
def Strategy.loopFits (index window : Int) : Bool :=
  fitsInt (index - window) && fitsInt (index - window + 1) && fitsInt (index + 1)

/-- Method `Strategy::calculateMovingAverage` (Strategy.cpp), instrumented with the
count of divisions performed and the overflow flag. -/
def Strategy.calculateMovingAverageCounted (market : Option Market) (index window : Int) :
    Averaged :=
  match market with
  | none => ⟨0, 0, false⟩
  | some m =>
    if index < 0 ∨ window ≤ 0 then ⟨m.getPrice (max 0 index), 0, false⟩
    else
      let startIdx := max (index - window + 1) 0
      let r := (forRange startIdx (index + 1)).foldl (Strategy.sumStep m) (0, 0)
      let overflow := !Strategy.loopFits index window
      if r.2 > 0 then ⟨r.1 / (r.2 : ℚ), 1, overflow⟩ else ⟨m.getPrice index, 0, overflow⟩

/-- Method `Strategy::calculateMovingAverage`: the value returned. -/
def Strategy.calculateMovingAverage (market : Option Market) (index window : Int) : ℚ :=
  (Strategy.calculateMovingAverageCounted market index window).value

/-! ## MeanReversionStrategy -/

/-- Class `MeanReversionStrategy`. -/
structure MeanReversionStrategy where
  name : String
  window : Int
  threshold : Int

/-- Method `MeanReversionStrategy::decideAction`. -/
def MeanReversionStrategy.decideAction (self : MeanReversionStrategy) (market : Market)
    (index : Int) (currentHolding : ℚ) : Action :=
  let movingAvg := Strategy.calculateMovingAverage (some market) index self.window
  let currentPrice := market.getPrice index
  let thresholdPercent : ℚ := (self.threshold : ℚ) / 100
  if currentHolding = 0 then
    if currentPrice < movingAvg * (1 - thresholdPercent) then Action.BUY else Action.HOLD
  else if currentHolding = 1 then
    if currentPrice > movingAvg * (1 + thresholdPercent) then Action.SELL else Action.HOLD
  else Action.HOLD

/-- A `MeanReversionStrategy` viewed through its base class. -/
def MeanReversionStrategy.toStrategy (self : MeanReversionStrategy) : Strategy :=
  ⟨self.name, self.decideAction⟩

/-! ## TrendFollowingStrategy and WeightedTrendFollowingStrategy -/

/-- Class `TrendFollowingStrategy`. -/
structure TrendFollowingStrategy where
  name : String
  shortMovingAverageWindow : Int
  longMovingAverageWindow : Int

/-- Body of `TrendFollowingStrategy::decideAction`; the virtual call to
`calculateMovingAverage` is resolved by the first argument. -/
def TrendFollowingStrategy.decideActionWith (calculateMovingAverage : Market → Int → Int → ℚ)
    (self : TrendFollowingStrategy) (market : Market) (index : Int) (currentHolding : ℚ) :
    Action :=
  let shortAvg := calculateMovingAverage market index self.shortMovingAverageWindow
  let longAvg := calculateMovingAverage market index self.longMovingAverageWindow
  let isUptrend : Bool := decide (shortAvg > longAvg)
  if isUptrend = true ∧ currentHolding = 0 then Action.BUY
  else if isUptrend = false ∧ currentHolding = 1 then Action.SELL
  else Action.HOLD

/-- Method `TrendFollowingStrategy::decideAction` on a plain trend-following object:
the moving average is the inherited `Strategy::calculateMovingAverage`. -/
def TrendFollowingStrategy.decideAction (self : TrendFollowingStrategy) (market : Market)
    (index : Int) (currentHolding : ℚ) : Action :=
  TrendFollowingStrategy.decideActionWith
    (fun m i w => Strategy.calculateMovingAverage (some m) i w) self market index currentHolding

/-- A `TrendFollowingStrategy` viewed through its base class. -/
def TrendFollowingStrategy.toStrategy (self : TrendFollowingStrategy) : Strategy :=
  ⟨self.name, self.decideAction⟩

/-- Class `WeightedTrendFollowingStrategy`, derived from `TrendFollowingStrategy`. -/
structure WeightedTrendFollowingStrategy extends TrendFollowingStrategy

/-- Method `WeightedTrendFollowingStrategy::calculateExponentialWeight`: `weight`
starts at 1 and is multiplied by the growth factor 1.1 once for each `i < index`. -/
def WeightedTrendFollowingStrategy.calculateExponentialWeight (index : Int) : ℚ :=
  (forRange 0 index).foldl (fun weight _ => weight * (11 / 10)) 1

/-- Body of the loop of `WeightedTrendFollowingStrategy::calculateMovingAverage`; the
accumulator is `(weightedSum, totalWeight)`. -/
def WeightedTrendFollowingStrategy.weightStep (market : Market) (startIdx : Int)
    (acc : ℚ × ℚ) (i : Int) : ℚ × ℚ :=
  let position := i - startIdx
  let weight := WeightedTrendFollowingStrategy.calculateExponentialWeight position
  (acc.1 + market.getPrice i * weight, acc.2 + weight)

/-- Method `WeightedTrendFollowingStrategy::calculateMovingAverage`, instrumented with
the count of divisions performed and the overflow flag.  The source dereferences
`market` unchecked, so the market is not nullable here. -/
def WeightedTrendFollowingStrategy.calculateMovingAverageCounted (market : Market)
    (index window : Int) : Averaged :=
  if index < 0 ∨ window ≤ 0 then ⟨market.getPrice (max 0 index), 0, false⟩
  else
    let startIdx := max (index - window + 1) 0
    let r := (forRange startIdx (index + 1)).foldl
      (WeightedTrendFollowingStrategy.weightStep market startIdx) (0, 0)
    let overflow := !Strategy.loopFits index window
    if r.2 ≤ 0 then ⟨market.getPrice index, 0, overflow⟩ else ⟨r.1 / r.2, 1, overflow⟩

/-- Method `WeightedTrendFollowingStrategy::calculateMovingAverage`: the value
returned. -/
def WeightedTrendFollowingStrategy.calculateMovingAverage (market : Market)
    (index window : Int) : ℚ :=
  (WeightedTrendFollowingStrategy.calculateMovingAverageCounted market index window).value

/-- Method `decideAction` on a weighted object: the inherited body of
`TrendFollowingStrategy::decideAction` with the overriding moving average. -/
def WeightedTrendFollowingStrategy.decideAction (self : WeightedTrendFollowingStrategy)
    (market : Market) (index : Int) (currentHolding : ℚ) : Action :=
  TrendFollowingStrategy.decideActionWith WeightedTrendFollowingStrategy.calculateMovingAverage
    self.toTrendFollowingStrategy market index currentHolding

/-- A `WeightedTrendFollowingStrategy` viewed through its base class. -/
def WeightedTrendFollowingStrategy.toStrategy (self : WeightedTrendFollowingStrategy) :
    Strategy :=
  ⟨self.name, self.decideAction⟩

/-! ## TradingBot -/

/-- Struct `SimulationResult` (TradingBot.h). -/
structure SimulationResult where
  bestStrategy : Option Strategy
  totalReturn : ℚ

/-- Default constructor of `SimulationResult`: null strategy, `-DBL_MAX`. -/
def SimulationResult.init : SimulationResult := ⟨none, -DBL_MAX⟩

/-- Class `TradingBot`.  `availableStrategies` is the allocated array of nullable
strategy pointers.  The two `int` counters never go below zero (a negative
`initialCapacity` makes the allocation in the constructor throw), so they are
naturals. -/
structure TradingBot where
  market : Option Market
  availableStrategies : List (Option Strategy)
  strategyCount : Nat
  strategyCapacity : Nat

/-- Constructor `TradingBot::TradingBot(market, initialCapacity = 10)`. -/
def TradingBot.new (market : Option Market) (initialCapacity : Nat) : TradingBot :=
  ⟨market, List.replicate initialCapacity none, 0, initialCapacity⟩

/-- The reallocation branch of `TradingBot::addStrategy`: a new array of twice the
capacity receives the first `strategyCount` slots and null pointers after them. -/
def TradingBot.grow (bot : TradingBot) : TradingBot :=
  let newStartegyCapacity := bot.strategyCapacity * 2
  { bot with
    availableStrategies := (List.range newStartegyCapacity).map (fun i =>
      if i < bot.strategyCount then bot.availableStrategies.getD i none else none)
    strategyCapacity := newStartegyCapacity }

/-- Method `TradingBot::addStrategy`.  The result is `none` when the final store
`availableStrategies[strategyCount++] = strategy` falls outside the allocated array
(undefined behaviour in C++). -/
def TradingBot.addStrategy (bot : TradingBot) (strategy : Option Strategy) :
    Option TradingBot :=
  match strategy with
  | none => some bot
  | some s =>
    let b := if bot.strategyCount = bot.strategyCapacity then bot.grow else bot
    if b.strategyCount < b.availableStrategies.length then
      some { b with
        availableStrategies := b.availableStrategies.set b.strategyCount (some s)
        strategyCount := b.strategyCount + 1 }
    else none

/-- A sequence of `addStrategy` calls, in order. -/
def TradingBot.addAll (bot : TradingBot) : List (Option Strategy) → Option TradingBot
  | [] => some bot
  | s :: rest => (bot.addStrategy s).bind (fun b => b.addAll rest)

/-- Local variables of the per-strategy evaluation in `TradingBot::runSimulation`,
with the list of days on which `decideAction` was called (instrumentation, oldest
call first). -/
structure EvalState where
  profit : ℚ
  currentHolding : ℚ
  buyPrice : ℚ
  calls : List Int

/-- Initial values `profit = 0`, `currentHolding = 0.0`, `buyPrice = 0`. -/
def EvalState.init : EvalState := ⟨0, 0, 0, []⟩

/-- Body of the day loop of `TradingBot::runSimulation` for day `j`. -/
def TradingBot.dayStep (market : Market) (strategy : Strategy) (st : EvalState) (j : Int) :
    EvalState :=
  if j < 0 ∨ j ≥ market.getNumTradingDays then st
  else
    let action := strategy.decideAction market j st.currentHolding
    let st := { st with calls := st.calls ++ [j] }
    if action = Action.BUY ∧ st.currentHolding = 0 then
      { st with buyPrice := market.getPrice j, currentHolding := 1 }
    else if action = Action.SELL ∧ st.currentHolding = 1 then
      { st with profit := st.profit + (market.getPrice j - st.buyPrice), currentHolding := 0 }
    else st

/-- The day loop of `TradingBot::runSimulation`:
`for (j = max(numTradingDays - 101, 0); j < numTradingDays; j++)`. -/
def TradingBot.dayLoop (market : Market) (strategy : Strategy) : EvalState :=
  let startDay := max (market.getNumTradingDays - 101) 0
  (forRange startDay market.getNumTradingDays).foldl (TradingBot.dayStep market strategy)
    EvalState.init

/-- The profit `TradingBot::runSimulation` computes for one strategy: the day loop
followed by the forced close of a position that is still long. -/
def TradingBot.strategyProfit (market : Market) (strategy : Strategy) : ℚ :=
  let st := TradingBot.dayLoop market strategy
  if st.currentHolding = 1 ∧ market.getNumTradingDays > 0 then
    st.profit + (market.getPrice (market.getNumTradingDays - 1) - st.buyPrice)
  else st.profit

/-- State of the strategy loop of `TradingBot::runSimulation`: the result so far and
the `decideAction` calls made so far as (strategy slot, day) pairs (instrumentation,
oldest call first). -/
structure SimState where
  simRes : SimulationResult
  asked : List (Nat × Int)

/-- Body of the strategy loop of `TradingBot::runSimulation` for slot `i`. -/
def TradingBot.strategyStep (bot : TradingBot) (market : Market) (acc : SimState) (i : Nat) :
    SimState :=
  match bot.availableStrategies.getD i none with
  | none => acc
  | some s =>
    let profit := TradingBot.strategyProfit market s
    { simRes := if profit > acc.simRes.totalReturn then ⟨some s, profit⟩ else acc.simRes
      asked := acc.asked ++ (TradingBot.dayLoop market s).calls.map (fun j => (i, j)) }

/-- Method `TradingBot::runSimulation`, instrumented with the `decideAction` calls
it makes. -/
def TradingBot.runSimulationTraced (bot : TradingBot) : SimState :=
  match bot.market with
  | none => ⟨SimulationResult.init, []⟩
  | some market =>
    if bot.strategyCount = 0 ∨ market.getNumTradingDays ≤ 1 then ⟨SimulationResult.init, []⟩
    else
      (List.range bot.strategyCount).foldl (TradingBot.strategyStep bot market)
        ⟨SimulationResult.init, []⟩

/-- Method `TradingBot::runSimulation`: the result returned. -/
def TradingBot.runSimulation (bot : TradingBot) : SimulationResult :=
  bot.runSimulationTraced.simRes

/-! ## The profit of a backtest as the specification words it -/

/-- Position of the single-unit account in the specification's state machine: flat,
or long since the executed Buy of day `b`. -/
inductive Position where
  | flat
  | long (b : Int)

/-- The holding value a strategy is shown for a position: 0 when flat, 1 when long. -/
def Position.holding : Position → ℚ
  | Position.flat => 0
  | Position.long _ => 1

/-- The trades of one backtest: the current position and the completed round trips
`(b, s)`, an executed Buy on day `b` closed by the executed Sell of day `s`, oldest
first. -/
structure TradeLog where
  position : Position
  closed : List (Int × Int)

/-- One day of the specification's state machine: a BUY returned while flat is an
executed Buy, a SELL returned while long is an executed Sell that completes a round
trip, anything else changes nothing. -/
def tradeStep (market : Market) (strategy : Strategy) (log : TradeLog) (j : Int) : TradeLog :=
  match log.position, strategy.decideAction market j log.position.holding with
  | Position.flat, Action.BUY => { log with position := Position.long j }
  | Position.long b, Action.SELL => ⟨Position.flat, log.closed ++ [(b, j)]⟩
  | _, _ => log

/-- The trades over the evaluation window `max(n - 101, 0) .. n - 1`. -/
def tradeLog (market : Market) (strategy : Strategy) : TradeLog :=
  (forRange (max (market.getNumTradingDays - 101) 0) market.getNumTradingDays).foldl
    (tradeStep market strategy) ⟨Position.flat, []⟩

/-- The profit as the specification states it: `price[s] - price[b]` summed over the
completed round trips, plus `price[n-1] - price[b]` when the position is still long
from the Buy of day `b`. -/
def specifiedProfit (market : Market) (strategy : Strategy) : ℚ :=
  ((tradeLog market strategy).closed.map
      (fun t => market.getPrice t.2 - market.getPrice t.1)).sum
    + (match (tradeLog market strategy).position with
       | Position.flat => 0
       | Position.long b =>
         market.getPrice (market.getNumTradingDays - 1) - market.getPrice b)

/-- The bot stores exactly the strategies `added`, in insertion order, in the first
`strategyCount` slots of an array whose allocated length is `strategyCapacity`. -/
def TradingBot.Stores (bot : TradingBot) (added : List Strategy) : Prop :=
  bot.availableStrategies.length = bot.strategyCapacity ∧
  bot.strategyCount = added.length ∧
  added.length ≤ bot.strategyCapacity ∧
  ∀ i, i < added.length → bot.availableStrategies[i]? = some added[i]?

/-- The comparison at the end of the strategy loop of `TradingBot::runSimulation`:
the candidate replaces the best result so far only with a strictly greater profit. -/
def TradingBot.pick (market : Market) (best : SimulationResult) (s : Strategy) :
    SimulationResult :=
  if TradingBot.strategyProfit market s > best.totalReturn then
    ⟨some s, TradingBot.strategyProfit market s⟩
  else best

/-- The relation kept between the variables of the day loop and the trade log after
the days `lo .. hi - 1`: `profit` is the sum over the completed round trips, the holding
is that of the position, `buyPrice` is the price of the day of the last executed Buy,
and every recorded day lies in the window with each Buy before its Sell. -/
def Simulates (market : Market) (lo hi : Int) (st : EvalState) (log : TradeLog) : Prop :=
  st.profit = (log.closed.map (fun t => market.getPrice t.2 - market.getPrice t.1)).sum ∧
  st.currentHolding = log.position.holding ∧
  (∀ b, log.position = Position.long b → st.buyPrice = market.getPrice b ∧ lo ≤ b ∧ b < hi) ∧
  (∀ t ∈ log.closed, lo ≤ t.1 ∧ t.1 < t.2 ∧ t.2 < hi)

/-- The holding of the day loop of `TradingBot::runSimulation` right after day `j` of
the evaluation window has been processed. -/
def TradingBot.holdingAfter (market : Market) (strategy : Strategy) (j : Int) : ℚ :=
  ((forRange (max (market.getNumTradingDays - 101) 0) (j + 1)).foldl
    (TradingBot.dayStep market strategy) EvalState.init).currentHolding

/-! ## Market: construction, simulation, last price -/

/-- Constructor `Market::Market(initialPrice, volatility, expectedYearlyReturn,
numTradingDays, seed)`: every slot of the new array points to a fresh `0.0`.  The
result is `none` when `numTradingDays` is negative (the array allocation throws). -/
def Market.new (initialPrice volatility expectedYearlyReturn : ℚ) (numTradingDays : Int)
    (seed : Int) : Option Market :=
  if numTradingDays < 0 then none
  else
    some ⟨initialPrice, volatility, expectedYearlyReturn, numTradingDays,
      some (List.replicate numTradingDays.toNat (some 0)), seed⟩

/-- Method `Market::getLastPrice` (the warning written to `cerr` is not modelled). -/
def Market.getLastPrice (m : Market) : ℚ :=
  if m.numTradingDays ≤ 0 ∨ m.prices.isNone then 0
  else m.getPrice (m.numTradingDays - 1)

/-- The constant `TRADING_DAYS_PER_YEAR` (Utils.h). -/
def TRADING_DAYS_PER_YEAR : Int := 252

/-- The C library function `round`: nearest integer, halfway cases away from zero. -/
def cround (x : ℚ) : ℚ :=
  if 0 ≤ x then (⌊x + 1 / 2⌋ : Int) else -((⌊-x + 1 / 2⌋ : Int) : ℚ)

/-- Function `roundToDecimals` (Utils.cpp): `factor = pow(10, decimals)` and
`round(value * factor) / factor`. -/
def roundToDecimals (value : ℚ) (decimals : Int) : ℚ :=
  let factor : ℚ := (10 : ℚ) ^ decimals
  cround (value * factor) / factor

/-- The functions `exp` and `sqrt` of the C math library, which have no rational
counterpart: they are parameters of the embedding. -/
structure CMath where
  exp : ℚ → ℚ
  sqrt : ℚ → ℚ

/-- The read `*prices[i]`: `none` when the slot is outside the allocated array or
holds a null pointer (undefined behaviour in C++). -/
def Market.readSlot (arr : List (Option ℚ)) (i : Int) : Option ℚ :=
  if 0 ≤ i then (arr.get? i.toNat).join else none

/-- The store `*prices[i] = v`: `none` when the slot is outside the allocated array or
holds a null pointer (undefined behaviour in C++). -/
def Market.writeSlot (arr : List (Option ℚ)) (i : Int) (v : ℚ) : Option (List (Option ℚ)) :=
  match Market.readSlot arr i with
  | none => none
  | some _ => some (arr.set i.toNat (some v))

/-- Body of the loop of `Market::simulate` for index `i`, with `Z` the value returned
by `generateZ(seed)`. -/
def Market.simulateStep (lib : CMath) (m : Market) (Z : Int → ℚ)
    (acc : Option (List (Option ℚ))) (i : Int) : Option (List (Option ℚ)) :=
  acc.bind (fun arr =>
    (Market.readSlot arr (i - 1)).bind (fun prev =>
      let deltaT : ℚ := 1 / (TRADING_DAYS_PER_YEAR : ℚ)
      Market.writeSlot arr i
        (roundToDecimals
          (prev * lib.exp ((m.expectedYearlyReturn - (1 / 2) * (m.volatility * m.volatility))
              * deltaT + m.volatility * lib.sqrt deltaT * Z i)) 3)))

/-- Method `Market::simulate`.  `Z i` is the value `generateZ(seed)` returns in the
iteration with loop index `i` (the `i`-th draw of the call).  The result is `none`
when a price slot outside the allocated array is accessed. -/
def Market.simulate (lib : CMath) (Z : Int → ℚ) (m : Market) : Option Market :=
  match m.prices with
  | none => none
  | some arr =>
    ((forRange 1 m.numTradingDays).foldl (Market.simulateStep lib m Z)
        (Market.writeSlot arr 0 (roundToDecimals m.initialPrice 3))).map
      (fun out => { m with prices := some out })

/-- The decision rule of the specification for both trend-following policies, given
the short and the long average: Buy in an uptrend while flat, Sell in a downtrend
while long, otherwise Hold. -/
def trendFollowingRule (shortAvg longAvg holding : ℚ) : Action :=
  if shortAvg > longAvg ∧ holding = 0 then Action.BUY
  else if shortAvg ≤ longAvg ∧ holding = 1 then Action.SELL
  else Action.HOLD

/-! ## The parameter-sweep factories -/

/-- Values taken by the variable of `for (int i = lo; i <= hi; i += step)` when it is
started at `i`, for at most `fuel` iterations. -/
def stepLoop (hi step : Int) : Nat → Int → List Int
  | 0, _ => []
  | fuel + 1, i => if i ≤ hi then i :: stepLoop hi step fuel (i + step) else []

/-- Values taken by the variable of `for (int i = lo; i <= hi; i += step)`, in
order.  With `lo <= hi` and a step that is not positive the variable never exceeds
`hi` and the loop does not end: `none`.  With a positive step `hi - lo + 1`
iterations are enough fuel. -/
def sweepValues (lo hi step : Int) : Option (List Int) :=
  if hi < lo then some []
  else if step ≤ 0 then none
  else some (stepLoop hi step (hi - lo + 1).toNat lo)

/-- The statement `array[index++] = value` on the pair of the array and `index`.
The result is `none` when the store falls outside the allocated array (undefined
behaviour in C++). -/
def storeNext {α : Type} (acc : Option (List (Option α) × Nat)) (value : α) :
    Option (List (Option α) × Nat) :=
  acc.bind (fun r =>
    if r.2 < r.1.length then some (r.1.set r.2 (some value), r.2 + 1) else none)

/-- The array returned by a factory, with an instrumentation field: the slots of
the allocated array (`none` is a slot that was never written, an indeterminate
pointer), and whether an `int` expression of the execution left the 32-bit range. -/
structure Generated (α : Type) where
  slots : List (Option α)
  overflow : Bool

/-- The `int` expressions evaluated by one parameter range of a factory stay in the
32-bit range: `max - min`, the quotient, the count `quotient + 1`, and the values
`i += step` gives the loop variable (`values` are the ones that pass `i <= max`). -/
def sweepFits (lo hi step : Int) (values : List Int) : Bool :=
  fitsInt (hi - lo) && fitsInt (Int.tdiv (hi - lo) step)
    && fitsInt (Int.tdiv (hi - lo) step + 1) && values.all (fun v => fitsInt (v + step))

/-- The name `baseName + "_" + to_string(i) + '_' + to_string(j)`. -/
def sweepName (baseName : String) (i j : Int) : String :=
  baseName ++ "_" ++ toString i ++ "_" ++ toString j

/-- The common body of the three `generateStrategySet` functions, which differ only in
the class `make` constructs.  The result is `none` for an integer division by zero, a
negative array size, a loop that does not end, or a store outside the array. -/
def generateSet {α : Type} (make : String → Int → Int → α) (baseName : String)
    (min1 max1 step1 min2 max2 step2 : Int) : Option (Generated α) :=
  if step1 = 0 ∨ step2 = 0 then none
  else
    let num1 := Int.tdiv (max1 - min1) step1 + 1
    let num2 := Int.tdiv (max2 - min2) step2 + 1
    let arraySize := num1 * num2
    if arraySize < 0 then none
    else
      (sweepValues min1 max1 step1).bind (fun outer =>
        let inner := sweepValues min2 max2 step2
        let filled := outer.foldl
          (fun acc i =>
            match inner with
            | none => none
            | some js => js.foldl (fun acc j => storeNext acc (make (sweepName baseName i j) i j))
                acc)
          (some (List.replicate arraySize.toNat none, 0))
        filled.map (fun r =>
          ⟨r.1, !(sweepFits min1 max1 step1 outer && fitsInt arraySize
            && (outer.isEmpty || sweepFits min2 max2 step2 (inner.getD [])))⟩))

/-- Function `MeanReversionStrategy::generateStrategySet`. -/
def MeanReversionStrategy.generateStrategySet (baseName : String)
    (minWindow maxWindow windowStep minThreshold maxThreshold thresholdStep : Int) :
    Option (Generated MeanReversionStrategy) :=
  generateSet (fun name i j => (⟨name, i, j⟩ : MeanReversionStrategy)) baseName
    minWindow maxWindow windowStep minThreshold maxThreshold thresholdStep

/-- Function `TrendFollowingStrategy::generateStrategySet`. -/
def TrendFollowingStrategy.generateStrategySet (baseName : String)
    (minShortWindow maxShortWindow stepShortWindow minLongWindow maxLongWindow
      stepLongWindow : Int) : Option (Generated TrendFollowingStrategy) :=
  generateSet (fun name i j => (⟨name, i, j⟩ : TrendFollowingStrategy)) baseName
    minShortWindow maxShortWindow stepShortWindow minLongWindow maxLongWindow stepLongWindow

/-- Function `WeightedTrendFollowingStrategy::generateStrategySet`. -/
def WeightedTrendFollowingStrategy.generateStrategySet (baseName : String)
    (minShortWindow maxShortWindow stepShortWindow minLongWindow maxLongWindow
      stepLongWindow : Int) : Option (Generated WeightedTrendFollowingStrategy) :=
  generateSet (fun name i j => (⟨⟨name, i, j⟩⟩ : WeightedTrendFollowingStrategy)) baseName
    minShortWindow maxShortWindow stepShortWindow minLongWindow maxLongWindow stepLongWindow

/-! ## Market: the process-wide random generator -/

/-- The values produced by `std::normal_distribution<>(0, 1)` over `std::mt19937`:
`normal seed k` is the value of call number `k` (counted from 0) after the generator
was constructed from `seed`; for the seed -1 it is constructed from
`std::random_device`.  Parameter of the embedding. -/
structure RandomSource where
  normal : Int → Nat → ℚ

/-- State of the function-local statics of `Market::generateZ`, which all `Market`
objects of a process share: the seed the generator was constructed from on the first
call (`none` before the first call) and the number of values drawn so far. -/
structure GenState where
  seed : Option Int
  drawn : Nat

/-- The statics of `Market::generateZ` at the start of a process. -/
def GenState.start : GenState := ⟨none, 0⟩

/-- Method `Market::generateZ(seed)`: the static generator is constructed from `seed`
on the first call only; every call returns the next value of that generator. -/
def Market.generateZ (src : RandomSource) (seed : Int) (g : GenState) : ℚ × GenState :=
  (src.normal (g.seed.getD seed) g.drawn, ⟨some (g.seed.getD seed), g.drawn + 1⟩)

/-- Body of the loop of `Market::simulate` for index `i`, on the price array and the
statics of `generateZ`. -/
def Market.simulateStepGen (lib : CMath) (src : RandomSource) (m : Market)
    (acc : Option (List (Option ℚ) × GenState)) (i : Int) :
    Option (List (Option ℚ) × GenState) :=
  acc.bind (fun st =>
    let drawn := Market.generateZ src m.seed st.2
    (Market.readSlot st.1 (i - 1)).bind (fun prev =>
      let deltaT : ℚ := 1 / (TRADING_DAYS_PER_YEAR : ℚ)
      (Market.writeSlot st.1 i
        (roundToDecimals
          (prev * lib.exp ((m.expectedYearlyReturn - (1 / 2) * (m.volatility * m.volatility))
              * deltaT + m.volatility * lib.sqrt deltaT * drawn.1)) 3)).map
        (fun out => (out, drawn.2))))

/-- Method `Market::simulate` together with the statics of `generateZ` before and
after the call.  The result is `none` when a price slot outside the allocated array
is accessed. -/
def Market.simulateGen (lib : CMath) (src : RandomSource) (g : GenState) (m : Market) :
    Option (Market × GenState) :=
  match m.prices with
  | none => none
  | some arr =>
    ((forRange 1 m.numTradingDays).foldl (Market.simulateStepGen lib src m)
        ((Market.writeSlot arr 0 (roundToDecimals m.initialPrice 3)).map
          (fun out => (out, g)))).map
      (fun r => ({ m with prices := some r.1 }, r.2))

/-- The value `generateZ` returns in the iteration with loop index `i` of a call of
`simulate` that starts with the statics `g`: draw number `g.drawn + (i - 1)` of the
generator constructed from the seed of the first call of the process. -/
def Market.drawAt (src : RandomSource) (g : GenState) (m : Market) (i : Int) : ℚ :=
  src.normal (g.seed.getD m.seed) (g.drawn + (i - 1).toNat)

/-- The price the GBM recurrence of `simulate` derives from the previous price `prev`
and the draw `Z`. -/
def Market.nextPrice (lib : CMath) (m : Market) (prev Z : ℚ) : ℚ :=
  roundToDecimals
    (prev * lib.exp ((m.expectedYearlyReturn - (1 / 2) * (m.volatility * m.volatility))
        * (1 / (TRADING_DAYS_PER_YEAR : ℚ))
      + m.volatility * lib.sqrt (1 / (TRADING_DAYS_PER_YEAR : ℚ)) * Z)) 3

/-- Every trading day of the market has an allocated, non-null price slot, as after
the parametric constructor. -/
def Market.Allocated (m : Market) : Prop :=
  ∃ arr, m.prices = some arr ∧
    ∀ k : Int, 0 ≤ k → k < m.numTradingDays → ∃ p, Market.readSlot arr k = some p

/-! ## Market: the text file -/

/-- Rounding to the nearest integer with ties to the even neighbour, the rounding of
the decimal conversions of the C library. -/
def roundHalfEven (y : ℚ) : Int :=
  if y - (⌊y⌋ : ℚ) < 1 / 2 then ⌊y⌋
  else if y - (⌊y⌋ : ℚ) > 1 / 2 then ⌊y⌋ + 1
  else if ⌊y⌋ % 2 = 0 then ⌊y⌋
  else ⌊y⌋ + 1

/-- The number denoted by the text that `ostream << x` writes for a `double` in the
default format of a stream (precision 6, conversion of `printf("%g")`): `x` rounded to
six significant decimal digits. -/
def streamDouble (x : ℚ) : ℚ :=
  if x = 0 then 0
  else
    let digits : Int := 5 - Int.log 10 |x|
    (roundHalfEven (x * (10 : ℚ) ^ digits) : ℚ) / (10 : ℚ) ^ digits

/-- The content of a market file: the five header numbers and the price tokens after
them, each token as the number its text denotes. -/
structure MarketFile where
  initialPrice : ℚ
  volatility : ℚ
  expectedYearlyReturn : ℚ
  numTradingDays : Int
  seed : Int
  prices : List ℚ

/-- Method `Market::writeToFile`, the file opened: the content written.  The two `int`
fields are written with all their digits, every `double` through `ostream << double`.
The result is `none` when `*prices[i]` reads outside the allocated array or through a
null pointer. -/
def Market.writeToFile (m : Market) : Option MarketFile :=
  ((forRange 0 m.numTradingDays).foldl
      (fun (acc : Option (List ℚ)) (i : Int) =>
        acc.bind (fun out =>
          (Market.readSlot (m.prices.getD []) i).map (fun p => out ++ [streamDouble p])))
      (some [])).map
    (fun out => ⟨streamDouble m.initialPrice, streamDouble m.volatility,
      streamDouble m.expectedYearlyReturn, m.numTradingDays, m.seed, out⟩)

/-- Body of the loop `while (inFile >> price && i < numTradingDays) *prices[i++] = price`
of the file constructor; the accumulator is the array and `i`. -/
def Market.fillStep (numTradingDays : Int) (acc : List (Option ℚ) × Int) (price : ℚ) :
    List (Option ℚ) × Int :=
  if acc.2 < numTradingDays then (acc.1.set acc.2.toNat (some price), acc.2 + 1) else acc

/-- Constructor `Market::Market(filename)`, the file opened, on the content of the
file.  The result is `none` when the day count of the header is negative (the array
allocation throws). -/
def Market.fromFile (f : MarketFile) : Option Market :=
  if f.numTradingDays < 0 then none
  else
    some ⟨f.initialPrice, f.volatility, f.expectedYearlyReturn, f.numTradingDays,
      some (f.prices.foldl (Market.fillStep f.numTradingDays)
        (List.replicate f.numTradingDays.toNat (some 0), 0)).1, f.seed⟩

/-- Body of the loop `while (inFile >> price) *prices[pricesSize++] = price` of
`Market::loadFromFile`; the accumulator is the array and `pricesSize`. -/
def Market.loadStep (acc : List (Option ℚ) × Nat) (price : ℚ) : List (Option ℚ) × Nat :=
  (acc.1.set acc.2 (some price), acc.2 + 1)

/-- Method `Market::loadFromFile`, the file opened, on the content of the file.  The
header is read first, so the loop that deletes the old slots runs to the day count of
the file: the result is `none` when it reads a slot outside the old array.  The new array
has one slot for each price token of the file. -/
def Market.loadFromFile (m : Market) (f : MarketFile) : Option Market :=
  let cleared : Bool :=
    match m.prices with
    | none => true
    | some arr => decide (f.numTradingDays ≤ (arr.length : Int))
  if cleared = false then none
  else
    some ⟨f.initialPrice, f.volatility, f.expectedYearlyReturn, f.numTradingDays,
      some (f.prices.foldl Market.loadStep
        (List.replicate f.prices.length (some 0), 0)).1, f.seed⟩

/-! ## Concrete markets and strategies used as examples -/

/-- A five-day market with stored prices 100, 102, 101, 105, 103. -/
def exampleMarket : Market :=
  ⟨100, 0, 0, 5, some [some 100, some 102, some 101, some 105, some 103], 42⟩

/-- A market with a single trading day. -/
def oneDayMarket : Market := ⟨100, 0, 0, 1, some [some 100], 42⟩

/-- A three-day market, as the file constructor can load it, with prices
0, `DBL_MAX`, 0. -/
def spikeMarket : Market := ⟨0, 0, 0, 3, some [some 0, some DBL_MAX, some 0], 42⟩

/-- A strategy whose `decideAction` returns HOLD for every index and holding. -/
def holdStrategy : Strategy := ⟨"Hold", fun _ _ _ => Action.HOLD⟩

/-- The strategy `MeanReversionStrategy("MR_2_1", 2, 1)`. -/
def exampleMeanReversion : MeanReversionStrategy := ⟨"MR_2_1", 2, 1⟩

/-- The strategy `TrendFollowingStrategy("TF_1_2", 1, 2)`. -/
def exampleTrend : TrendFollowingStrategy := ⟨"TF_1_2", 1, 2⟩

/-- The bot built by `TradingBot(&exampleMarket, 1)` after adding `MR_2_1` and then
`TF_1_2`: the second call doubles the capacity from 1 to 2. -/
def exampleBot : TradingBot :=
  ⟨some exampleMarket, [some exampleMeanReversion.toStrategy, some exampleTrend.toStrategy],
    2, 2⟩

/-- The market `Market(100, 0.2, 0.5, 3, 42)` right after construction: three slots
holding `0.0`. -/
def freshMarket : Market := ⟨100, 1 / 5, 1 / 2, 3, some [some 0, some 0, some 0], 42⟩

/-- Stand-ins for `exp` and `sqrt` used to evaluate examples: the first-order
approximation `1 + x` of `exp x` (exact at `x = 0`) and the identity. -/
def exampleMath : CMath := ⟨fun x => 1 + x, fun x => x⟩

/-- A stand-in generator used to evaluate examples: whatever the seed, call number
`k` returns `k + 1`. -/
def exampleSource : RandomSource := ⟨fun _ k => (k : ℚ) + 1⟩

/-- The market `Market(100, 0, 0, 5, 42)` right after construction: five slots holding
`0.0`. -/
def flatFresh : Market :=
  ⟨100, 0, 0, 5, some [some 0, some 0, some 0, some 0, some 0], 42⟩

/-- A market of five trading days whose prices are all 100. -/
def flatMarket : Market :=
  ⟨100, 0, 0, 5, some [some 100, some 100, some 100, some 100, some 100], 42⟩

/-- The market `Market(100, 1, 0, 2, 42)` right after construction: two slots holding
`0.0`. -/
def twoDayFresh : Market := ⟨100, 1, 0, 2, some [some 0, some 0], 42⟩

/-- The strategy `TrendFollowingStrategy("TF", 2, 2)`. -/
def flatTrend : TrendFollowingStrategy := ⟨"TF", 2, 2⟩

/-- A market of ten trading days with the prices 100, 101, ..., 109. -/
def tenDayMarket : Market :=
  ⟨100, 1 / 5, 1 / 2, 10,
    some [some 100, some 101, some 102, some 103, some 104, some 105, some 106, some 107,
      some 108, some 109], 42⟩

/-- The market `Market(1234.567, 0, 0, 1, 42)` right after construction: one slot
holding `0.0`. -/
def thousandFresh : Market := ⟨1234567 / 1000, 0, 0, 1, some [some 0], 42⟩

/-- The bot built by `TradingBot(&tenDayMarket, 1)` after adding `TF_1_2`. -/
def risingBot : TradingBot := ⟨some tenDayMarket, [some exampleTrend.toStrategy], 1, 1⟩

/-- The content of a file with the header `100 0.2 0.5 3 42` and the single price
token `100`. -/
def shortFile : MarketFile := ⟨100, 1 / 5, 1 / 2, 3, 42, [100]⟩

/-- The market `Market(100, 0.2, 0.5, 0, 42)` right after construction: an array
without slots. -/
def emptyFresh : Market := ⟨100, 1 / 5, 1 / 2, 0, some [], 42⟩

/-! ## Properties: auxiliary facts about loops -/

theorem forRange_of_le (lo hi : Int) (h : hi ≤ lo) : forRange lo hi = [] := by
  have : (hi - lo).toNat = 0 := by omega
  simp [forRange, this]

theorem forRange_snoc (lo hi : Int) (h : lo ≤ hi) :
    forRange lo (hi + 1) = forRange lo hi ++ [hi] := by
  have e : (hi + 1 - lo).toNat = (hi - lo).toNat + 1 := by omega
  have e2 : ((hi - lo).toNat : Int) = hi - lo := by omega
  simp [forRange, e, List.range_succ, e2]

theorem length_forRange (lo hi : Int) : (forRange lo hi).length = (hi - lo).toNat := by
  simp [forRange]

theorem mem_forRange (lo hi j : Int) : j ∈ forRange lo hi ↔ lo ≤ j ∧ j < hi := by
  simp only [forRange, List.mem_map, List.mem_range]
  constructor
  · rintro ⟨k, hk, rfl⟩
    omega
  · rintro ⟨h1, h2⟩
    exact ⟨(j - lo).toNat, by omega, by omega⟩

theorem nodup_forRange (lo hi : Int) : (forRange lo hi).Nodup := by
  unfold forRange
  apply List.Nodup.map _ (List.nodup_range _)
  intro a b hab
  simpa using hab

theorem sum_map_forRange (f : Int → ℚ) (lo hi : Int) :
    ((forRange lo hi).map f).sum = ∑ i ∈ Finset.Ico lo hi, f i := by
  rw [← List.sum_toFinset f (nodup_forRange lo hi)]
  congr 1
  ext j
  simp [mem_forRange]

theorem foldl_sumStep (market : Market) (l : List Int) (acc : ℚ × Int) :
    l.foldl (Strategy.sumStep market) acc
      = (acc.1 + (l.map market.getPrice).sum, acc.2 + (l.length : Int)) := by
  induction l generalizing acc with
  | nil => simp
  | cons a t ih =>
    simp only [List.foldl_cons, ih, Strategy.sumStep, List.map_cons, List.sum_cons,
      List.length_cons]
    ext
    · simp [add_assoc]
    · push_cast
      ring

/-! ## Properties: the strategies -/

/-- C7: `MeanReversionStrategy::decideAction` returns BUY exactly when the holding is 0
and the price is below `avg * (1 - threshold/100)`, SELL exactly when the holding is 1
and the price is above `avg * (1 + threshold/100)`, and HOLD in every other case, in
particular for every holding other than 0 and 1. -/
theorem meanReversion_decideAction_cases (self : MeanReversionStrategy) (market : Market)
    (index : Int) (holding : ℚ) :
    (self.decideAction market index holding = Action.BUY ↔
      holding = 0 ∧ market.getPrice index
        < Strategy.calculateMovingAverage (some market) index self.window
          * (1 - (self.threshold : ℚ) / 100)) ∧
    (self.decideAction market index holding = Action.SELL ↔
      holding = 1 ∧ market.getPrice index
        > Strategy.calculateMovingAverage (some market) index self.window
          * (1 + (self.threshold : ℚ) / 100)) ∧
    (self.decideAction market index holding = Action.HOLD ↔
      ¬ (holding = 0 ∧ market.getPrice index
        < Strategy.calculateMovingAverage (some market) index self.window
          * (1 - (self.threshold : ℚ) / 100)) ∧
      ¬ (holding = 1 ∧ market.getPrice index
        > Strategy.calculateMovingAverage (some market) index self.window
          * (1 + (self.threshold : ℚ) / 100))) ∧
    (holding ≠ 0 → holding ≠ 1 → self.decideAction market index holding = Action.HOLD) := by
  unfold MeanReversionStrategy.decideAction
  by_cases h0 : holding = 0
  · have h1 : holding ≠ 1 := by rw [h0]; norm_num
    by_cases hb : market.getPrice index
        < Strategy.calculateMovingAverage (some market) index self.window
          * (1 - (self.threshold : ℚ) / 100)
    · simp [h0, hb]
    · simp [h0, hb]
  · by_cases h1 : holding = 1
    · by_cases hs : market.getPrice index
          > Strategy.calculateMovingAverage (some market) index self.window
            * (1 + (self.threshold : ℚ) / 100)
      · simp [h1, hs]
      · simp [h1, hs]
    · simp [h0, h1]

/-- C8: `TrendFollowingStrategy::decideAction`, with S and L the simple moving averages
over the short and the long window, returns BUY exactly when S > L and the holding is
0, SELL exactly when S <= L and the holding is 1, and HOLD otherwise. -/
theorem trendFollowing_decideAction_cases (self : TrendFollowingStrategy) (market : Market)
    (index : Int) (holding : ℚ) :
    (self.decideAction market index holding = Action.BUY ↔
      Strategy.calculateMovingAverage (some market) index self.shortMovingAverageWindow
        > Strategy.calculateMovingAverage (some market) index self.longMovingAverageWindow
      ∧ holding = 0) ∧
    (self.decideAction market index holding = Action.SELL ↔
      Strategy.calculateMovingAverage (some market) index self.shortMovingAverageWindow
        ≤ Strategy.calculateMovingAverage (some market) index self.longMovingAverageWindow
      ∧ holding = 1) ∧
    (self.decideAction market index holding = Action.HOLD ↔
      ¬ (Strategy.calculateMovingAverage (some market) index self.shortMovingAverageWindow
        > Strategy.calculateMovingAverage (some market) index self.longMovingAverageWindow
        ∧ holding = 0) ∧
      ¬ (Strategy.calculateMovingAverage (some market) index self.shortMovingAverageWindow
        ≤ Strategy.calculateMovingAverage (some market) index self.longMovingAverageWindow
        ∧ holding = 1)) := by
  unfold TrendFollowingStrategy.decideAction TrendFollowingStrategy.decideActionWith
  by_cases hu : Strategy.calculateMovingAverage (some market) index
      self.shortMovingAverageWindow
        > Strategy.calculateMovingAverage (some market) index self.longMovingAverageWindow
  · have hle := not_le.mpr hu
    by_cases h0 : holding = 0
    · simp [hu, h0]
    · simp [hu, h0, hle]
  · have hle := not_lt.mp hu
    by_cases h1 : holding = 1
    · simp [hu, h1, hle]
    · simp [hu, h1, hle]

theorem calculateMovingAverage_eq_mean (market : Market) (index window : Int)
    (hi : 0 ≤ index) (hw : 0 < window) :
    Strategy.calculateMovingAverage (some market) index window
      = (∑ i ∈ Finset.Icc (max (index - window + 1) 0) index, market.getPrice i)
        / ((index - max (index - window + 1) 0 + 1 : Int) : ℚ) := by
  have hg : ¬ (index < 0 ∨ window ≤ 0) := by omega
  have hlen : (((forRange (max (index - window + 1) 0) (index + 1)).length : Nat) : Int)
      = index - max (index - window + 1) 0 + 1 := by
    rw [length_forRange]
    omega
  have hpos : (0 : Int) < index - max (index - window + 1) 0 + 1 := by omega
  have hIco : Finset.Ico (max (index - window + 1) 0) (index + 1)
      = Finset.Icc (max (index - window + 1) 0) index := by
    ext j
    simp only [Finset.mem_Ico, Finset.mem_Icc]
    omega
  simp only [Strategy.calculateMovingAverage, Strategy.calculateMovingAverageCounted, hg,
    if_false, foldl_sumStep, zero_add, hlen, hpos, gt_iff_lt, if_true, sum_map_forRange, hIco]

theorem calculateMovingAverage_fits (market : Market) (index window : Int)
    (hi : 0 ≤ index) (hmax : index < INT_MAX) (hw : 0 < window) (hwmax : window ≤ INT_MAX) :
    (Strategy.calculateMovingAverageCounted (some market) index window).overflow = false := by
  have hg : ¬ (index < 0 ∨ window ≤ 0) := by omega
  have hf : Strategy.loopFits index window = true := by
    unfold INT_MAX at hmax hwmax
    simp only [Strategy.loopFits, fitsInt, INT_MIN, INT_MAX, Bool.and_eq_true, decide_eq_true_eq]
    omega
  simp only [Strategy.calculateMovingAverageCounted, hg, if_false, hf]
  split_ifs <;> rfl

/-- C9 (code defect): at `index = INT_MAX` with `window = 1` the loop
`for (int i = startIdx; i <= index; i++)` of `Strategy::calculateMovingAverage` starts at
`startIdx = INT_MAX`, runs its body once and then increments `i` beyond `INT_MAX`, a
signed overflow: the call is undefined instead of returning the mean of the window. -/
theorem calculateMovingAverage_overflow_at_max :
    max ((2147483647 : Int) - 1 + 1) 0 = INT_MAX ∧
    forRange (max ((2147483647 : Int) - 1 + 1) 0) (2147483647 + 1) = [INT_MAX] ∧
    fitsInt (2147483647 + 1) = false ∧
    (Strategy.calculateMovingAverageCounted (some exampleMarket) 2147483647 1).overflow
      = true := by
  refine ⟨by decide, by decide, by decide, ?_⟩
  have hf : Strategy.loopFits 2147483647 1 = false := by decide
  have hg : ¬ ((2147483647 : Int) < 0 ∨ (1 : Int) ≤ 0) := by decide
  simp only [Strategy.calculateMovingAverageCounted, hg, if_false, hf]
  split_ifs <;> rfl

/-- C10: when `index < 0` or `window <= 0`, both `Strategy::calculateMovingAverage` and
the override in `WeightedTrendFollowingStrategy` return `getPrice(max(0, index))` and
execute no division; with window 0 at index 5 the result is `getPrice(5)`. -/
theorem calculateMovingAverage_degenerate (market : Market) (index window : Int)
    (h : index < 0 ∨ window ≤ 0) :
    Strategy.calculateMovingAverage (some market) index window
        = market.getPrice (max 0 index) ∧
    (Strategy.calculateMovingAverageCounted (some market) index window).divisions = 0 ∧
    WeightedTrendFollowingStrategy.calculateMovingAverage market index window
        = market.getPrice (max 0 index) ∧
    (WeightedTrendFollowingStrategy.calculateMovingAverageCounted market index
        window).divisions = 0 ∧
    Strategy.calculateMovingAverage (some market) 5 0 = market.getPrice 5 ∧
    WeightedTrendFollowingStrategy.calculateMovingAverage market 5 0 = market.getPrice 5 := by
  simp [Strategy.calculateMovingAverage, Strategy.calculateMovingAverageCounted,
    WeightedTrendFollowingStrategy.calculateMovingAverage,
    WeightedTrendFollowingStrategy.calculateMovingAverageCounted, h]

/-- Witness for C10: index 5 and window 0 on the five-day example market. -/
theorem calculateMovingAverage_degenerate_witness :
    Strategy.calculateMovingAverage (some exampleMarket) 5 0
        = exampleMarket.getPrice (max 0 5) ∧
    (Strategy.calculateMovingAverageCounted (some exampleMarket) 5 0).divisions = 0 ∧
    WeightedTrendFollowingStrategy.calculateMovingAverage exampleMarket 5 0
        = exampleMarket.getPrice (max 0 5) ∧
    (WeightedTrendFollowingStrategy.calculateMovingAverageCounted exampleMarket 5 0).divisions
        = 0 ∧
    Strategy.calculateMovingAverage (some exampleMarket) 5 0 = exampleMarket.getPrice 5 ∧
    WeightedTrendFollowingStrategy.calculateMovingAverage exampleMarket 5 0
        = exampleMarket.getPrice 5 :=
  calculateMovingAverage_degenerate exampleMarket 5 0 (Or.inr (by decide))

/-! ## Properties: storing strategies -/

theorem stores_new (market : Option Market) (c : Nat) : (TradingBot.new market c).Stores [] := by
  simp [TradingBot.Stores, TradingBot.new]

theorem stores_grow (bot : TradingBot) (added : List Strategy) (h : bot.Stores added)
    (hfull : bot.strategyCount = bot.strategyCapacity) :
    bot.grow.Stores added ∧ bot.grow.strategyCapacity = bot.strategyCapacity * 2 ∧
      bot.grow.market = bot.market := by
  obtain ⟨hlen, hcnt, hcap, hget⟩ := h
  refine ⟨⟨?_, ?_, ?_, ?_⟩, rfl, rfl⟩
  · simp [TradingBot.grow]
  · simpa [TradingBot.grow] using hcnt
  · simp only [TradingBot.grow]
    omega
  · intro i hi
    have hi2 : i < bot.strategyCapacity * 2 := by omega
    have hi3 : i < bot.strategyCount := by omega
    have hi4 : i < bot.availableStrategies.length := by omega
    simp only [TradingBot.grow, List.getElem?_map, List.getElem?_range hi2, Option.map_some',
      hi3, if_true, List.getD_eq_getElem?_getD, hget i hi, Option.getD_some]

theorem stores_addStrategy (bot bot1 : TradingBot) (added : List Strategy) (s : Strategy)
    (h : bot.Stores added) (hadd : bot.addStrategy (some s) = some bot1) :
    bot1.Stores (added ++ [s]) ∧ bot1.market = bot.market := by
  have key : ∀ b : TradingBot, b.Stores added → b.market = bot.market →
      (if b.strategyCount < b.availableStrategies.length then
        some { b with
          availableStrategies := b.availableStrategies.set b.strategyCount (some s)
          strategyCount := b.strategyCount + 1 }
      else none) = some bot1 → bot1.Stores (added ++ [s]) ∧ bot1.market = bot.market := by
    intro b hb hm hres
    obtain ⟨hlen, hcnt, hcap, hget⟩ := hb
    by_cases hlt : b.strategyCount < b.availableStrategies.length
    · rw [if_pos hlt] at hres
      have hb1 := Option.some.inj hres
      subst hb1
      refine ⟨⟨?_, ?_, ?_, ?_⟩, hm⟩
      · simpa using hlen
      · simp [hcnt]
      · simp only [List.length_append, List.length_singleton]
        omega
      · intro i hi
        simp only [List.length_append, List.length_singleton] at hi
        by_cases hie : i = added.length
        · subst hie
          have hl : added.length < b.availableStrategies.length := by omega
          simp [hcnt, List.getElem?_set, hl]
        · have hi2 : i < added.length := by omega
          have hne : b.strategyCount ≠ i := by omega
          simp only [List.getElem?_set_ne hne, hget i hi2]
          rw [List.getElem?_append_left hi2]
    · rw [if_neg hlt] at hres
      exact absurd hres (by simp)
  unfold TradingBot.addStrategy at hadd
  simp only at hadd
  by_cases hfull : bot.strategyCount = bot.strategyCapacity
  · rw [if_pos hfull] at hadd
    obtain ⟨hg, -, hgm⟩ := stores_grow bot added h hfull
    exact key bot.grow hg hgm hadd
  · rw [if_neg hfull] at hadd
    exact key bot h rfl hadd

theorem stores_addAll (ss : List Strategy) (bot bot1 : TradingBot) (added : List Strategy)
    (h : bot.Stores added) (hadd : bot.addAll (ss.map some) = some bot1) :
    bot1.Stores (added ++ ss) ∧ bot1.market = bot.market := by
  induction ss generalizing bot added with
  | nil =>
    simp only [List.map_nil, TradingBot.addAll] at hadd
    have := Option.some.inj hadd
    subst this
    simpa using h
  | cons s rest ih =>
    simp only [List.map_cons, TradingBot.addAll] at hadd
    cases hb : bot.addStrategy (some s) with
    | none => simp [hb] at hadd
    | some b =>
      rw [hb] at hadd
      simp only [Option.some_bind] at hadd
      obtain ⟨hs, hm⟩ := stores_addStrategy bot b added s h hb
      obtain ⟨hs2, hm2⟩ := ih b (added ++ [s]) hs hadd
      refine ⟨?_, hm2.trans hm⟩
      simpa using hs2

/-! ## Properties: the strategy loop of the backtester -/

theorem strategyStep_simRes (bot : TradingBot) (market : Market) (added : List Strategy)
    (h : bot.Stores added) (acc : SimState) (i : Nat) (hi : i < added.length) :
    (TradingBot.strategyStep bot market acc i).simRes
      = (added[i]?.toList).foldl (TradingBot.pick market) acc.simRes := by
  obtain ⟨-, -, -, hget⟩ := h
  have hs : added[i]? = some added[i] := List.getElem?_eq_getElem hi
  simp only [TradingBot.strategyStep, List.getD_eq_getElem?_getD, hget i hi, Option.getD_some,
    hs, Option.toList_some, List.foldl_cons, List.foldl_nil, TradingBot.pick]

theorem foldl_strategyStep_simRes (bot : TradingBot) (market : Market) (added : List Strategy)
    (h : bot.Stores added) (acc : SimState) (k : Nat) (hk : k ≤ added.length) :
    ((List.range k).foldl (TradingBot.strategyStep bot market) acc).simRes
      = (added.take k).foldl (TradingBot.pick market) acc.simRes := by
  induction k with
  | zero => simp
  | succ k ih =>
    rw [List.range_succ, List.foldl_append, List.take_succ, List.foldl_append]
    simp only [List.foldl_cons, List.foldl_nil]
    rw [strategyStep_simRes bot market added h _ k (by omega), ih (by omega)]

theorem runSimulation_eq_foldl_pick (bot : TradingBot) (market : Market)
    (added : List Strategy) (h : bot.Stores added) (hm : bot.market = some market)
    (hn : 1 < market.getNumTradingDays) (hne : added ≠ []) :
    bot.runSimulation = added.foldl (TradingBot.pick market) SimulationResult.init := by
  have hcnt : bot.strategyCount = added.length := h.2.1
  have hpos : bot.strategyCount ≠ 0 := by
    rw [hcnt]
    exact fun h0 => hne (List.length_eq_zero.mp h0)
  have hg : ¬ (bot.strategyCount = 0 ∨ market.getNumTradingDays ≤ 1) := by
    rintro (h0 | h1)
    · exact hpos h0
    · omega
  simp only [TradingBot.runSimulation, TradingBot.runSimulationTraced, hm, hg, if_false]
  rw [hcnt, foldl_strategyStep_simRes bot market added h _ added.length le_rfl, List.take_length]

theorem foldl_pick_spec (market : Market) (ss : List Strategy) :
    ((∀ t ∈ ss, TradingBot.strategyProfit market t ≤ -DBL_MAX) ∧
      ss.foldl (TradingBot.pick market) SimulationResult.init = SimulationResult.init) ∨
    (∃ pre s post, ss = pre ++ s :: post ∧
      ss.foldl (TradingBot.pick market) SimulationResult.init
        = ⟨some s, TradingBot.strategyProfit market s⟩ ∧
      -DBL_MAX < TradingBot.strategyProfit market s ∧
      (∀ t ∈ pre, TradingBot.strategyProfit market t < TradingBot.strategyProfit market s) ∧
      (∀ t ∈ post, TradingBot.strategyProfit market t ≤ TradingBot.strategyProfit market s)) := by
  induction ss using List.reverseRecOn with
  | nil => left; simp
  | append_singleton l t ih =>
    rw [List.foldl_append]
    simp only [List.foldl_cons, List.foldl_nil]
    rcases ih with ⟨hall, hres⟩ | ⟨pre, s, post, hl, hres, hgt, hpre, hpost⟩
    · rw [hres]
      by_cases ht : TradingBot.strategyProfit market t > -DBL_MAX
      · right
        refine ⟨l, t, [], rfl, ?_, ht, ?_, ?_⟩
        · simp [TradingBot.pick, SimulationResult.init, ht]
        · intro u hu
          exact lt_of_le_of_lt (hall u hu) ht
        · simp
      · left
        refine ⟨?_, ?_⟩
        · intro u hu
          rcases List.mem_append.mp hu with hu | hu
          · exact hall u hu
          · rw [List.mem_singleton.mp hu]
            exact not_lt.mp ht
        · simp [TradingBot.pick, SimulationResult.init, ht]
    · rw [hres]
      right
      by_cases ht : TradingBot.strategyProfit market t > TradingBot.strategyProfit market s
      · refine ⟨l, t, [], rfl, ?_, lt_trans hgt ht, ?_, ?_⟩
        · simp [TradingBot.pick, ht]
        · intro u hu
          rw [hl] at hu
          rcases List.mem_append.mp hu with hu | hu
          · exact lt_trans (hpre u hu) ht
          · rcases List.mem_cons.mp hu with hu | hu
            · rw [hu]
              exact ht
            · exact lt_of_le_of_lt (hpost u hu) ht
        · simp
      · refine ⟨pre, s, post ++ [t], by simp [hl], ?_, hgt, hpre, ?_⟩
        · simp [TradingBot.pick, ht]
        · intro u hu
          rcases List.mem_append.mp hu with hu | hu
          · exact hpost u hu
          · rw [List.mem_singleton.mp hu]
            exact not_lt.mp ht

theorem foldl_dayStep_hold (market : Market) (s : Strategy)
    (hold : ∀ m i h, s.decideAction m i h = Action.HOLD) (l : List Int) (st : EvalState) :
    (l.foldl (TradingBot.dayStep market s) st).profit = st.profit ∧
    (l.foldl (TradingBot.dayStep market s) st).currentHolding = st.currentHolding ∧
    (l.foldl (TradingBot.dayStep market s) st).buyPrice = st.buyPrice := by
  induction l generalizing st with
  | nil => simp
  | cons j t ih =>
    rw [List.foldl_cons]
    obtain ⟨h1, h2, h3⟩ := ih (TradingBot.dayStep market s st j)
    rw [h1, h2, h3]
    unfold TradingBot.dayStep
    by_cases hj : j < 0 ∨ j ≥ market.getNumTradingDays
    · simp [hj]
    · simp [hj, hold]

theorem strategyProfit_hold (market : Market) (s : Strategy)
    (hold : ∀ m i h, s.decideAction m i h = Action.HOLD) :
    TradingBot.strategyProfit market s = 0 := by
  obtain ⟨h1, h2, -⟩ := foldl_dayStep_hold market s hold
    (forRange (max (market.getNumTradingDays - 101) 0) market.getNumTradingDays) EvalState.init
  have h1a : (TradingBot.dayLoop market s).profit = 0 := h1
  have h2a : (TradingBot.dayLoop market s).currentHolding = 0 := h2
  simp only [TradingBot.strategyProfit, h1a, h2a]
  norm_num

theorem spikeMarket_day0 :
    exampleTrend.toStrategy.decideAction spikeMarket 0 0 = Action.HOLD := by
  have r1 : forRange 0 1 = [0] := by decide
  have p0 : spikeMarket.getPrice 0 = 0 := by rfl
  norm_num [exampleTrend, TrendFollowingStrategy.toStrategy, TrendFollowingStrategy.decideAction,
    TrendFollowingStrategy.decideActionWith, Strategy.calculateMovingAverage,
    Strategy.calculateMovingAverageCounted, Strategy.sumStep, r1, p0]

theorem spikeMarket_day1 :
    exampleTrend.toStrategy.decideAction spikeMarket 1 0 = Action.BUY := by
  have r1 : forRange 1 2 = [1] := by decide
  have r2 : forRange 0 2 = [0, 1] := by decide
  have p0 : spikeMarket.getPrice 0 = 0 := by rfl
  have p1 : spikeMarket.getPrice 1 = DBL_MAX := by rfl
  norm_num [exampleTrend, TrendFollowingStrategy.toStrategy, TrendFollowingStrategy.decideAction,
    TrendFollowingStrategy.decideActionWith, Strategy.calculateMovingAverage,
    Strategy.calculateMovingAverageCounted, Strategy.sumStep, r1, r2, p0, p1, DBL_MAX]

theorem spikeMarket_day2 :
    exampleTrend.toStrategy.decideAction spikeMarket 2 1 = Action.SELL := by
  have r1 : forRange 2 3 = [2] := by decide
  have r2 : forRange 1 3 = [1, 2] := by decide
  have p2 : spikeMarket.getPrice 2 = 0 := by rfl
  have p1 : spikeMarket.getPrice 1 = DBL_MAX := by rfl
  norm_num [exampleTrend, TrendFollowingStrategy.toStrategy, TrendFollowingStrategy.decideAction,
    TrendFollowingStrategy.decideActionWith, Strategy.calculateMovingAverage,
    Strategy.calculateMovingAverageCounted, Strategy.sumStep, r1, r2, p2, p1, DBL_MAX]

theorem spikeMarket_profit :
    TradingBot.strategyProfit spikeMarket exampleTrend.toStrategy = -DBL_MAX := by
  have r : forRange 0 3 = [0, 1, 2] := by decide
  have p2 : spikeMarket.getPrice 2 = 0 := by rfl
  have p1 : spikeMarket.getPrice 1 = DBL_MAX := by rfl
  have hn : spikeMarket.getNumTradingDays = 3 := rfl
  simp [TradingBot.strategyProfit, TradingBot.dayLoop, hn, r, TradingBot.dayStep, EvalState.init,
    spikeMarket_day0, spikeMarket_day1, spikeMarket_day2, p1, p2]

/-! ## Properties: the result of runSimulation -/

/-- C1 (as stated, refuted): on the three-day market with prices 0, `DBL_MAX`, 0 the
bot holding the single strategy `TrendFollowingStrategy("TF_1_2", 1, 2)` buys on day 1
and sells on day 2, the profit is exactly `-DBL_MAX`, and `runSimulation` returns a null
`bestStrategy` with `totalReturn = -DBL_MAX`, which is not greater than the sentinel. -/
theorem runSimulation_best_counterexample :
    3 = spikeMarket.getNumTradingDays ∧
    TradingBot.strategyProfit spikeMarket exampleTrend.toStrategy = -DBL_MAX ∧
    ((TradingBot.new (some spikeMarket) 10).addAll [some exampleTrend.toStrategy]).map
        (fun b => (b.runSimulation.bestStrategy.isNone, b.runSimulation.totalReturn))
      = some (true, -DBL_MAX) := by
  have hn : spikeMarket.getNumTradingDays = 3 := rfl
  refine ⟨rfl, spikeMarket_profit, ?_⟩
  simp [TradingBot.addAll, TradingBot.addStrategy, TradingBot.new, TradingBot.runSimulation,
    TradingBot.runSimulationTraced, hn, List.range_succ, TradingBot.strategyStep,
    spikeMarket_profit, SimulationResult.init]

/-- C1 (amended): for a market with more than one trading day and a non-empty sequence
`ss` of strategies added to a fresh bot, if some strategy has a backtest profit greater
than `-DBL_MAX` then `runSimulation` returns the earliest strategy of `ss` whose profit
is maximal (every earlier one has a strictly smaller profit, no strategy has a greater
one), `totalReturn` is that profit and exceeds `-DBL_MAX`; if no strategy has a profit
greater than `-DBL_MAX`, the sentinel result is returned. -/
theorem runSimulation_best (market : Market) (c : Nat) (ss : List Strategy) (bot : TradingBot)
    (hn : 1 < market.getNumTradingDays) (hne : ss ≠ [])
    (hadd : (TradingBot.new (some market) c).addAll (ss.map some) = some bot) :
    ((∃ t ∈ ss, -DBL_MAX < TradingBot.strategyProfit market t) →
      ∃ pre s post, ss = pre ++ s :: post ∧
        bot.runSimulation.bestStrategy = some s ∧
        bot.runSimulation.totalReturn = TradingBot.strategyProfit market s ∧
        (∀ t ∈ ss, TradingBot.strategyProfit market t ≤ TradingBot.strategyProfit market s) ∧
        (∀ t ∈ pre, TradingBot.strategyProfit market t < TradingBot.strategyProfit market s) ∧
        -DBL_MAX < bot.runSimulation.totalReturn) ∧
    ((∀ t ∈ ss, TradingBot.strategyProfit market t ≤ -DBL_MAX) →
      bot.runSimulation = SimulationResult.init) := by
  obtain ⟨hst, hm⟩ := stores_addAll ss _ bot [] (stores_new (some market) c) hadd
  rw [List.nil_append] at hst
  have hrun := runSimulation_eq_foldl_pick bot market ss hst hm hn hne
  rcases foldl_pick_spec market ss with ⟨hall, hres⟩ | ⟨pre, s, post, hl, hres, hgt, hpre, hpost⟩
  · refine ⟨?_, fun _ => hrun.trans hres⟩
    rintro ⟨t, ht, hlt⟩
    exact absurd (hall t ht) (not_le.mpr hlt)
  · refine ⟨fun _ => ⟨pre, s, post, hl, ?_, ?_, ?_, hpre, ?_⟩, ?_⟩
    · rw [hrun, hres]
    · rw [hrun, hres]
    · intro t ht
      rw [hl] at ht
      rcases List.mem_append.mp ht with ht | ht
      · exact le_of_lt (hpre t ht)
      · rcases List.mem_cons.mp ht with ht | ht
        · rw [ht]
        · exact hpost t ht
    · rw [hrun, hres]
      exact hgt
    · intro hall
      have hs : s ∈ ss := by
        rw [hl]
        simp
      exact absurd (hall s hs) (not_le.mpr hgt)

/-- Witness for C1: the five-day example market and the two example strategies added
to a bot of initial capacity 1. -/
theorem runSimulation_best_witness :
    ((∃ t ∈ [exampleMeanReversion.toStrategy, exampleTrend.toStrategy],
        -DBL_MAX < TradingBot.strategyProfit exampleMarket t) →
      ∃ pre s post, [exampleMeanReversion.toStrategy, exampleTrend.toStrategy] = pre ++ s :: post ∧
        exampleBot.runSimulation.bestStrategy = some s ∧
        exampleBot.runSimulation.totalReturn = TradingBot.strategyProfit exampleMarket s ∧
        (∀ t ∈ [exampleMeanReversion.toStrategy, exampleTrend.toStrategy],
          TradingBot.strategyProfit exampleMarket t ≤ TradingBot.strategyProfit exampleMarket s) ∧
        (∀ t ∈ pre,
          TradingBot.strategyProfit exampleMarket t < TradingBot.strategyProfit exampleMarket s) ∧
        -DBL_MAX < exampleBot.runSimulation.totalReturn) ∧
    ((∀ t ∈ [exampleMeanReversion.toStrategy, exampleTrend.toStrategy],
        TradingBot.strategyProfit exampleMarket t ≤ -DBL_MAX) →
      exampleBot.runSimulation = SimulationResult.init) :=
  runSimulation_best exampleMarket 1 [exampleMeanReversion.toStrategy, exampleTrend.toStrategy]
    exampleBot (by decide) (by simp) rfl

/-- C2: `runSimulation` returns the default `SimulationResult` (null `bestStrategy`,
`totalReturn = -DBL_MAX`) and calls no `decideAction` whenever the market pointer is
null, or `strategyCount` is 0, or the market has at most one trading day. -/
theorem runSimulation_sentinel (bot : TradingBot)
    (h : bot.market = none ∨ bot.strategyCount = 0 ∨
      ∃ m, bot.market = some m ∧ m.getNumTradingDays ≤ 1) :
    bot.runSimulation = SimulationResult.init ∧
    bot.runSimulationTraced.asked = [] ∧
    SimulationResult.init.bestStrategy = none ∧
    SimulationResult.init.totalReturn = -DBL_MAX := by
  refine ⟨?_, ?_, rfl, rfl⟩
  · unfold TradingBot.runSimulation TradingBot.runSimulationTraced
    rcases h with h | h | ⟨m, hm, hle⟩
    · simp [h]
    · cases hb : bot.market <;> simp [h]
    · simp [hm, hle]
  · unfold TradingBot.runSimulationTraced
    rcases h with h | h | ⟨m, hm, hle⟩
    · simp [h]
    · cases hb : bot.market <;> simp [h]
    · simp [hm, hle]

/-- Witness for C2: a bot on the one-day market to which the HOLD strategy was added. -/
theorem runSimulation_sentinel_witness :
    (⟨some oneDayMarket, [some holdStrategy], 1, 1⟩ : TradingBot).runSimulation
        = SimulationResult.init ∧
    (⟨some oneDayMarket, [some holdStrategy], 1, 1⟩ : TradingBot).runSimulationTraced.asked
        = [] ∧
    SimulationResult.init.bestStrategy = none ∧
    SimulationResult.init.totalReturn = -DBL_MAX :=
  runSimulation_sentinel ⟨some oneDayMarket, [some holdStrategy], 1, 1⟩
    (Or.inr (Or.inr ⟨oneDayMarket, rfl, by decide⟩))

/-- C3 (as stated, refuted): on a market with a single trading day, a bot to which only
the always-HOLD strategy was added returns a null `bestStrategy` and
`totalReturn = -DBL_MAX`, not that strategy with return 0. -/
theorem runSimulation_single_hold_counterexample :
    (∀ m i h, holdStrategy.decideAction m i h = Action.HOLD) ∧
    ((TradingBot.new (some oneDayMarket) 10).addStrategy (some holdStrategy)).map
        (fun b => (b.runSimulation.bestStrategy.isNone, b.runSimulation.totalReturn))
      = some (true, -DBL_MAX) ∧
    -DBL_MAX ≠ 0 := by
  have hn : oneDayMarket.getNumTradingDays = 1 := rfl
  refine ⟨fun _ _ _ => rfl, ?_, by norm_num [DBL_MAX]⟩
  simp [TradingBot.addStrategy, TradingBot.new, TradingBot.runSimulation,
    TradingBot.runSimulationTraced, hn, SimulationResult.init]

/-- C3 (amended): for every market with more than one trading day, a bot to which
exactly one strategy has been added, whose `decideAction` returns HOLD for every index
and holding, returns that strategy as `bestStrategy` with `totalReturn` 0. -/
theorem runSimulation_single_hold (market : Market) (c : Nat) (s : Strategy) (bot : TradingBot)
    (hn : 1 < market.getNumTradingDays)
    (hold : ∀ m i h, s.decideAction m i h = Action.HOLD)
    (hadd : (TradingBot.new (some market) c).addStrategy (some s) = some bot) :
    bot.runSimulation.bestStrategy = some s ∧ bot.runSimulation.totalReturn = 0 := by
  obtain ⟨hst, hm⟩ := stores_addStrategy _ bot [] s (stores_new (some market) c) hadd
  rw [List.nil_append] at hst
  have hrun := runSimulation_eq_foldl_pick bot market [s] hst hm hn (by simp)
  have h0 : TradingBot.strategyProfit market s = 0 := strategyProfit_hold market s hold
  have hlt : (0 : ℚ) > -DBL_MAX := by norm_num [DBL_MAX]
  rw [hrun]
  simp [TradingBot.pick, h0, SimulationResult.init, hlt]

/-- Witness for C3: the always-HOLD strategy on the five-day example market. -/
theorem runSimulation_single_hold_witness :
    (⟨some exampleMarket, [some holdStrategy], 1, 1⟩ : TradingBot).runSimulation.bestStrategy
        = some holdStrategy ∧
    (⟨some exampleMarket, [some holdStrategy], 1, 1⟩ : TradingBot).runSimulation.totalReturn
        = 0 :=
  runSimulation_single_hold exampleMarket 1 holdStrategy
    ⟨some exampleMarket, [some holdStrategy], 1, 1⟩ (by decide) (fun _ _ _ => rfl) rfl

/-! ## Properties: the day loop of the backtester -/

theorem dayStep_holding (market : Market) (s : Strategy) (st : EvalState) (j : Int)
    (h : st.currentHolding = 0 ∨ st.currentHolding = 1) :
    (TradingBot.dayStep market s st j).currentHolding = 0 ∨
      (TradingBot.dayStep market s st j).currentHolding = 1 := by
  unfold TradingBot.dayStep
  by_cases hj : j < 0 ∨ j ≥ market.getNumTradingDays
  · rw [if_pos hj]
    exact h
  · rw [if_neg hj]
    by_cases hb : s.decideAction market j st.currentHolding = Action.BUY ∧ st.currentHolding = 0
    · rw [if_pos hb]
      exact Or.inr rfl
    · by_cases hs : s.decideAction market j st.currentHolding = Action.SELL ∧
          st.currentHolding = 1
      · rw [if_neg hb, if_pos hs]
        exact Or.inl rfl
      · rw [if_neg hb, if_neg hs]
        exact h

theorem foldl_dayStep_holding (market : Market) (s : Strategy) (l : List Int) (st : EvalState)
    (h : st.currentHolding = 0 ∨ st.currentHolding = 1) :
    (l.foldl (TradingBot.dayStep market s) st).currentHolding = 0 ∨
      (l.foldl (TradingBot.dayStep market s) st).currentHolding = 1 := by
  induction l generalizing st with
  | nil => simpa using h
  | cons j t ih =>
    rw [List.foldl_cons]
    exact ih _ (dayStep_holding market s st j h)

/-- C6: in the day loop of `runSimulation`, for an arbitrary decision function, the
holding after any number of processed days is 0 or 1; one day moves it from 0 to 1 only
when `decideAction` returned BUY and from 1 to 0 only when it returned SELL; and a HOLD,
a BUY while the holding is 1, or a SELL while the holding is 0 leaves `profit`,
`currentHolding` and `buyPrice` unchanged. -/
theorem dayLoop_state_machine (market : Market) (s : Strategy) :
    (∀ k : Nat,
      (((forRange (max (market.getNumTradingDays - 101) 0) market.getNumTradingDays).take k).foldl
          (TradingBot.dayStep market s) EvalState.init).currentHolding = 0 ∨
      (((forRange (max (market.getNumTradingDays - 101) 0) market.getNumTradingDays).take k).foldl
          (TradingBot.dayStep market s) EvalState.init).currentHolding = 1) ∧
    (∀ (st : EvalState) (j : Int),
      (st.currentHolding = 0 → (TradingBot.dayStep market s st j).currentHolding = 1 →
        s.decideAction market j st.currentHolding = Action.BUY) ∧
      (st.currentHolding = 1 → (TradingBot.dayStep market s st j).currentHolding = 0 →
        s.decideAction market j st.currentHolding = Action.SELL) ∧
      (s.decideAction market j st.currentHolding = Action.HOLD ∨
        (s.decideAction market j st.currentHolding = Action.BUY ∧ st.currentHolding = 1) ∨
        (s.decideAction market j st.currentHolding = Action.SELL ∧ st.currentHolding = 0) →
        (TradingBot.dayStep market s st j).profit = st.profit ∧
        (TradingBot.dayStep market s st j).currentHolding = st.currentHolding ∧
        (TradingBot.dayStep market s st j).buyPrice = st.buyPrice)) := by
  refine ⟨fun k => foldl_dayStep_holding market s _ _ (Or.inl rfl), ?_⟩
  intro st j
  have h01 : (0 : ℚ) ≠ 1 := by norm_num
  unfold TradingBot.dayStep
  by_cases hj : j < 0 ∨ j ≥ market.getNumTradingDays
  · rw [if_pos hj]
    refine ⟨?_, ?_, fun _ => ⟨rfl, rfl, rfl⟩⟩
    · intro h0 h1
      exact absurd (h0.symm.trans h1) h01
    · intro h1 h0
      exact absurd (h0.symm.trans h1) h01
  · rw [if_neg hj]
    by_cases hb : s.decideAction market j st.currentHolding = Action.BUY ∧ st.currentHolding = 0
    · rw [if_pos hb]
      refine ⟨fun _ _ => hb.1, ?_, ?_⟩
      · intro h1
        exact absurd (hb.2.symm.trans h1) h01
      · rintro (ha | ⟨-, h1⟩ | ⟨ha, -⟩)
        · rw [hb.1] at ha
          exact absurd ha (by decide)
        · exact absurd (hb.2.symm.trans h1) h01
        · rw [hb.1] at ha
          exact absurd ha (by decide)
    · by_cases hs : s.decideAction market j st.currentHolding = Action.SELL ∧
          st.currentHolding = 1
      · rw [if_neg hb, if_pos hs]
        refine ⟨?_, fun _ _ => hs.1, ?_⟩
        · intro h0
          exact absurd (h0.symm.trans hs.2) h01
        · rintro (ha | ⟨ha, -⟩ | ⟨-, h0⟩)
          · rw [hs.1] at ha
            exact absurd ha (by decide)
          · rw [hs.1] at ha
            exact absurd ha (by decide)
          · exact absurd (h0.symm.trans hs.2) h01
      · rw [if_neg hb, if_neg hs]
        refine ⟨?_, ?_, fun _ => ⟨rfl, rfl, rfl⟩⟩
        · intro h0 h1
          exact absurd (h0.symm.trans h1) h01
        · intro h1 h0
          exact absurd (h0.symm.trans h1) h01

theorem dayStep_calls (market : Market) (s : Strategy) (st : EvalState) (j : Int)
    (hj : 0 ≤ j ∧ j < market.getNumTradingDays) :
    (TradingBot.dayStep market s st j).calls = st.calls ++ [j] := by
  have hg : ¬ (j < 0 ∨ j ≥ market.getNumTradingDays) := by omega
  unfold TradingBot.dayStep
  rw [if_neg hg]
  by_cases hb : s.decideAction market j st.currentHolding = Action.BUY ∧ st.currentHolding = 0
  · rw [if_pos hb]
  · by_cases hs : s.decideAction market j st.currentHolding = Action.SELL ∧
        st.currentHolding = 1
    · rw [if_neg hb, if_pos hs]
    · rw [if_neg hb, if_neg hs]

theorem foldl_dayStep_calls (market : Market) (s : Strategy) (l : List Int)
    (hl : ∀ j ∈ l, 0 ≤ j ∧ j < market.getNumTradingDays) (st : EvalState) :
    (l.foldl (TradingBot.dayStep market s) st).calls = st.calls ++ l := by
  induction l generalizing st with
  | nil => simp
  | cons j t ih =>
    rw [List.foldl_cons, ih (fun x hx => hl x (List.mem_cons_of_mem j hx)),
      dayStep_calls market s st j (hl j (List.mem_cons_self j t))]
    simp

theorem dayLoop_calls (market : Market) (s : Strategy) :
    (TradingBot.dayLoop market s).calls
      = forRange (max (market.getNumTradingDays - 101) 0) market.getNumTradingDays := by
  unfold TradingBot.dayLoop
  rw [foldl_dayStep_calls]
  · simp [EvalState.init]
  · intro j hj
    rw [mem_forRange] at hj
    omega

theorem foldl_strategyStep_asked (bot : TradingBot) (market : Market) (i : Nat) (s : Strategy)
    (hs : bot.availableStrategies.getD i none = some s) (r : SimulationResult) (k : Nat) :
    ((((List.range k).foldl (TradingBot.strategyStep bot market) ⟨r, []⟩).asked.filter
        (fun c => decide (c.1 = i))).map Prod.snd)
      = if i < k then (TradingBot.dayLoop market s).calls else [] := by
  induction k with
  | zero => simp
  | succ k ih =>
    rw [List.range_succ, List.foldl_append]
    simp only [List.foldl_cons, List.foldl_nil]
    generalize (List.range k).foldl (TradingBot.strategyStep bot market) ⟨r, []⟩ = acc at ih ⊢
    unfold TradingBot.strategyStep
    by_cases hki : k = i
    · subst hki
      rw [hs]
      simp only [List.filter_append, List.map_append, ih, lt_irrefl, if_false, List.nil_append,
        Nat.lt_succ_self, if_true]
      rw [List.filter_eq_self.mpr]
      · simp [Function.comp_def]
      · intro c hc
        rw [List.mem_map] at hc
        obtain ⟨j, -, rfl⟩ := hc
        simp
    · have hlt : (i < k + 1) = (i < k) := by
        apply propext
        omega
      cases hk : bot.availableStrategies.getD k none with
      | none =>
        simp only [ih, hlt]
      | some t =>
        simp only [List.filter_append, List.map_append, ih, hlt]
        rw [List.filter_eq_nil_iff.mpr]
        · simp
        · intro c hc
          rw [List.mem_map] at hc
          obtain ⟨j, -, rfl⟩ := hc
          simpa using hki

/-- C4: for a market with `n > 1` trading days and every strategy stored in the bot,
`runSimulation` calls that strategy's `decideAction` exactly for the days
`max(n - 101, 0), ..., n - 1`, once each and in increasing order; these are
`min(n, 101)` days, and for `n = 50` they are the days 0 to 49. -/
theorem runSimulation_evaluation_window (bot : TradingBot) (market : Market) (i : Nat)
    (s : Strategy) (hm : bot.market = some market) (hn : 1 < market.getNumTradingDays)
    (hi : i < bot.strategyCount) (hs : bot.availableStrategies.getD i none = some s) :
    ((bot.runSimulationTraced.asked.filter (fun c => decide (c.1 = i))).map Prod.snd
      = (List.range (min market.getNumTradingDays 101).toNat).map
          (fun (k : Nat) => max (market.getNumTradingDays - 101) 0 + (k : Int))) ∧
    ((bot.runSimulationTraced.asked.filter (fun c => decide (c.1 = i))).length
      = (min market.getNumTradingDays 101).toNat) ∧
    (market.getNumTradingDays = 50 →
      (bot.runSimulationTraced.asked.filter (fun c => decide (c.1 = i))).map Prod.snd
        = (List.range 50).map (fun (k : Nat) => (k : Int))) := by
  have hg : ¬ (bot.strategyCount = 0 ∨ market.getNumTradingDays ≤ 1) := by omega
  have hcount : (min market.getNumTradingDays 101).toNat
      = (market.getNumTradingDays - max (market.getNumTradingDays - 101) 0).toNat := by omega
  have main : (bot.runSimulationTraced.asked.filter (fun c => decide (c.1 = i))).map Prod.snd
      = (List.range (min market.getNumTradingDays 101).toNat).map
          (fun (k : Nat) => max (market.getNumTradingDays - 101) 0 + (k : Int)) := by
    simp only [TradingBot.runSimulationTraced, hm, hg, if_false]
    rw [foldl_strategyStep_asked bot market i s hs, if_pos hi, dayLoop_calls, hcount]
    rfl
  refine ⟨main, ?_, ?_⟩
  · have := congrArg List.length main
    simpa using this
  · intro h50
    rw [main, h50]
    simp

/-- Witness for C4: slot 1 of the example bot on the five-day example market. -/
theorem runSimulation_evaluation_window_witness :
    ((exampleBot.runSimulationTraced.asked.filter (fun c => decide (c.1 = 1))).map Prod.snd
      = (List.range (min exampleMarket.getNumTradingDays 101).toNat).map
          (fun (k : Nat) => max (exampleMarket.getNumTradingDays - 101) 0 + (k : Int))) ∧
    ((exampleBot.runSimulationTraced.asked.filter (fun c => decide (c.1 = 1))).length
      = (min exampleMarket.getNumTradingDays 101).toNat) ∧
    (exampleMarket.getNumTradingDays = 50 →
      (exampleBot.runSimulationTraced.asked.filter (fun c => decide (c.1 = 1))).map Prod.snd
        = (List.range 50).map (fun (k : Nat) => (k : Int))) :=
  runSimulation_evaluation_window exampleBot exampleMarket 1 exampleTrend.toStrategy rfl
    (by decide) (by decide) rfl

/-! ## Properties: the profit of one backtest -/

theorem dayStep_buy (market : Market) (s : Strategy) (st : EvalState) (j : Int)
    (hj : 0 ≤ j ∧ j < market.getNumTradingDays)
    (ha : s.decideAction market j st.currentHolding = Action.BUY) (hh : st.currentHolding = 0) :
    TradingBot.dayStep market s st j
      = ⟨st.profit, 1, market.getPrice j, st.calls ++ [j]⟩ := by
  have hg : ¬ (j < 0 ∨ j ≥ market.getNumTradingDays) := by omega
  unfold TradingBot.dayStep
  rw [if_neg hg, if_pos ⟨ha, hh⟩]

theorem dayStep_sell (market : Market) (s : Strategy) (st : EvalState) (j : Int)
    (hj : 0 ≤ j ∧ j < market.getNumTradingDays)
    (ha : s.decideAction market j st.currentHolding = Action.SELL) (hh : st.currentHolding = 1) :
    TradingBot.dayStep market s st j
      = ⟨st.profit + (market.getPrice j - st.buyPrice), 0, st.buyPrice, st.calls ++ [j]⟩ := by
  have hg : ¬ (j < 0 ∨ j ≥ market.getNumTradingDays) := by omega
  have hb : ¬ (s.decideAction market j st.currentHolding = Action.BUY ∧ st.currentHolding = 0) := by
    rw [ha]
    simp
  unfold TradingBot.dayStep
  rw [if_neg hg, if_neg hb, if_pos ⟨ha, hh⟩]

theorem dayStep_other (market : Market) (s : Strategy) (st : EvalState) (j : Int)
    (hj : 0 ≤ j ∧ j < market.getNumTradingDays)
    (hb : ¬ (s.decideAction market j st.currentHolding = Action.BUY ∧ st.currentHolding = 0))
    (hs : ¬ (s.decideAction market j st.currentHolding = Action.SELL ∧ st.currentHolding = 1)) :
    TradingBot.dayStep market s st j
      = ⟨st.profit, st.currentHolding, st.buyPrice, st.calls ++ [j]⟩ := by
  have hg : ¬ (j < 0 ∨ j ≥ market.getNumTradingDays) := by omega
  unfold TradingBot.dayStep
  rw [if_neg hg, if_neg hb, if_neg hs]

theorem tradeStep_flat (market : Market) (s : Strategy) (log : TradeLog) (j : Int)
    (hpos : log.position = Position.flat) :
    tradeStep market s log j
      = if s.decideAction market j 0 = Action.BUY then ⟨Position.long j, log.closed⟩ else log := by
  unfold tradeStep
  rw [hpos]
  cases ha : s.decideAction market j (Position.flat).holding <;>
    simp only [Position.holding] at ha <;> simp [ha]

theorem tradeStep_long (market : Market) (s : Strategy) (log : TradeLog) (j b : Int)
    (hpos : log.position = Position.long b) :
    tradeStep market s log j
      = if s.decideAction market j 1 = Action.SELL then
          ⟨Position.flat, log.closed ++ [(b, j)]⟩
        else log := by
  unfold tradeStep
  rw [hpos]
  cases ha : s.decideAction market j (Position.long b).holding <;>
    simp only [Position.holding] at ha <;> simp [ha]

theorem simulates_step (market : Market) (s : Strategy) (lo j : Int) (st : EvalState)
    (log : TradeLog) (hlo : lo ≤ j) (hj : 0 ≤ j ∧ j < market.getNumTradingDays)
    (h : Simulates market lo j st log) :
    Simulates market lo (j + 1) (TradingBot.dayStep market s st j) (tradeStep market s log j) := by
  unfold Simulates at h ⊢
  obtain ⟨hp, hh, hb, hc⟩ := h
  have h01 : (0 : ℚ) ≠ 1 := by norm_num
  have hc1 : ∀ t ∈ log.closed, lo ≤ t.1 ∧ t.1 < t.2 ∧ t.2 < j + 1 := by
    intro t ht
    have := hc t ht
    omega
  have hb1 : ∀ b, log.position = Position.long b →
      st.buyPrice = market.getPrice b ∧ lo ≤ b ∧ b < j + 1 := by
    intro b hb2
    have := hb b hb2
    exact ⟨this.1, this.2.1, by omega⟩
  cases hpos : log.position with
  | flat =>
    have hh0 : st.currentHolding = 0 := by rw [hh, hpos]; rfl
    rw [tradeStep_flat market s log j hpos]
    by_cases ha : s.decideAction market j 0 = Action.BUY
    · rw [if_pos ha, dayStep_buy market s st j hj (by rw [hh0]; exact ha) hh0]
      refine ⟨hp, rfl, ?_, hc1⟩
      intro b hb2
      have hbj : j = b := by
        injection hb2
      subst hbj
      exact ⟨rfl, hlo, by omega⟩
    · rw [if_neg ha, dayStep_other market s st j hj (by rw [hh0]; exact fun h => ha h.1)
        (fun h => h01 (hh0.symm.trans h.2))]
      exact ⟨hp, hh, hb1, hc1⟩
  | long b0 =>
    have hh1 : st.currentHolding = 1 := by rw [hh, hpos]; rfl
    obtain ⟨hbp, hb0lo, hb0j⟩ := hb b0 hpos
    rw [tradeStep_long market s log j b0 hpos]
    by_cases ha : s.decideAction market j 1 = Action.SELL
    · rw [if_pos ha, dayStep_sell market s st j hj (by rw [hh1]; exact ha) hh1]
      refine ⟨?_, rfl, ?_, ?_⟩
      · simp only [List.map_append, List.sum_append, List.map_cons, List.map_nil,
          List.sum_cons, List.sum_nil, add_zero]
        rw [hp, hbp]
      · intro b hb2
        exact absurd hb2 (by simp)
      · intro t ht
        rcases List.mem_append.mp ht with ht | ht
        · exact hc1 t ht
        · rw [List.mem_singleton.mp ht]
          exact ⟨hb0lo, hb0j, by omega⟩
    · rw [if_neg ha, dayStep_other market s st j hj (fun h => h01 (h.2.symm.trans hh1))
        (by rw [hh1]; exact fun h => ha h.1)]
      exact ⟨hp, hh, hb1, hc1⟩

theorem simulates_forRange (market : Market) (s : Strategy) (lo : Int) (h0 : 0 ≤ lo) (hi : Int)
    (hlo : lo ≤ hi) :
    hi ≤ market.getNumTradingDays →
    Simulates market lo hi
      ((forRange lo hi).foldl (TradingBot.dayStep market s) EvalState.init)
      ((forRange lo hi).foldl (tradeStep market s) ⟨Position.flat, []⟩) := by
  refine @Int.le_induction (fun hi => hi ≤ market.getNumTradingDays →
    Simulates market lo hi
      ((forRange lo hi).foldl (TradingBot.dayStep market s) EvalState.init)
      ((forRange lo hi).foldl (tradeStep market s) ⟨Position.flat, []⟩)) lo ?_ ?_ hi hlo
  · intro _
    rw [forRange_of_le lo lo le_rfl]
    unfold Simulates
    refine ⟨rfl, rfl, ?_, ?_⟩
    · intro b hb
      exact absurd hb (by simp)
    · intro t ht
      exact absurd ht (by simp)
  · intro j hj ih hn
    rw [forRange_snoc lo j hj, List.foldl_append, List.foldl_append]
    simp only [List.foldl_cons, List.foldl_nil]
    exact simulates_step market s lo j _ _ hj ⟨by omega, by omega⟩ (ih (by omega))

/-- C5: for a market with `n > 1` trading days and any strategy, the profit computed
by `runSimulation` is the sum of `price[s] - price[b]` over the round trips (an executed
Buy on day `b`, a BUY returned while flat, closed by the next executed Sell on day
`s > b`, a SELL returned while long) plus, when the position is still long after day
`n - 1` from the Buy of day `b`, the forced-close term `price[n-1] - price[b]`; all these
days lie in the evaluation window. -/
theorem strategyProfit_eq_specifiedProfit (market : Market) (s : Strategy)
    (hn : 1 < market.getNumTradingDays) :
    TradingBot.strategyProfit market s = specifiedProfit market s ∧
    (∀ t ∈ (tradeLog market s).closed,
      max (market.getNumTradingDays - 101) 0 ≤ t.1 ∧ t.1 < t.2 ∧
        t.2 ≤ market.getNumTradingDays - 1) ∧
    (∀ b, (tradeLog market s).position = Position.long b →
      max (market.getNumTradingDays - 101) 0 ≤ b ∧ b ≤ market.getNumTradingDays - 1) := by
  obtain ⟨hp, hh, hb, hc⟩ := simulates_forRange market s
    (max (market.getNumTradingDays - 101) 0) (by omega) market.getNumTradingDays (by omega)
    le_rfl
  have hp1 : (TradingBot.dayLoop market s).profit
      = ((tradeLog market s).closed.map
          (fun t => market.getPrice t.2 - market.getPrice t.1)).sum := hp
  have hh1 : (TradingBot.dayLoop market s).currentHolding
      = (tradeLog market s).position.holding := hh
  have hb1 : ∀ b, (tradeLog market s).position = Position.long b →
      (TradingBot.dayLoop market s).buyPrice = market.getPrice b ∧
        max (market.getNumTradingDays - 101) 0 ≤ b ∧ b < market.getNumTradingDays := hb
  have hc1 : ∀ t ∈ (tradeLog market s).closed,
      max (market.getNumTradingDays - 101) 0 ≤ t.1 ∧ t.1 < t.2 ∧
        t.2 < market.getNumTradingDays := hc
  refine ⟨?_, ?_, ?_⟩
  · unfold TradingBot.strategyProfit specifiedProfit
    simp only [hp1, hh1]
    cases hpos : (tradeLog market s).position with
    | flat =>
      have hne : ¬ ((Position.flat).holding = 1 ∧ market.getNumTradingDays > 0) := by
        simp [Position.holding]
      rw [if_neg hne]
      simp
    | long b =>
      have hpo : (Position.long b).holding = 1 ∧ market.getNumTradingDays > 0 :=
        ⟨rfl, by omega⟩
      rw [if_pos hpo, (hb1 b hpos).1]
  · intro t ht
    have := hc1 t ht
    omega
  · intro b hb2
    have := hb1 b hb2
    omega

/-- Witness for C5: the trend-following example strategy on the five-day example
market. -/
theorem strategyProfit_eq_specifiedProfit_witness :
    TradingBot.strategyProfit exampleMarket exampleTrend.toStrategy
      = specifiedProfit exampleMarket exampleTrend.toStrategy ∧
    (∀ t ∈ (tradeLog exampleMarket exampleTrend.toStrategy).closed,
      max (exampleMarket.getNumTradingDays - 101) 0 ≤ t.1 ∧ t.1 < t.2 ∧
        t.2 ≤ exampleMarket.getNumTradingDays - 1) ∧
    (∀ b, (tradeLog exampleMarket exampleTrend.toStrategy).position = Position.long b →
      max (exampleMarket.getNumTradingDays - 101) 0 ≤ b ∧
        b ≤ exampleMarket.getNumTradingDays - 1) :=
  strategyProfit_eq_specifiedProfit exampleMarket exampleTrend.toStrategy (by decide)

/-! ## Properties: the simple average at the first day, the weighted decision rule -/

theorem calculateMovingAverage_at_zero (market : Market) (window : Int) (hw : 0 < window) :
    Strategy.calculateMovingAverage (some market) 0 window = market.getPrice 0 := by
  rw [calculateMovingAverage_eq_mean market 0 window le_rfl hw]
  have hs : max (0 - window + 1) 0 = 0 := by omega
  rw [hs]
  simp

/-- C11: for every market and every `window > 0`, `Strategy::calculateMovingAverage`
at index 0 returns `getPrice(0)`; no `int` expression of the call overflows. -/
theorem calculateMovingAverage_index_zero (market : Market) (window : Int) (hw : 0 < window) :
    Strategy.calculateMovingAverage (some market) 0 window = market.getPrice 0 ∧
    (window ≤ INT_MAX →
      (Strategy.calculateMovingAverageCounted (some market) 0 window).overflow = false) := by
  exact ⟨calculateMovingAverage_at_zero market window hw, fun hmax =>
    calculateMovingAverage_fits market 0 window le_rfl (by decide) hw hmax⟩

/-- Witness for C11: window 5 on the five-day example market. -/
theorem calculateMovingAverage_index_zero_witness :
    Strategy.calculateMovingAverage (some exampleMarket) 0 5 = exampleMarket.getPrice 0 ∧
    ((5 : Int) ≤ INT_MAX →
      (Strategy.calculateMovingAverageCounted (some exampleMarket) 0 5).overflow = false) :=
  calculateMovingAverage_index_zero exampleMarket 5 (by decide)

/-- C14: `decideAction` of a `WeightedTrendFollowingStrategy` is the trend-following
decision rule applied to the exponentially weighted averages of the short and the long
window: BUY exactly when the short average exceeds the long one and the holding is 0,
SELL exactly when it does not exceed it and the holding is 1, HOLD otherwise; the plain
`TrendFollowingStrategy` applies the same rule to the simple averages. -/
theorem weighted_decideAction_rule (self : WeightedTrendFollowingStrategy) (market : Market)
    (index : Int) (holding : ℚ) :
    self.decideAction market index holding
      = trendFollowingRule
          (WeightedTrendFollowingStrategy.calculateMovingAverage market index
            self.shortMovingAverageWindow)
          (WeightedTrendFollowingStrategy.calculateMovingAverage market index
            self.longMovingAverageWindow) holding ∧
    self.toTrendFollowingStrategy.decideAction market index holding
      = trendFollowingRule
          (Strategy.calculateMovingAverage (some market) index self.shortMovingAverageWindow)
          (Strategy.calculateMovingAverage (some market) index self.longMovingAverageWindow)
          holding ∧
    (self.decideAction market index holding = Action.BUY ↔
      WeightedTrendFollowingStrategy.calculateMovingAverage market index
          self.shortMovingAverageWindow
        > WeightedTrendFollowingStrategy.calculateMovingAverage market index
          self.longMovingAverageWindow
      ∧ holding = 0) ∧
    (self.decideAction market index holding = Action.SELL ↔
      WeightedTrendFollowingStrategy.calculateMovingAverage market index
          self.shortMovingAverageWindow
        ≤ WeightedTrendFollowingStrategy.calculateMovingAverage market index
          self.longMovingAverageWindow
      ∧ holding = 1) ∧
    (self.decideAction market index holding = Action.HOLD ↔
      ¬ (WeightedTrendFollowingStrategy.calculateMovingAverage market index
          self.shortMovingAverageWindow
        > WeightedTrendFollowingStrategy.calculateMovingAverage market index
          self.longMovingAverageWindow
        ∧ holding = 0) ∧
      ¬ (WeightedTrendFollowingStrategy.calculateMovingAverage market index
          self.shortMovingAverageWindow
        ≤ WeightedTrendFollowingStrategy.calculateMovingAverage market index
          self.longMovingAverageWindow
        ∧ holding = 1)) := by
  have key : ∀ (S L : ℚ),
      (if (decide (S > L)) = true ∧ holding = 0 then Action.BUY
        else if (decide (S > L)) = false ∧ holding = 1 then Action.SELL else Action.HOLD)
        = trendFollowingRule S L holding := by
    intro S L
    unfold trendFollowingRule
    by_cases hu : S > L
    · have hle := not_le.mpr hu
      simp [hu, hle]
    · have hle := not_lt.mp hu
      simp [hu, hle]
  have hw : self.decideAction market index holding
      = trendFollowingRule
          (WeightedTrendFollowingStrategy.calculateMovingAverage market index
            self.shortMovingAverageWindow)
          (WeightedTrendFollowingStrategy.calculateMovingAverage market index
            self.longMovingAverageWindow) holding := by
    unfold WeightedTrendFollowingStrategy.decideAction TrendFollowingStrategy.decideActionWith
    exact key _ _
  refine ⟨hw, ?_, ?_⟩
  · unfold TrendFollowingStrategy.decideAction TrendFollowingStrategy.decideActionWith
    exact key _ _
  · rw [hw]
    unfold trendFollowingRule
    by_cases hu : WeightedTrendFollowingStrategy.calculateMovingAverage market index
          self.shortMovingAverageWindow
        > WeightedTrendFollowingStrategy.calculateMovingAverage market index
          self.longMovingAverageWindow
    · have hle := not_le.mpr hu
      by_cases h0 : holding = 0
      · simp [hu, h0]
      · simp [hu, h0, hle]
    · have hle := not_lt.mp hu
      by_cases h1 : holding = 1
      · simp [hu, h1, hle]
      · simp [hu, h1, hle]

/-! ## Properties: null strategies, the last price -/

/-- C17: `addStrategy` called with a null strategy returns at once: the bot (stored
strategies, `strategyCount`, `strategyCapacity`, market) is unchanged, and so is the
result of a following `runSimulation`. -/
theorem addStrategy_null (bot : TradingBot) :
    bot.addStrategy none = some bot ∧
    (bot.addStrategy none).map TradingBot.runSimulation = some bot.runSimulation ∧
    (bot.addStrategy none).map TradingBot.runSimulationTraced
      = some bot.runSimulationTraced := by
  refine ⟨rfl, rfl, rfl⟩

/-- C20: for a market with `n > 0` trading days `getLastPrice()` equals
`getPrice(n - 1)`; with `n <= 0` or a null price array it returns `0.0`. -/
theorem getLastPrice_cases (m : Market) :
    (0 < m.getNumTradingDays → m.getLastPrice = m.getPrice (m.getNumTradingDays - 1)) ∧
    (m.getNumTradingDays ≤ 0 ∨ m.prices = none → m.getLastPrice = 0) := by
  unfold Market.getLastPrice Market.getNumTradingDays
  refine ⟨?_, ?_⟩
  · intro hn
    cases hp : m.prices with
    | none => simp [Market.getPrice, hp]
    | some arr =>
      have hg : ¬ (m.numTradingDays ≤ 0 ∨ (some arr : Option (List (Option ℚ))).isNone = true) := by
        simp
        omega
      rw [if_neg hg]
  · rintro (h | h)
    · simp [h]
    · simp [h]

/-! ## Properties: prices of a constructed market -/

theorem getPrice_out_of_range (m : Market) (idx : Int)
    (h : idx < 0 ∨ idx ≥ m.getNumTradingDays) : m.getPrice idx = 0 := by
  unfold Market.getPrice
  unfold Market.getNumTradingDays at h
  have hg : idx < 0 ∨ idx ≥ m.numTradingDays ∨ m.prices.isNone = true := by
    rcases h with h | h
    · exact Or.inl h
    · exact Or.inr (Or.inl h)
  rw [if_pos hg]

theorem getPrice_of_readSlot (m : Market) (arr : List (Option ℚ)) (idx : Int) (p : ℚ)
    (hp : m.prices = some arr) (h0 : 0 ≤ idx) (hn : idx < m.getNumTradingDays)
    (hr : Market.readSlot arr idx = some p) : m.getPrice idx = p := by
  unfold Market.getNumTradingDays at hn
  have hg : ¬ (idx < 0 ∨ idx ≥ m.numTradingDays ∨ m.prices.isNone = true) := by
    rw [hp]
    simp
    omega
  unfold Market.readSlot at hr
  rw [if_pos h0] at hr
  unfold Market.getPrice
  rw [if_neg hg, hp]
  simp only [Option.getD_some]
  cases hs : arr.get? idx.toNat with
  | none => rw [hs] at hr; simp at hr
  | some slot =>
    rw [hs] at hr
    cases slot with
    | none => simp at hr
    | some q =>
      simp at hr
      simp [hr]

theorem readSlot_writeSlot (arr out : List (Option ℚ)) (i : Int) (v : ℚ)
    (h : Market.writeSlot arr i v = some out) :
    out.length = arr.length ∧
    ∀ k : Int, (∃ p, Market.readSlot arr k = some p) → ∃ p, Market.readSlot out k = some p := by
  unfold Market.writeSlot at h
  cases hr : Market.readSlot arr i with
  | none => rw [hr] at h; simp at h
  | some q =>
    rw [hr] at h
    simp only [Option.some.injEq] at h
    subst h
    refine ⟨by simp, ?_⟩
    rintro k ⟨p, hp⟩
    unfold Market.readSlot at hp ⊢
    by_cases hk : 0 ≤ k
    · rw [if_pos hk] at hp ⊢
      by_cases hik : i.toNat = k.toNat
      · have hlt : k.toNat < arr.length := by
          by_contra hge
          have : arr.get? k.toNat = none := by
            simp only [List.get?_eq_getElem?]
            exact List.getElem?_eq_none (by omega)
          rw [this] at hp
          simp at hp
        refine ⟨v, ?_⟩
        simp [hik, List.getElem?_set, hlt]
      · refine ⟨p, ?_⟩
        simp only [List.get?_eq_getElem?] at hp ⊢
        rw [List.getElem?_set_ne hik]
        exact hp
    · rw [if_neg hk] at hp
      simp at hp

theorem foldl_simulateStep_slots (lib : CMath) (m : Market) (Z : Int → ℚ) (l : List Int)
    (arr out : List (Option ℚ)) (acc : Option (List (Option ℚ)))
    (hacc : ∀ a, acc = some a → a.length = arr.length ∧
      ∀ k : Int, (∃ p, Market.readSlot arr k = some p) → ∃ p, Market.readSlot a k = some p)
    (h : l.foldl (Market.simulateStep lib m Z) acc = some out) :
    out.length = arr.length ∧
    ∀ k : Int, (∃ p, Market.readSlot arr k = some p) → ∃ p, Market.readSlot out k = some p := by
  induction l generalizing acc with
  | nil =>
    simp only [List.foldl_nil] at h
    exact hacc out h
  | cons i t ih =>
    rw [List.foldl_cons] at h
    refine ih (Market.simulateStep lib m Z acc i) ?_ h
    intro a ha
    unfold Market.simulateStep at ha
    cases hc : acc with
    | none => rw [hc] at ha; simp at ha
    | some a0 =>
      rw [hc] at ha
      simp only [Option.some_bind] at ha
      cases hr : Market.readSlot a0 (i - 1) with
      | none => rw [hr] at ha; simp at ha
      | some prev =>
        rw [hr] at ha
        simp only [Option.some_bind] at ha
        obtain ⟨hl, hk⟩ := readSlot_writeSlot a0 a i _ ha
        obtain ⟨hl0, hk0⟩ := hacc a0 hc
        exact ⟨hl.trans hl0, fun k hk1 => hk k (hk0 k hk1)⟩

theorem readSlot_replicate (n : Nat) (k : Int) (h0 : 0 ≤ k) (hk : k < n) :
    Market.readSlot (List.replicate n (some 0)) k = some 0 := by
  unfold Market.readSlot
  rw [if_pos h0]
  have : k.toNat < n := by omega
  simp [List.getElem?_replicate, this]

theorem foldl_simulateStep_some (lib : CMath) (m : Market) (Z : Int → ℚ) (n : Int)
    (l : List Int) (hl : ∀ i ∈ l, 1 ≤ i ∧ i < n) (a : List (Option ℚ))
    (ha : ∀ k : Int, 0 ≤ k → k < n → ∃ p, Market.readSlot a k = some p) :
    ∃ out, l.foldl (Market.simulateStep lib m Z) (some a) = some out := by
  induction l generalizing a with
  | nil => exact ⟨a, rfl⟩
  | cons i t ih =>
    rw [List.foldl_cons]
    obtain ⟨hi1, hin⟩ := hl i (List.mem_cons_self i t)
    obtain ⟨prev, hprev⟩ := ha (i - 1) (by omega) (by omega)
    obtain ⟨cur, hcur⟩ := ha i (by omega) hin
    have hstep : ∃ a1, Market.simulateStep lib m Z (some a) i = some a1 := by
      unfold Market.simulateStep
      simp only [Option.some_bind, hprev]
      unfold Market.writeSlot
      rw [hcur]
      exact ⟨_, rfl⟩
    obtain ⟨a1, ha1⟩ := hstep
    rw [ha1]
    refine ih (fun j hj => hl j (List.mem_cons_of_mem i hj)) a1 ?_
    intro k hk0 hkn
    unfold Market.simulateStep at ha1
    simp only [Option.some_bind, hprev] at ha1
    exact (readSlot_writeSlot a a1 i _ ha1).2 k (ha k hk0 hkn)

/-- C19: for a market built by the parametric constructor, before or after
`simulate()`, `getPrice(index)` is `0.0` when `index < 0` or
`index >= getNumTradingDays()`; for every other index the slot read lies inside the
allocated array and is not null, and `getPrice` returns the price stored in it, which
is `0.0` before `simulate()`; `simulate()` itself completes when the market has at least
one trading day. -/
theorem getPrice_constructed (initialPrice volatility expectedYearlyReturn : ℚ)
    (numTradingDays seed : Int) (m : Market)
    (h : Market.new initialPrice volatility expectedYearlyReturn numTradingDays seed = some m) :
    m.getNumTradingDays = numTradingDays ∧
    (∀ index, index < 0 ∨ index ≥ numTradingDays → m.getPrice index = 0) ∧
    (∀ index, 0 ≤ index → index < numTradingDays →
      Market.readSlot (m.prices.getD []) index = some 0 ∧ m.getPrice index = 0) ∧
    (∀ (lib : CMath) (Z : Int → ℚ) (m1 : Market), m.simulate lib Z = some m1 →
      m1.getNumTradingDays = numTradingDays ∧
      (∀ index, index < 0 ∨ index ≥ numTradingDays → m1.getPrice index = 0) ∧
      (∀ index, 0 ≤ index → index < numTradingDays →
        ∃ p, Market.readSlot (m1.prices.getD []) index = some p ∧ m1.getPrice index = p)) ∧
    (∀ (lib : CMath) (Z : Int → ℚ), 1 ≤ numTradingDays → ∃ m1, m.simulate lib Z = some m1) := by
  unfold Market.new at h
  by_cases hneg : numTradingDays < 0
  · rw [if_pos hneg] at h
    simp at h
  · rw [if_neg hneg] at h
    have hm := Option.some.inj h
    subst hm
    refine ⟨rfl, ?_, ?_, ?_, ?_⟩
    · intro index hidx
      exact getPrice_out_of_range _ index hidx
    · intro index h0 hn
      have hr := readSlot_replicate numTradingDays.toNat index h0 (by omega)
      exact ⟨hr, getPrice_of_readSlot _ _ index 0 rfl h0 hn hr⟩
    rotate_left
    · intro lib Z h1
      unfold Market.simulate
      simp only
      obtain ⟨a0, ha0⟩ : ∃ a0, Market.writeSlot (List.replicate numTradingDays.toNat (some 0)) 0
          (roundToDecimals initialPrice 3) = some a0 := by
        unfold Market.writeSlot
        rw [readSlot_replicate numTradingDays.toNat 0 le_rfl (by omega)]
        exact ⟨_, rfl⟩
      rw [ha0]
      obtain ⟨out, hout⟩ := foldl_simulateStep_some lib
        ⟨initialPrice, volatility, expectedYearlyReturn, numTradingDays,
          some (List.replicate numTradingDays.toNat (some 0)), seed⟩ Z numTradingDays
        (forRange 1 numTradingDays)
        (fun i hi => by rw [mem_forRange] at hi; exact hi) a0
        (fun k hk0 hkn => (readSlot_writeSlot _ a0 0 _ ha0).2 k
          ⟨0, readSlot_replicate numTradingDays.toNat k hk0 (by omega)⟩)
      rw [hout]
      exact ⟨_, rfl⟩
    · intro lib Z m1 hsim
      unfold Market.simulate at hsim
      simp only at hsim
      cases hf : (forRange 1 numTradingDays).foldl
          (Market.simulateStep lib ⟨initialPrice, volatility, expectedYearlyReturn,
            numTradingDays, some (List.replicate numTradingDays.toNat (some 0)), seed⟩ Z)
          (Market.writeSlot (List.replicate numTradingDays.toNat (some 0)) 0
            (roundToDecimals initialPrice 3)) with
      | none => rw [hf] at hsim; simp at hsim
      | some out =>
        rw [hf] at hsim
        simp only [Option.map_some', Option.some.injEq] at hsim
        subst hsim
        obtain ⟨-, hk⟩ := foldl_simulateStep_slots lib _ Z _
          (List.replicate numTradingDays.toNat (some 0)) out _
          (fun a ha => readSlot_writeSlot _ a 0 _ ha) hf
        refine ⟨rfl, ?_, ?_⟩
        · intro index hidx
          exact getPrice_out_of_range _ index hidx
        · intro index h0 hn
          obtain ⟨p, hp⟩ := hk index
            ⟨0, readSlot_replicate numTradingDays.toNat index h0 (by omega)⟩
          exact ⟨p, hp, getPrice_of_readSlot _ out index p rfl h0 hn hp⟩

/-- Witness for C19: the market `Market(100, 0.2, 0.5, 3, 42)`. -/
theorem getPrice_constructed_witness :
    freshMarket.getNumTradingDays = 3 ∧
    (∀ index, index < 0 ∨ index ≥ 3 → freshMarket.getPrice index = 0) ∧
    (∀ index, 0 ≤ index → index < 3 →
      Market.readSlot (freshMarket.prices.getD []) index = some 0 ∧
        freshMarket.getPrice index = 0) ∧
    (∀ (lib : CMath) (Z : Int → ℚ) (m1 : Market), freshMarket.simulate lib Z = some m1 →
      m1.getNumTradingDays = 3 ∧
      (∀ index, index < 0 ∨ index ≥ 3 → m1.getPrice index = 0) ∧
      (∀ index, 0 ≤ index → index < 3 →
        ∃ p, Market.readSlot (m1.prices.getD []) index = some p ∧ m1.getPrice index = p)) ∧
    (∀ (lib : CMath) (Z : Int → ℚ), (1 : Int) ≤ 3 → ∃ m1, freshMarket.simulate lib Z = some m1) :=
  getPrice_constructed 100 (1 / 5) (1 / 2) 3 42 freshMarket rfl

/-! ## Properties: the exponentially weighted average -/

theorem foldl_mul_const (c : ℚ) (l : List Int) (a : ℚ) :
    l.foldl (fun weight _ => weight * c) a = a * c ^ l.length := by
  induction l generalizing a with
  | nil => simp
  | cons x t ih =>
    rw [List.foldl_cons, ih, List.length_cons, pow_succ]
    ring

theorem calculateExponentialWeight_eq (position : Int) :
    WeightedTrendFollowingStrategy.calculateExponentialWeight position
      = (11 / 10 : ℚ) ^ position.toNat := by
  unfold WeightedTrendFollowingStrategy.calculateExponentialWeight
  rw [foldl_mul_const, length_forRange]
  simp

theorem foldl_weightStep (market : Market) (startIdx : Int) (l : List Int) (acc : ℚ × ℚ) :
    l.foldl (WeightedTrendFollowingStrategy.weightStep market startIdx) acc
      = (acc.1 + (l.map (fun i => market.getPrice i
            * (11 / 10 : ℚ) ^ (i - startIdx).toNat)).sum,
         acc.2 + (l.map (fun i => (11 / 10 : ℚ) ^ (i - startIdx).toNat)).sum) := by
  induction l generalizing acc with
  | nil => simp
  | cons a t ih =>
    simp only [List.foldl_cons, ih, WeightedTrendFollowingStrategy.weightStep,
      calculateExponentialWeight_eq, List.map_cons, List.sum_cons]
    ext
    · simp [add_assoc]
    · simp [add_assoc]

theorem weight_sum_pos (startIdx index : Int) (h : startIdx ≤ index) :
    0 < ∑ i ∈ Finset.Icc startIdx index, (11 / 10 : ℚ) ^ (i - startIdx).toNat := by
  apply Finset.sum_pos
  · intro i _
    positivity
  · exact ⟨index, Finset.mem_Icc.mpr ⟨h, le_rfl⟩⟩

theorem weighted_calculateMovingAverage_eq (market : Market) (index window : Int)
    (hi : 0 ≤ index) (hw : 0 < window) :
    WeightedTrendFollowingStrategy.calculateMovingAverage market index window
      = (∑ i ∈ Finset.Icc (max (index - window + 1) 0) index,
            market.getPrice i * (11 / 10 : ℚ) ^ (i - max (index - window + 1) 0).toNat)
        / (∑ i ∈ Finset.Icc (max (index - window + 1) 0) index,
            (11 / 10 : ℚ) ^ (i - max (index - window + 1) 0).toNat) := by
  have hg : ¬ (index < 0 ∨ window ≤ 0) := by omega
  have hIco : Finset.Ico (max (index - window + 1) 0) (index + 1)
      = Finset.Icc (max (index - window + 1) 0) index := by
    ext j
    simp only [Finset.mem_Ico, Finset.mem_Icc]
    omega
  have hpos := weight_sum_pos (max (index - window + 1) 0) index (by omega)
  have hnle : ¬ (∑ i ∈ Finset.Icc (max (index - window + 1) 0) index,
      (11 / 10 : ℚ) ^ (i - max (index - window + 1) 0).toNat) ≤ 0 := not_le.mpr hpos
  simp only [WeightedTrendFollowingStrategy.calculateMovingAverage,
    WeightedTrendFollowingStrategy.calculateMovingAverageCounted, hg, if_false,
    foldl_weightStep, zero_add,
    sum_map_forRange (fun i => market.getPrice i
      * (11 / 10 : ℚ) ^ (i - max (index - window + 1) 0).toNat),
    sum_map_forRange (fun i => (11 / 10 : ℚ) ^ (i - max (index - window + 1) 0).toNat),
    hIco, hnle]

theorem weighted_calculateMovingAverage_fits (market : Market) (index window : Int)
    (hi : 0 ≤ index) (hmax : index < INT_MAX) (hw : 0 < window) (hwmax : window ≤ INT_MAX) :
    (WeightedTrendFollowingStrategy.calculateMovingAverageCounted market index
      window).overflow = false := by
  have hg : ¬ (index < 0 ∨ window ≤ 0) := by omega
  have hf : Strategy.loopFits index window = true := by
    unfold INT_MAX at hmax hwmax
    simp only [Strategy.loopFits, fitsInt, INT_MIN, INT_MAX, Bool.and_eq_true, decide_eq_true_eq]
    omega
  simp only [WeightedTrendFollowingStrategy.calculateMovingAverageCounted, hg, if_false, hf]
  split_ifs <;> rfl

/-- C12 (code defect, the one of C9): at `index = INT_MAX` with `window = 1` the loop
`for (int i = startIdx; i <= index; i++)` of
`WeightedTrendFollowingStrategy::calculateMovingAverage` starts at `startIdx = INT_MAX`,
gives that day the position 0 and the weight 1, and then increments `i` beyond
`INT_MAX`, a signed overflow: the call is undefined instead of returning the weighted
mean of the window. -/
theorem weighted_calculateMovingAverage_overflow_at_max :
    max ((2147483647 : Int) - 1 + 1) 0 = INT_MAX ∧
    forRange (max ((2147483647 : Int) - 1 + 1) 0) (2147483647 + 1) = [INT_MAX] ∧
    WeightedTrendFollowingStrategy.calculateExponentialWeight (INT_MAX - INT_MAX) = 1 ∧
    fitsInt (2147483647 + 1) = false ∧
    (WeightedTrendFollowingStrategy.calculateMovingAverageCounted exampleMarket 2147483647
      1).overflow = true := by
  refine ⟨by decide, by decide, ?_, by decide, ?_⟩
  · rw [calculateExponentialWeight_eq]
    simp
  · have hf : Strategy.loopFits 2147483647 1 = false := by decide
    have hg : ¬ ((2147483647 : Int) < 0 ∨ (1 : Int) ≤ 0) := by decide
    simp only [WeightedTrendFollowingStrategy.calculateMovingAverageCounted, hg, if_false, hf]
    split_ifs <;> rfl

theorem double_sum_identity (s : Finset Int) (f g : Int → ℚ) :
    ∑ i ∈ s, ∑ j ∈ s, (f i - f j) * (g i - g j)
      = 2 * ((s.card : ℚ) * ∑ i ∈ s, f i * g i - (∑ i ∈ s, f i) * (∑ i ∈ s, g i)) := by
  have h1 : ∀ i ∈ s, ∑ j ∈ s, (f i - f j) * (g i - g j)
      = (s.card : ℚ) * (f i * g i) - f i * (∑ j ∈ s, g j) - g i * (∑ j ∈ s, f j)
        + ∑ j ∈ s, f j * g j := by
    intro i _
    have : ∀ j, (f i - f j) * (g i - g j) = f i * g i - f i * g j - g i * f j + f j * g j := by
      intro j
      ring
    simp only [this, Finset.sum_add_distrib, Finset.sum_sub_distrib, Finset.sum_const,
      nsmul_eq_mul, Finset.mul_sum]
  rw [Finset.sum_congr rfl h1]
  simp only [Finset.sum_add_distrib, Finset.sum_sub_distrib, Finset.sum_const, nsmul_eq_mul,
    ← Finset.mul_sum, ← Finset.sum_mul]
  ring

theorem chebyshev_strict (s : Finset Int) (f g : Int → ℚ)
    (hf : ∀ i ∈ s, ∀ j ∈ s, i < j → f i < f j) (hg : ∀ i ∈ s, ∀ j ∈ s, i < j → g i < g j)
    (a b : Int) (ha : a ∈ s) (hb : b ∈ s) (hab : a < b) :
    (∑ i ∈ s, f i) * (∑ i ∈ s, g i) < (s.card : ℚ) * ∑ i ∈ s, f i * g i := by
  have hterm : ∀ i ∈ s, ∀ j ∈ s, 0 ≤ (f i - f j) * (g i - g j) := by
    intro i hi j hj
    rcases lt_trichotomy i j with h | h | h
    · exact le_of_lt (mul_pos_of_neg_of_neg (sub_neg.mpr (hf i hi j hj h))
        (sub_neg.mpr (hg i hi j hj h)))
    · rw [h]
      simp
    · exact le_of_lt (mul_pos (sub_pos.mpr (hf j hj i hi h)) (sub_pos.mpr (hg j hj i hi h)))
  have hpos : 0 < ∑ i ∈ s, ∑ j ∈ s, (f i - f j) * (g i - g j) := by
    apply Finset.sum_pos'
    · intro i hi
      exact Finset.sum_nonneg (fun j hj => hterm i hi j hj)
    · refine ⟨a, ha, ?_⟩
      apply Finset.sum_pos'
      · intro j hj
        exact hterm a ha j hj
      · exact ⟨b, hb, mul_pos_of_neg_of_neg (sub_neg.mpr (hf a ha b hb hab))
          (sub_neg.mpr (hg a ha b hb hab))⟩
  rw [double_sum_identity] at hpos
  linarith

theorem weighted_gt_simple_of_increasing (market : Market) (index window : Int)
    (hi : 1 ≤ index) (hw : 2 ≤ window)
    (hinc : ∀ i j, max (index - window + 1) 0 ≤ i → i < j → j ≤ index →
      market.getPrice i < market.getPrice j) :
    Strategy.calculateMovingAverage (some market) index window
      < WeightedTrendFollowingStrategy.calculateMovingAverage market index window := by
  rw [calculateMovingAverage_eq_mean market index window (by omega) (by omega),
    weighted_calculateMovingAverage_eq market index window (by omega) (by omega)]
  generalize hst : max (index - window + 1) 0 = start at hinc ⊢
  have hsi : start < index := by omega
  have hcard : ((Finset.Icc start index).card : ℚ) = ((index - start + 1 : Int) : ℚ) := by
    rw [Int.card_Icc]
    have : ((index + 1 - start).toNat : Int) = index - start + 1 := by omega
    exact_mod_cast this
  have hW := weight_sum_pos start index (le_of_lt hsi)
  have hn : (0 : ℚ) < ((index - start + 1 : Int) : ℚ) := by
    have : (0 : Int) < index - start + 1 := by omega
    exact_mod_cast this
  have hch := chebyshev_strict (Finset.Icc start index) (fun i => market.getPrice i)
    (fun i => (11 / 10 : ℚ) ^ (i - start).toNat)
    (fun i hi1 j hj1 hij =>
      hinc i j (Finset.mem_Icc.mp hi1).1 hij (Finset.mem_Icc.mp hj1).2)
    (fun i hi1 j hj1 hij => by
      have h1 := (Finset.mem_Icc.mp hi1).1
      apply pow_lt_pow_right₀ (by norm_num)
      omega)
    start index (Finset.mem_Icc.mpr ⟨le_rfl, le_of_lt hsi⟩)
    (Finset.mem_Icc.mpr ⟨le_of_lt hsi, le_rfl⟩) hsi
  rw [hcard] at hch
  rw [div_lt_div_iff₀ hn hW]
  linarith

theorem weighted_eq_simple_of_single (market : Market) (index window : Int)
    (hi : 0 ≤ index) (hw : 0 < window) (hone : index = 0 ∨ window = 1) :
    WeightedTrendFollowingStrategy.calculateMovingAverage market index window
      = Strategy.calculateMovingAverage (some market) index window := by
  rw [calculateMovingAverage_eq_mean market index window hi hw,
    weighted_calculateMovingAverage_eq market index window hi hw]
  have hst : max (index - window + 1) 0 = index := by omega
  rw [hst]
  simp

/-- C13 (as stated, refuted): on the five-day example market with index 0 and window 5
the clamped window is the single day 0, so the prices are strictly increasing across it,
yet the weighted and the simple moving average are both 100: the weighted one is not
strictly greater. -/
theorem weighted_gt_simple_counterexample :
    max ((0 : Int) - 5 + 1) 0 = 0 ∧
    (∀ i j : Int, max ((0 : Int) - 5 + 1) 0 ≤ i → i < j → j ≤ 0 →
      exampleMarket.getPrice i < exampleMarket.getPrice j) ∧
    WeightedTrendFollowingStrategy.calculateMovingAverage exampleMarket 0 5 = 100 ∧
    Strategy.calculateMovingAverage (some exampleMarket) 0 5 = 100 ∧
    ¬ (WeightedTrendFollowingStrategy.calculateMovingAverage exampleMarket 0 5
        > Strategy.calculateMovingAverage (some exampleMarket) 0 5) := by
  have p0 : exampleMarket.getPrice 0 = 100 := by rfl
  have hs : Strategy.calculateMovingAverage (some exampleMarket) 0 5 = 100 := by
    rw [calculateMovingAverage_at_zero exampleMarket 5 (by decide), p0]
  have hwt : WeightedTrendFollowingStrategy.calculateMovingAverage exampleMarket 0 5 = 100 := by
    rw [weighted_eq_simple_of_single exampleMarket 0 5 le_rfl (by decide) (Or.inl rfl), hs]
  refine ⟨by decide, ?_, hwt, hs, ?_⟩
  · intro i j h1 h2 h3
    have h4 : max ((0 : Int) - 5 + 1) 0 = 0 := by decide
    omega
  · rw [hwt, hs]
    exact lt_irrefl _

/-- C13 (amended): for every market, index with `0 <= index < INT_MAX` and window
`> 0` such that the prices are strictly increasing across the clamped window
`[max(index - window + 1, 0), index]`: when the window holds at least two days
(`index >= 1` and `window >= 2`) the weighted moving average is strictly greater than
the simple one, and when it holds a single day (`index = 0` or `window = 1`) the two
are equal; no `int` expression of either computation overflows. -/
theorem weighted_gt_simple (market : Market) (index window : Int)
    (hi : 0 ≤ index) (hmax : index < INT_MAX) (hw : 0 < window) (hwmax : window ≤ INT_MAX)
    (hinc : ∀ i j, max (index - window + 1) 0 ≤ i → i < j → j ≤ index →
      market.getPrice i < market.getPrice j) :
    (1 ≤ index → 2 ≤ window →
      WeightedTrendFollowingStrategy.calculateMovingAverage market index window
        > Strategy.calculateMovingAverage (some market) index window) ∧
    (index = 0 ∨ window = 1 →
      WeightedTrendFollowingStrategy.calculateMovingAverage market index window
        = Strategy.calculateMovingAverage (some market) index window) ∧
    (WeightedTrendFollowingStrategy.calculateMovingAverageCounted market index
      window).overflow = false ∧
    (Strategy.calculateMovingAverageCounted (some market) index window).overflow = false :=
  ⟨fun h1 h2 => weighted_gt_simple_of_increasing market index window h1 h2 hinc,
   fun hone => weighted_eq_simple_of_single market index window hi hw hone,
   weighted_calculateMovingAverage_fits market index window hi hmax hw hwmax,
   calculateMovingAverage_fits market index window hi hmax hw hwmax⟩

/-- Witness for C13: index 1 and window 2 on the five-day example market, whose first
two prices are 100 and 102. -/
theorem weighted_gt_simple_witness :
    ((1 : Int) ≤ 1 → (2 : Int) ≤ 2 →
      WeightedTrendFollowingStrategy.calculateMovingAverage exampleMarket 1 2
        > Strategy.calculateMovingAverage (some exampleMarket) 1 2) ∧
    ((1 : Int) = 0 ∨ (2 : Int) = 1 →
      WeightedTrendFollowingStrategy.calculateMovingAverage exampleMarket 1 2
        = Strategy.calculateMovingAverage (some exampleMarket) 1 2) ∧
    (WeightedTrendFollowingStrategy.calculateMovingAverageCounted exampleMarket 1
      2).overflow = false ∧
    (Strategy.calculateMovingAverageCounted (some exampleMarket) 1 2).overflow = false :=
  weighted_gt_simple exampleMarket 1 2 (by decide) (by decide) (by decide) (by decide)
    (fun i j h1 h2 h3 => by
      have h4 : max ((1 : Int) - 2 + 1) 0 = 0 := by decide
      have hi0 : i = 0 := by omega
      have hj1 : j = 1 := by omega
      subst hi0
      subst hj1
      have p0 : exampleMarket.getPrice 0 = 100 := by rfl
      have p1 : exampleMarket.getPrice 1 = 102 := by rfl
      rw [p0, p1]
      norm_num)

/-! ## Properties: the growable strategy array -/

theorem addStrategy_succeeds (bot : TradingBot) (added : List Strategy) (s : Strategy)
    (h : bot.Stores added) (hcap : 1 ≤ bot.strategyCapacity) :
    ∃ b, bot.addStrategy (some s) = some b ∧
      ((bot.strategyCount < bot.strategyCapacity ∧ b.strategyCapacity = bot.strategyCapacity) ∨
       (bot.strategyCount = bot.strategyCapacity ∧
         b.strategyCapacity = bot.strategyCapacity * 2)) := by
  unfold TradingBot.addStrategy
  simp only
  by_cases hfull : bot.strategyCount = bot.strategyCapacity
  · rw [if_pos hfull]
    obtain ⟨⟨hlen, hcnt, hc, -⟩, hcap2, -⟩ := stores_grow bot added h hfull
    have hlt : bot.grow.strategyCount < bot.grow.availableStrategies.length := by
      rw [hlen, hcap2, hcnt, ← h.2.1, hfull]
      omega
    rw [if_pos hlt]
    exact ⟨_, rfl, Or.inr ⟨hfull, hcap2⟩⟩
  · rw [if_neg hfull]
    obtain ⟨hlen, hcnt, hc, -⟩ := h
    have hlt : bot.strategyCount < bot.availableStrategies.length := by
      rw [hlen]
      omega
    rw [if_pos hlt]
    exact ⟨_, rfl, Or.inl ⟨by omega, rfl⟩⟩

theorem addAll_succeeds (c : Nat) (ss : List Strategy) (bot : TradingBot)
    (added : List Strategy) (h : bot.Stores added) (hcap : 1 ≤ bot.strategyCapacity)
    (hgrown : bot.strategyCapacity = c ∨ bot.strategyCapacity < 2 * bot.strategyCount)
    (hpow : ∃ m, bot.strategyCapacity = c * 2 ^ m) :
    ∃ b, bot.addAll (ss.map some) = some b ∧ b.Stores (added ++ ss) ∧ b.market = bot.market ∧
      (b.strategyCapacity = c ∨ b.strategyCapacity < 2 * b.strategyCount) ∧
      ∃ m, b.strategyCapacity = c * 2 ^ m := by
  induction ss generalizing bot added with
  | nil =>
    refine ⟨bot, rfl, ?_, rfl, hgrown, hpow⟩
    simpa using h
  | cons s rest ih =>
    obtain ⟨b1, hb1, hcase⟩ := addStrategy_succeeds bot added s h hcap
    obtain ⟨hst1, hm1⟩ := stores_addStrategy bot b1 added s h hb1
    have hcnt : bot.strategyCount = added.length := h.2.1
    have hcnt1 : b1.strategyCount = added.length + 1 := by
      have := hst1.2.1
      simpa using this
    have hcap1 : 1 ≤ b1.strategyCapacity := by
      rcases hcase with ⟨-, e⟩ | ⟨-, e⟩ <;> omega
    have hgrown1 : b1.strategyCapacity = c ∨ b1.strategyCapacity < 2 * b1.strategyCount := by
      rcases hcase with ⟨hlt, e⟩ | ⟨hfull, e⟩
      · rcases hgrown with hg | hg
        · exact Or.inl (e.trans hg)
        · right
          omega
      · right
        omega
    have hpow1 : ∃ m, b1.strategyCapacity = c * 2 ^ m := by
      obtain ⟨m, hm⟩ := hpow
      rcases hcase with ⟨-, e⟩ | ⟨-, e⟩
      · exact ⟨m, e.trans hm⟩
      · refine ⟨m + 1, ?_⟩
        rw [e, hm, pow_succ]
        ring
    obtain ⟨b, hb, hst, hm, hg, hp⟩ := ih b1 (added ++ [s]) hst1 hcap1 hgrown1 hpow1
    refine ⟨b, ?_, ?_, hm.trans hm1, hg, hp⟩
    · simp only [List.map_cons, TradingBot.addAll, hb1, Option.some_bind]
      exact hb
    · simpa using hst

theorem take_of_stores (bot : TradingBot) (ss : List Strategy) (h : bot.Stores ss) :
    bot.availableStrategies.take bot.strategyCount = ss.map some := by
  obtain ⟨hlen, hcnt, hcap, hget⟩ := h
  apply List.ext_getElem?
  intro i
  by_cases hi : i < ss.length
  · rw [hcnt, List.getElem?_take_of_lt hi, hget i hi, List.getElem?_map,
      List.getElem?_eq_getElem hi]
    rfl
  · rw [hcnt, List.getElem?_take_eq_none (by omega), List.getElem?_map,
      List.getElem?_eq_none (by omega)]
    rfl

/-- C18: for a bot constructed with initial capacity `c >= 1`, adding any sequence of
non-null strategies with `addStrategy` succeeds; afterwards `strategyCount` is the
number of strategies added and the first `strategyCount` slots hold exactly those
strategies in insertion order; the capacity is `c` doubled some number of times (20
after 20 strategies with the default capacity 10), and a growth step doubles the
capacity and keeps every stored strategy in its slot. -/
theorem addStrategy_sequence (market : Option Market) (c : Nat) (hc : 1 ≤ c)
    (ss : List Strategy) :
    (∃ bot, (TradingBot.new market c).addAll (ss.map some) = some bot ∧
      bot.strategyCount = ss.length ∧
      bot.availableStrategies.take bot.strategyCount = ss.map some ∧
      bot.availableStrategies.length = bot.strategyCapacity ∧
      bot.market = market ∧
      (∃ m, bot.strategyCapacity = c * 2 ^ m) ∧
      (c = 10 → ss.length = 20 → bot.strategyCapacity = 20)) ∧
    (∀ (b : TradingBot) (added : List Strategy), b.Stores added →
      b.strategyCount = b.strategyCapacity →
      b.grow.strategyCapacity = b.strategyCapacity * 2 ∧
      b.grow.strategyCount = b.strategyCount ∧
      b.grow.availableStrategies.take b.grow.strategyCount
        = b.availableStrategies.take b.strategyCount) := by
  refine ⟨?_, ?_⟩
  · obtain ⟨bot, hadd, hst, hm, hg, hp⟩ := addAll_succeeds c ss (TradingBot.new market c) []
      (stores_new market c) hc (Or.inl rfl) ⟨0, by simp [TradingBot.new]⟩
    rw [List.nil_append] at hst
    refine ⟨bot, hadd, hst.2.1, take_of_stores bot ss hst, hst.1, hm, hp, ?_⟩
    intro hc10 hk
    have hcnt : bot.strategyCount = 20 := hst.2.1.trans hk
    have hle : 20 ≤ bot.strategyCapacity := by
      have := hst.2.2.1
      omega
    obtain ⟨m, hm2⟩ := hp
    rcases hg with hg | hg
    · omega
    · rw [hcnt] at hg
      rw [hc10] at hm2
      have hm1 : m = 1 := by
        rcases m with _ | _ | m
        · simp at hm2
          omega
        · rfl
        · rw [pow_succ, pow_succ] at hm2
          have : 1 ≤ 2 ^ m := Nat.one_le_two_pow
          nlinarith
      rw [hm2, hm1]
      rfl
  · intro b added hst hfull
    obtain ⟨hg, hcap, -⟩ := stores_grow b added hst hfull
    refine ⟨hcap, rfl, ?_⟩
    rw [take_of_stores b.grow added hg, take_of_stores b added hst]

/-- Witness for C18: the two example strategies added to a bot of initial capacity 1. -/
theorem addStrategy_sequence_witness :
    (∃ bot, (TradingBot.new (some exampleMarket) 1).addAll
        ([exampleMeanReversion.toStrategy, exampleTrend.toStrategy].map some) = some bot ∧
      bot.strategyCount = [exampleMeanReversion.toStrategy, exampleTrend.toStrategy].length ∧
      bot.availableStrategies.take bot.strategyCount
        = [exampleMeanReversion.toStrategy, exampleTrend.toStrategy].map some ∧
      bot.availableStrategies.length = bot.strategyCapacity ∧
      bot.market = some exampleMarket ∧
      (∃ m, bot.strategyCapacity = 1 * 2 ^ m) ∧
      (1 = 10 → [exampleMeanReversion.toStrategy, exampleTrend.toStrategy].length = 20 →
        bot.strategyCapacity = 20)) ∧
    (∀ (b : TradingBot) (added : List Strategy), b.Stores added →
      b.strategyCount = b.strategyCapacity →
      b.grow.strategyCapacity = b.strategyCapacity * 2 ∧
      b.grow.strategyCount = b.strategyCount ∧
      b.grow.availableStrategies.take b.grow.strategyCount
        = b.availableStrategies.take b.strategyCount) :=
  addStrategy_sequence (some exampleMarket) 1 (by decide)
    [exampleMeanReversion.toStrategy, exampleTrend.toStrategy]

/-! ## Properties: the parameter-sweep factories -/

theorem stepLoop_eq (hi step : Int) (hs : 0 < step) (fuel : Nat) (i : Int)
    (hfuel : (hi - i + 1).toNat ≤ fuel) :
    stepLoop hi step fuel i
      = (List.range (if hi < i then 0 else ((hi - i) / step + 1).toNat)).map
          (fun (k : Nat) => i + (k : Int) * step) := by
  induction fuel generalizing i with
  | zero =>
    have hlt : hi < i := by omega
    simp [stepLoop, hlt]
  | succ fuel ih =>
    unfold stepLoop
    by_cases hle : i ≤ hi
    · have hnlt : ¬ hi < i := by omega
      rw [if_pos hle, if_neg hnlt, ih (i + step) (by omega)]
      have hq : 0 ≤ (hi - i) / step := Int.ediv_nonneg (by omega) (le_of_lt hs)
      by_cases hnext : hi < i + step
      · have h0 : (hi - i) / step = 0 := Int.ediv_eq_zero_of_lt (by omega) (by omega)
        rw [if_pos hnext, h0]
        simp [List.range_succ]
      · have hsplit : (hi - i) / step = (hi - (i + step)) / step + 1 := by
          have := Int.add_mul_ediv_right (hi - (i + step)) 1 (ne_of_gt hs)
          rw [one_mul] at this
          rw [← this]
          congr 1
          ring
        have hq2 : 0 ≤ (hi - (i + step)) / step := Int.ediv_nonneg (by omega) (le_of_lt hs)
        have hcnt : ((hi - i) / step + 1).toNat = ((hi - (i + step)) / step + 1).toNat + 1 := by
          omega
        rw [if_neg hnext, hcnt, List.range_succ_eq_map, List.map_cons, List.map_map]
        congr 1
        · simp
        · apply List.map_congr_left
          intro k _
          simp only [Function.comp, Nat.succ_eq_add_one]
          push_cast
          ring
    · have hlt : hi < i := by omega
      rw [if_neg hle, if_pos hlt]
      simp

theorem sweepValues_eq (lo hi step : Int) (h : lo ≤ hi) (hs : 0 < step) :
    sweepValues lo hi step
      = some ((List.range ((hi - lo) / step + 1).toNat).map
          (fun (k : Nat) => lo + (k : Int) * step)) := by
  unfold sweepValues
  have h1 : ¬ hi < lo := by omega
  have h2 : ¬ step ≤ 0 := by omega
  rw [if_neg h1, if_neg h2, stepLoop_eq hi step hs _ lo le_rfl, if_neg h1]

theorem foldl_storeNext_none {α : Type} (xs : List α) :
    xs.foldl storeNext (none : Option (List (Option α) × Nat)) = none := by
  induction xs with
  | nil => rfl
  | cons x t ih => simpa [storeNext] using ih

theorem foldl_storeNext {α : Type} (xs pre : List α) (m : Nat) :
    xs.foldl storeNext (some (pre.map some ++ List.replicate m none, pre.length))
      = if xs.length ≤ m then
          some ((pre ++ xs).map some ++ List.replicate (m - xs.length) none,
            pre.length + xs.length)
        else none := by
  induction xs generalizing pre m with
  | nil => simp
  | cons x t ih =>
    rw [List.foldl_cons]
    cases m with
    | zero =>
      have : storeNext (some (pre.map some ++ List.replicate 0 none, pre.length)) x
          = (none : Option (List (Option α) × Nat)) := by
        simp [storeNext]
      rw [this, foldl_storeNext_none]
      simp
    | succ m =>
      have hstep : storeNext (some (pre.map some ++ List.replicate (m + 1) none, pre.length)) x
          = some ((pre ++ [x]).map some ++ List.replicate m none, (pre ++ [x]).length) := by
        have hlen : (pre.map some).length ≤ pre.length := by simp
        simp only [storeNext, Option.some_bind, List.length_append, List.length_map,
          List.length_replicate]
        rw [if_pos (by omega), List.set_append_right _ _ hlen]
        simp [List.replicate_succ]
      rw [hstep, ih (pre ++ [x]) m]
      have e1 : (t.length ≤ m) = ((x :: t).length ≤ m + 1) := by
        apply propext
        simp
      simp only [e1, List.append_assoc, List.singleton_append, List.length_append,
        List.length_singleton, List.length_cons]
      by_cases hle : t.length + 1 ≤ m + 1
      · rw [if_pos hle, if_pos hle]
        have e2 : m - t.length = m + 1 - (t.length + 1) := by omega
        rw [e2]
        congr 2
        simp only [List.length_nil]
        omega
      · rw [if_neg hle, if_neg hle]

theorem foldl_nested_eq {α : Type} (f : Int → Int → α) (outer js : List Int)
    (acc : Option (List (Option α) × Nat)) :
    outer.foldl (fun acc i => js.foldl (fun acc j => storeNext acc (f i j)) acc) acc
      = (outer.flatMap (fun i => js.map (f i))).foldl storeNext acc := by
  induction outer generalizing acc with
  | nil => rfl
  | cons i t ih =>
    rw [List.foldl_cons, List.flatMap_cons, List.foldl_append, ih, List.foldl_map]

theorem length_flatMap_map {α : Type} (f : Int → Int → α) (outer js : List Int) :
    (outer.flatMap (fun i => js.map (f i))).length = outer.length * js.length := by
  induction outer with
  | nil => simp
  | cons i t ih =>
    rw [List.flatMap_cons, List.length_append, ih, List.length_map, List.length_cons]
    ring

theorem getElem?_flatMap_map {α : Type} (f : Int → Int → α) (outer js : List Int)
    (a b : Nat) (x y : Int) (ha : outer[a]? = some x) (hb : js[b]? = some y) :
    (outer.flatMap (fun i => js.map (f i)))[a * js.length + b]? = some (f x y) := by
  have hbl : b < js.length := by
    by_contra hge
    rw [List.getElem?_eq_none (by omega)] at hb
    simp at hb
  induction outer generalizing a with
  | nil => simp at ha
  | cons i t ih =>
    rw [List.flatMap_cons]
    cases a with
    | zero =>
      simp only [List.getElem?_cons_zero, Option.some.injEq] at ha
      subst ha
      rw [Nat.zero_mul, Nat.zero_add, List.getElem?_append_left (by simpa using hbl),
        List.getElem?_map, hb]
      rfl
    | succ a =>
      simp only [List.getElem?_cons_succ] at ha
      have hidx : (a + 1) * js.length + b = (js.map (f i)).length + (a * js.length + b) := by
        rw [List.length_map]
        ring
      rw [hidx, List.getElem?_append_right (by omega)]
      simp only [Nat.add_sub_cancel_left]
      exact ih a ha
theorem getElem?_sweep (lo step : Int) (n a : Nat) (ha : a < n) :
    ((List.range n).map (fun (k : Nat) => lo + (k : Int) * step))[a]?
      = some (lo + (a : Int) * step) := by
  rw [List.getElem?_map, List.getElem?_range ha]
  rfl

theorem generateSet_eq {α : Type} (make : String → Int → Int → α) (baseName : String)
    (min1 max1 step1 min2 max2 step2 : Int) (h1 : min1 ≤ max1) (h2 : min2 ≤ max2)
    (hs1 : 0 < step1) (hs2 : 0 < step2) :
    generateSet make baseName min1 max1 step1 min2 max2 step2
      = some ⟨(((List.range ((max1 - min1) / step1 + 1).toNat).map
              (fun (k : Nat) => min1 + (k : Int) * step1)).flatMap
            (fun i => ((List.range ((max2 - min2) / step2 + 1).toNat).map
              (fun (k : Nat) => min2 + (k : Int) * step2)).map
                (fun j => make (sweepName baseName i j) i j))).map some,
          !(sweepFits min1 max1 step1 ((List.range ((max1 - min1) / step1 + 1).toNat).map
              (fun (k : Nat) => min1 + (k : Int) * step1))
            && fitsInt (((max1 - min1) / step1 + 1) * ((max2 - min2) / step2 + 1))
            && (((List.range ((max1 - min1) / step1 + 1).toNat).map
                (fun (k : Nat) => min1 + (k : Int) * step1)).isEmpty
              || sweepFits min2 max2 step2 ((List.range ((max2 - min2) / step2 + 1).toNat).map
                (fun (k : Nat) => min2 + (k : Int) * step2))))⟩ := by
  have hz : ¬ (step1 = 0 ∨ step2 = 0) := by omega
  have ht1 : Int.tdiv (max1 - min1) step1 = (max1 - min1) / step1 :=
    Int.tdiv_eq_ediv (by omega) (le_of_lt hs1)
  have ht2 : Int.tdiv (max2 - min2) step2 = (max2 - min2) / step2 :=
    Int.tdiv_eq_ediv (by omega) (le_of_lt hs2)
  have hq1 : 0 ≤ (max1 - min1) / step1 := Int.ediv_nonneg (by omega) (le_of_lt hs1)
  have hq2 : 0 ≤ (max2 - min2) / step2 := Int.ediv_nonneg (by omega) (le_of_lt hs2)
  have hsize : ¬ ((max1 - min1) / step1 + 1) * ((max2 - min2) / step2 + 1) < 0 := by
    have : 0 ≤ ((max1 - min1) / step1 + 1) * ((max2 - min2) / step2 + 1) :=
      mul_nonneg (by omega) (by omega)
    omega
  unfold generateSet
  simp only [hz, if_false, ht1, ht2, hsize, sweepValues_eq min1 max1 step1 h1 hs1,
    sweepValues_eq min2 max2 step2 h2 hs2, Option.some_bind, Option.getD_some]
  rw [foldl_nested_eq (fun i j => make (sweepName baseName i j) i j)]
  have hfold := foldl_storeNext
    (((List.range ((max1 - min1) / step1 + 1).toNat).map
        (fun (k : Nat) => min1 + (k : Int) * step1)).flatMap
      (fun i => ((List.range ((max2 - min2) / step2 + 1).toNat).map
        (fun (k : Nat) => min2 + (k : Int) * step2)).map
          (fun j => make (sweepName baseName i j) i j))) []
    (((max1 - min1) / step1 + 1) * ((max2 - min2) / step2 + 1)).toNat
  have hlen : (((List.range ((max1 - min1) / step1 + 1).toNat).map
        (fun (k : Nat) => min1 + (k : Int) * step1)).flatMap
      (fun i => ((List.range ((max2 - min2) / step2 + 1).toNat).map
        (fun (k : Nat) => min2 + (k : Int) * step2)).map
          (fun j => make (sweepName baseName i j) i j))).length
      = (((max1 - min1) / step1 + 1) * ((max2 - min2) / step2 + 1)).toNat := by
    rw [length_flatMap_map, List.length_map, List.length_map, List.length_range,
      List.length_range]
    have e1 : (((max1 - min1) / step1 + 1).toNat : Int) = (max1 - min1) / step1 + 1 := by omega
    have e2 : (((max2 - min2) / step2 + 1).toNat : Int) = (max2 - min2) / step2 + 1 := by omega
    have : ((((max1 - min1) / step1 + 1).toNat * ((max2 - min2) / step2 + 1).toNat : Nat) : Int)
        = ((max1 - min1) / step1 + 1) * ((max2 - min2) / step2 + 1) := by
      push_cast
      rw [e1, e2]
    omega
  simp only [List.map_nil, List.nil_append, List.length_nil, Nat.zero_add, hlen, le_refl,
    if_true, Nat.sub_self, List.replicate_zero, List.append_nil] at hfold
  rw [hfold]
  rfl

theorem generateSet_slots {α : Type} (make : String → Int → Int → α) (baseName : String)
    (min1 max1 step1 min2 max2 step2 : Int) (h1 : min1 ≤ max1) (h2 : min2 ≤ max2)
    (hs1 : 0 < step1) (hs2 : 0 < step2) :
    ∃ g, generateSet make baseName min1 max1 step1 min2 max2 step2 = some g ∧
      g.slots.length
        = ((max1 - min1) / step1 + 1).toNat * ((max2 - min2) / step2 + 1).toNat ∧
      ∀ a b : Nat, a < ((max1 - min1) / step1 + 1).toNat →
        b < ((max2 - min2) / step2 + 1).toNat →
        g.slots[a * ((max2 - min2) / step2 + 1).toNat + b]?
          = some (some (make
              (sweepName baseName (min1 + (a : Int) * step1) (min2 + (b : Int) * step2))
              (min1 + (a : Int) * step1) (min2 + (b : Int) * step2))) := by
  refine ⟨_, generateSet_eq make baseName min1 max1 step1 min2 max2 step2 h1 h2 hs1 hs2, ?_, ?_⟩
  · simp only [List.length_map]
    rw [length_flatMap_map, List.length_map, List.length_map, List.length_range,
      List.length_range]
  · intro a b ha hb
    simp only [List.getElem?_map]
    have hidx := getElem?_flatMap_map (fun i j => make (sweepName baseName i j) i j)
      ((List.range ((max1 - min1) / step1 + 1).toNat).map
        (fun (k : Nat) => min1 + (k : Int) * step1))
      ((List.range ((max2 - min2) / step2 + 1).toNat).map
        (fun (k : Nat) => min2 + (k : Int) * step2)) a b _ _
      (getElem?_sweep min1 step1 _ a ha) (getElem?_sweep min2 step2 _ b hb)
    rw [List.length_map, List.length_range] at hidx
    rw [hidx]
    rfl
theorem sweepFits_of_range (lo hi step : Int) (n : Nat) (h : lo ≤ hi) (hs : 0 < step)
    (hlo : INT_MIN ≤ lo) (hd : hi - lo ≤ INT_MAX) (hi1 : hi + step ≤ INT_MAX)
    (hn : (hi - lo) / step + 1 ≤ INT_MAX) (hcount : (n : Int) = (hi - lo) / step + 1) :
    sweepFits lo hi step ((List.range n).map (fun (k : Nat) => lo + (k : Int) * step))
      = true := by
  have ht : Int.tdiv (hi - lo) step = (hi - lo) / step :=
    Int.tdiv_eq_ediv (by omega) (le_of_lt hs)
  have hq : 0 ≤ (hi - lo) / step := Int.ediv_nonneg (by omega) (le_of_lt hs)
  have hmul : (hi - lo) / step * step ≤ hi - lo := Int.ediv_mul_le _ (ne_of_gt hs)
  unfold INT_MAX at hd hi1 hn
  unfold INT_MIN at hlo
  simp only [sweepFits, ht, fitsInt, INT_MIN, INT_MAX, Bool.and_eq_true, decide_eq_true_eq,
    List.all_eq_true, List.mem_map, List.mem_range]
  refine ⟨⟨⟨by omega, by omega⟩, by omega⟩, ?_⟩
  rintro v ⟨k, hk, rfl⟩
  have hk1 : (k : Int) ≤ (hi - lo) / step := by omega
  have hk2 : (k : Int) * step ≤ (hi - lo) / step * step :=
    mul_le_mul_of_nonneg_right hk1 (le_of_lt hs)
  have hk3 : 0 ≤ (k : Int) * step := mul_nonneg (by omega) (le_of_lt hs)
  constructor <;> omega

theorem generateSet_fits {α : Type} (make : String → Int → Int → α) (baseName : String)
    (min1 max1 step1 min2 max2 step2 : Int) (h1 : min1 ≤ max1) (h2 : min2 ≤ max2)
    (hs1 : 0 < step1) (hs2 : 0 < step2)
    (hlo1 : INT_MIN ≤ min1) (hd1 : max1 - min1 ≤ INT_MAX) (hi1 : max1 + step1 ≤ INT_MAX)
    (hlo2 : INT_MIN ≤ min2) (hd2 : max2 - min2 ≤ INT_MAX) (hi2 : max2 + step2 ≤ INT_MAX)
    (hsize : ((max1 - min1) / step1 + 1) * ((max2 - min2) / step2 + 1) ≤ INT_MAX) :
    (generateSet make baseName min1 max1 step1 min2 max2 step2).map Generated.overflow
      = some false := by
  have hq1 : 0 ≤ (max1 - min1) / step1 := Int.ediv_nonneg (by omega) (le_of_lt hs1)
  have hq2 : 0 ≤ (max2 - min2) / step2 := Int.ediv_nonneg (by omega) (le_of_lt hs2)
  have hn1 : (max1 - min1) / step1 + 1 ≤ INT_MAX := by
    have : (max1 - min1) / step1 + 1
        ≤ ((max1 - min1) / step1 + 1) * ((max2 - min2) / step2 + 1) :=
      le_mul_of_one_le_right (by omega) (by omega)
    omega
  have hn2 : (max2 - min2) / step2 + 1 ≤ INT_MAX := by
    have : (max2 - min2) / step2 + 1
        ≤ ((max1 - min1) / step1 + 1) * ((max2 - min2) / step2 + 1) :=
      le_mul_of_one_le_left (by omega) (by omega)
    omega
  have hf1 := sweepFits_of_range min1 max1 step1 ((max1 - min1) / step1 + 1).toNat h1 hs1
    hlo1 hd1 hi1 hn1 (by omega)
  have hf2 := sweepFits_of_range min2 max2 step2 ((max2 - min2) / step2 + 1).toNat h2 hs2
    hlo2 hd2 hi2 hn2 (by omega)
  have hfs : fitsInt (((max1 - min1) / step1 + 1) * ((max2 - min2) / step2 + 1)) = true := by
    have hnn : 0 ≤ ((max1 - min1) / step1 + 1) * ((max2 - min2) / step2 + 1) :=
      mul_nonneg (by omega) (by omega)
    unfold INT_MAX at hsize
    simp only [fitsInt, INT_MIN, INT_MAX, decide_eq_true_eq]
    omega
  rw [generateSet_eq make baseName min1 max1 step1 min2 max2 step2 h1 h2 hs1 hs2]
  simp only [Option.map_some', hf1, hf2, hfs, Bool.and_self, Bool.or_true, Bool.not_true]

/-- C15 (code defect): with the range 1 to `INT_MAX` in steps of `INT_MAX` for the
first parameter and the single value 1 for the second, each factory computes an array
size of 1 and stores the strategy for (1, 1); then `i += step` takes the loop variable
beyond `INT_MAX`, a signed overflow, so the call is undefined instead of returning the
one strategy.  The sweeps of main.cpp (12, 27 and 15 strategies) stay in range. -/
theorem generateStrategySet_overflow :
    sweepValues 1 2147483647 2147483647 = some [1] ∧
    fitsInt (1 + 2147483647) = false ∧
    (MeanReversionStrategy.generateStrategySet "MR" 1 2147483647 2147483647 1 1 1).map
        (fun g => (g.slots.length, g.overflow)) = some (1, true) ∧
    (TrendFollowingStrategy.generateStrategySet "TF" 1 2147483647 2147483647 1 1 1).map
        (fun g => (g.slots.length, g.overflow)) = some (1, true) ∧
    (WeightedTrendFollowingStrategy.generateStrategySet "WTF" 1 2147483647 2147483647
        1 1 1).map (fun g => (g.slots.length, g.overflow)) = some (1, true) ∧
    (WeightedTrendFollowingStrategy.generateStrategySet "WeightedTrend" 5 15 5 20 50 10).map
        (fun g => (g.slots.length, g.overflow)) = some (12, false) ∧
    (TrendFollowingStrategy.generateStrategySet "Trend" 5 15 5 20 100 10).map
        (fun g => (g.slots.length, g.overflow)) = some (27, false) ∧
    (MeanReversionStrategy.generateStrategySet "MeanReversion" 5 15 5 1 5 1).map
        (fun g => (g.slots.length, g.overflow)) = some (15, false) := by
  refine ⟨by decide, by decide, by decide, by decide, by decide, by decide, by decide,
    by decide⟩

/-- C16 (code defect): called as in the test, with base name "MR", window 5 to 10 in
steps of 5 and threshold 1 to 5 in steps of 1, `MeanReversionStrategy::generateStrategySet`
names its ten strategies "MR_5_1" to "MR_10_5"; none of these names contains
"MeanReversion_", which the assertion of the test requires. -/
theorem generateStrategySet_names_MR :
    (MeanReversionStrategy.generateStrategySet "MR" 5 10 5 1 5 1).map
        (fun g => g.slots.map (Option.map MeanReversionStrategy.name))
      = some [some "MR_5_1", some "MR_5_2", some "MR_5_3", some "MR_5_4", some "MR_5_5",
          some "MR_10_1", some "MR_10_2", some "MR_10_3", some "MR_10_4", some "MR_10_5"] ∧
    ∀ name ∈ ["MR_5_1", "MR_5_2", "MR_5_3", "MR_5_4", "MR_5_5",
        "MR_10_1", "MR_10_2", "MR_10_3", "MR_10_4", "MR_10_5"],
      ¬ ("MeanReversion_".data <:+: name.data) := by
  refine ⟨by decide, by decide⟩

/-! ## Properties: the simulated price path -/

theorem simulateGen_eq_simulate (lib : CMath) (src : RandomSource) (g : GenState)
    (m : Market) :
    m.simulateGen lib src g
      = (m.simulate lib (Market.drawAt src g m)).map
          (fun m1 => (m1, if m.numTradingDays ≤ 1 then g
            else ⟨some (g.seed.getD m.seed), g.drawn + (m.numTradingDays - 1).toNat⟩)) := by
  unfold Market.simulateGen Market.simulate
  cases hp : m.prices with
  | none => rfl
  | some arr =>
    simp only
    have key : ∀ hi : Int, 1 ≤ hi →
        (forRange 1 hi).foldl (Market.simulateStepGen lib src m)
            ((Market.writeSlot arr 0 (roundToDecimals m.initialPrice 3)).map
              (fun out => (out, g)))
          = ((forRange 1 hi).foldl (Market.simulateStep lib m (Market.drawAt src g m))
              (Market.writeSlot arr 0 (roundToDecimals m.initialPrice 3))).map
            (fun out => (out, if hi ≤ 1 then g
              else ⟨some (g.seed.getD m.seed), g.drawn + (hi - 1).toNat⟩)) := by
      intro hi hhi
      refine @Int.le_induction (fun hi =>
        (forRange 1 hi).foldl (Market.simulateStepGen lib src m)
            ((Market.writeSlot arr 0 (roundToDecimals m.initialPrice 3)).map
              (fun out => (out, g)))
          = ((forRange 1 hi).foldl (Market.simulateStep lib m (Market.drawAt src g m))
              (Market.writeSlot arr 0 (roundToDecimals m.initialPrice 3))).map
            (fun out => (out, if hi ≤ 1 then g
              else ⟨some (g.seed.getD m.seed), g.drawn + (hi - 1).toNat⟩))) 1 ?_ ?_ hi hhi
      · beta_reduce
        rw [forRange_of_le 1 1 le_rfl]
        simp
      · intro k hk ih
        beta_reduce at ih ⊢
        rw [forRange_snoc 1 k hk, List.foldl_append, List.foldl_append, ih]
        simp only [List.foldl_cons, List.foldl_nil]
        cases hf : (forRange 1 k).foldl (Market.simulateStep lib m (Market.drawAt src g m))
            (Market.writeSlot arr 0 (roundToDecimals m.initialPrice 3)) with
        | none => simp [Market.simulateStepGen, Market.simulateStep]
        | some a =>
          have hk1 : ¬ k + 1 ≤ 1 := by omega
          have hseed : (if k ≤ 1 then g
              else (⟨some (g.seed.getD m.seed), g.drawn + (k - 1).toNat⟩ : GenState)).seed.getD
                m.seed = g.seed.getD m.seed := by
            split_ifs <;> simp
          have hdrawn : (if k ≤ 1 then g
              else (⟨some (g.seed.getD m.seed), g.drawn + (k - 1).toNat⟩ : GenState)).drawn
              = g.drawn + (k - 1).toNat := by
            split_ifs with h1
            · have : (k - 1).toNat = 0 := by omega
              simp [this]
            · rfl
          have hnext : g.drawn + (k - 1).toNat + 1 = g.drawn + (k + 1 - 1).toNat := by omega
          simp only [Option.map_some', Market.simulateStepGen, Market.simulateStep,
            Option.some_bind, Market.generateZ, hseed, hdrawn, Market.drawAt, hk1, if_false,
            hnext]
          cases Market.readSlot a (k - 1) with
          | none => simp
          | some prev =>
            simp only [Option.some_bind]
    by_cases hn : 1 ≤ m.numTradingDays
    · rw [key m.numTradingDays hn]
      cases (forRange 1 m.numTradingDays).foldl
          (Market.simulateStep lib m (Market.drawAt src g m))
          (Market.writeSlot arr 0 (roundToDecimals m.initialPrice 3)) <;> simp
    · have hle : m.numTradingDays ≤ 1 := by omega
      rw [forRange_of_le 1 m.numTradingDays hle, if_pos hle]
      simp only [List.foldl_nil]
      cases Market.writeSlot arr 0 (roundToDecimals m.initialPrice 3) <;> simp

theorem readSlot_writeSlot_same (arr out : List (Option ℚ)) (i : Int) (v : ℚ)
    (h : Market.writeSlot arr i v = some out) : Market.readSlot out i = some v := by
  unfold Market.writeSlot at h
  cases hr : Market.readSlot arr i with
  | none => rw [hr] at h; simp at h
  | some q =>
    rw [hr] at h
    simp only [Option.some.injEq] at h
    subst h
    unfold Market.readSlot at hr ⊢
    by_cases hi : 0 ≤ i
    · rw [if_pos hi] at hr ⊢
      have hlt : i.toNat < arr.length := by
        by_contra hge
        have : arr.get? i.toNat = none := by
          simp only [List.get?_eq_getElem?]
          exact List.getElem?_eq_none (by omega)
        rw [this] at hr
        simp at hr
      simp [List.getElem?_set, hlt]
    · rw [if_neg hi] at hr
      simp at hr

theorem readSlot_writeSlot_ne (arr out : List (Option ℚ)) (i k : Int) (v : ℚ)
    (h : Market.writeSlot arr i v = some out) (hk : k ≠ i) :
    Market.readSlot out k = Market.readSlot arr k := by
  unfold Market.writeSlot at h
  cases hr : Market.readSlot arr i with
  | none => rw [hr] at h; simp at h
  | some q =>
    rw [hr] at h
    simp only [Option.some.injEq] at h
    subst h
    unfold Market.readSlot at hr ⊢
    by_cases hi : 0 ≤ i
    · by_cases hk0 : 0 ≤ k
      · rw [if_pos hk0, if_pos hk0]
        have hne : i.toNat ≠ k.toNat := by omega
        simp only [List.get?_eq_getElem?]
        rw [List.getElem?_set_ne hne]
      · rw [if_neg hk0, if_neg hk0]
    · rw [if_neg hi] at hr
      simp at hr

theorem allocated_new (initialPrice volatility expectedYearlyReturn : ℚ)
    (numTradingDays seed : Int) (m : Market)
    (h : Market.new initialPrice volatility expectedYearlyReturn numTradingDays seed = some m) :
    m.Allocated := by
  unfold Market.new at h
  by_cases hneg : numTradingDays < 0
  · rw [if_pos hneg] at h
    simp at h
  · rw [if_neg hneg] at h
    have hm := Option.some.inj h
    subst hm
    refine ⟨_, rfl, fun k hk0 hkn => ⟨0, readSlot_replicate numTradingDays.toNat k hk0 ?_⟩⟩
    have hkn1 : k < numTradingDays := hkn
    omega

theorem foldl_simulateStep_recurrence (lib : CMath) (m : Market) (Z : Int → ℚ) (n : Int)
    (arr : List (Option ℚ)) (p0 : ℚ)
    (ha : ∀ k : Int, 0 ≤ k → k < n → ∃ p, Market.readSlot arr k = some p)
    (hi : Int) (h1 : 1 ≤ hi) (hn : hi ≤ n) :
    ∃ out, (forRange 1 hi).foldl (Market.simulateStep lib m Z) (Market.writeSlot arr 0 p0)
        = some out ∧
      Market.readSlot out 0 = some p0 ∧
      (∀ i : Int, 1 ≤ i → i < hi → ∃ prev, Market.readSlot out (i - 1) = some prev ∧
        Market.readSlot out i = some (Market.nextPrice lib m prev (Z i))) ∧
      (∀ k : Int, 0 ≤ k → k < n → ∃ p, Market.readSlot out k = some p) := by
  revert hn
  refine @Int.le_induction (fun hi => hi ≤ n →
    ∃ out, (forRange 1 hi).foldl (Market.simulateStep lib m Z) (Market.writeSlot arr 0 p0)
        = some out ∧
      Market.readSlot out 0 = some p0 ∧
      (∀ i : Int, 1 ≤ i → i < hi → ∃ prev, Market.readSlot out (i - 1) = some prev ∧
        Market.readSlot out i = some (Market.nextPrice lib m prev (Z i))) ∧
      (∀ k : Int, 0 ≤ k → k < n → ∃ p, Market.readSlot out k = some p)) 1 ?_ ?_ hi h1
  · beta_reduce
    intro hn
    rw [forRange_of_le 1 1 le_rfl]
    simp only [List.foldl_nil]
    obtain ⟨q, hq⟩ := ha 0 le_rfl (by omega)
    have hw : Market.writeSlot arr 0 p0 = some (arr.set (0 : Int).toNat (some p0)) := by
      unfold Market.writeSlot
      rw [hq]
    refine ⟨_, hw, readSlot_writeSlot_same arr _ 0 p0 hw, ?_, ?_⟩
    · intro i hi1 hi2
      omega
    · intro k hk0 hkn
      exact (readSlot_writeSlot arr _ 0 p0 hw).2 k (ha k hk0 hkn)
  · intro k hk ih
    beta_reduce at ih ⊢
    intro hn
    obtain ⟨out, hf, h0, hrec, hall⟩ := ih (by omega)
    rw [forRange_snoc 1 k hk, List.foldl_append, hf]
    simp only [List.foldl_cons, List.foldl_nil]
    obtain ⟨prev, hprev⟩ := hall (k - 1) (by omega) (by omega)
    obtain ⟨cur, hcur⟩ := hall k (by omega) (by omega)
    have hw : Market.writeSlot out k (Market.nextPrice lib m prev (Z k))
        = some (out.set k.toNat (some (Market.nextPrice lib m prev (Z k)))) := by
      unfold Market.writeSlot
      rw [hcur]
    have hstep : Market.simulateStep lib m Z (some out) k
        = some (out.set k.toNat (some (Market.nextPrice lib m prev (Z k)))) := by
      unfold Market.simulateStep
      simp only [Option.some_bind, hprev]
      exact hw
    refine ⟨_, hstep, ?_, ?_, ?_⟩
    · rw [readSlot_writeSlot_ne out _ k 0 _ hw (by omega)]
      exact h0
    · intro i hi1 hi2
      by_cases hik : i = k
      · subst hik
        refine ⟨prev, ?_, readSlot_writeSlot_same out _ i _ hw⟩
        rw [readSlot_writeSlot_ne out _ i (i - 1) _ hw (by omega)]
        exact hprev
      · obtain ⟨pv, hpv, hpi⟩ := hrec i hi1 (by omega)
        refine ⟨pv, ?_, ?_⟩
        · rw [readSlot_writeSlot_ne out _ k (i - 1) _ hw (by omega)]
          exact hpv
        · rw [readSlot_writeSlot_ne out _ k i _ hw hik]
          exact hpi
    · intro j hj0 hjn
      exact (readSlot_writeSlot out _ k _ hw).2 j (hall j hj0 hjn)

theorem simulate_recurrence (lib : CMath) (Z : Int → ℚ) (m : Market) (ha : m.Allocated)
    (hn : 1 ≤ m.numTradingDays) :
    ∃ m1, m.simulate lib Z = some m1 ∧ m1 = { m with prices := m1.prices } ∧ m1.Allocated ∧
      m1.getPrice 0 = roundToDecimals m.initialPrice 3 ∧
      ∀ i : Int, 1 ≤ i → i < m.numTradingDays →
        m1.getPrice i = Market.nextPrice lib m (m1.getPrice (i - 1)) (Z i) := by
  obtain ⟨arr, hp, hall⟩ := ha
  obtain ⟨out, hf, h0, hrec, hall1⟩ := foldl_simulateStep_recurrence lib m Z m.numTradingDays
    arr (roundToDecimals m.initialPrice 3) hall m.numTradingDays hn le_rfl
  refine ⟨{ m with prices := some out }, ?_, rfl, ⟨out, rfl, hall1⟩, ?_, ?_⟩
  · unfold Market.simulate
    rw [hp]
    simp only
    rw [hf]
    rfl
  · exact getPrice_of_readSlot _ out 0 _ rfl le_rfl (by unfold Market.getNumTradingDays; exact hn)
      h0
  · intro i hi1 hi2
    obtain ⟨prev, hpv, hpi⟩ := hrec i hi1 hi2
    have e1 : ({ m with prices := some out } : Market).getPrice (i - 1) = prev :=
      getPrice_of_readSlot _ out (i - 1) _ rfl (by omega)
        (by unfold Market.getNumTradingDays; show i - 1 < m.numTradingDays; omega) hpv
    rw [e1]
    exact getPrice_of_readSlot _ out i _ rfl (by omega)
      (by unfold Market.getNumTradingDays; exact hi2) hpi

/-! ## Properties: rounding to decimals -/

theorem cround_eq (x : ℚ) :
    cround x = ((SignType.sign x : SignType) : ℚ) * ((⌊|x| + 1 / 2⌋ : Int) : ℚ) := by
  unfold cround
  rcases lt_trichotomy x 0 with h | h | h
  · rw [if_neg (not_le.mpr h), sign_neg h, abs_of_neg h]
    simp
  · subst h
    norm_num
  · rw [if_pos h.le, sign_pos h, abs_of_pos h]
    simp

theorem cround_sub_bounds (x : ℚ) :
    -(1 / 2) < ((⌊x + 1 / 2⌋ : Int) : ℚ) - x ∧ ((⌊x + 1 / 2⌋ : Int) : ℚ) - x ≤ 1 / 2 := by
  have h1 := Int.floor_le (x + 1 / 2)
  have h2 := Int.lt_floor_add_one (x + 1 / 2)
  constructor <;> linarith

theorem cround_abs_sub (x : ℚ) : |cround x - x| ≤ 1 / 2 := by
  unfold cround
  by_cases h : 0 ≤ x
  · rw [if_pos h]
    obtain ⟨h1, h2⟩ := cround_sub_bounds x
    exact abs_le.mpr ⟨h1.le, h2⟩
  · rw [if_neg h]
    obtain ⟨h1, h2⟩ := cround_sub_bounds (-x)
    exact abs_le.mpr ⟨by linarith, by linarith⟩

theorem cround_tie (x : ℚ) (h : |cround x - x| = 1 / 2) : |x| < |cround x| := by
  unfold cround at h ⊢
  by_cases h0 : 0 ≤ x
  · rw [if_pos h0] at h ⊢
    obtain ⟨h1, h2⟩ := cround_sub_bounds x
    have h3 : ((⌊x + 1 / 2⌋ : Int) : ℚ) - x = 1 / 2 := by
      rcases abs_eq (by norm_num : (0 : ℚ) ≤ 1 / 2) |>.mp h with h4 | h4
      · exact h4
      · linarith
    rw [abs_of_nonneg h0, abs_of_nonneg (by linarith)]
    linarith
  · rw [if_neg h0] at h ⊢
    obtain ⟨h1, h2⟩ := cround_sub_bounds (-x)
    have h3 : ((⌊-x + 1 / 2⌋ : Int) : ℚ) - -x = 1 / 2 := by
      rcases abs_eq (by norm_num : (0 : ℚ) ≤ 1 / 2) |>.mp h with h4 | h4
      · linarith
      · linarith
    rw [abs_of_neg (by linarith : x < 0), abs_neg, abs_of_nonneg (by linarith)]
    linarith

theorem cround_isInt (x : ℚ) : ∃ k : Int, cround x = (k : ℚ) := by
  unfold cround
  by_cases h : 0 ≤ x
  · rw [if_pos h]
    exact ⟨_, rfl⟩
  · rw [if_neg h]
    exact ⟨-⌊-x + 1 / 2⌋, by push_cast; ring⟩

theorem cround_intCast (k : Int) : cround (k : ℚ) = (k : ℚ) := by
  unfold cround
  have hfl : ∀ j : Int, ⌊(j : ℚ) + 1 / 2⌋ = j := by
    intro j
    rw [Int.floor_eq_iff]
    constructor <;> norm_num
  by_cases h : (0 : ℚ) ≤ (k : ℚ)
  · rw [if_pos h, hfl]
  · rw [if_neg h]
    have := hfl (-k)
    push_cast at this
    rw [this]
    push_cast
    ring

theorem factor_pos (d : Int) : (0 : ℚ) < (10 : ℚ) ^ d := zpow_pos (by norm_num) d

theorem roundToDecimals_isMultiple (v : ℚ) (d : Int) :
    ∃ k : Int, roundToDecimals v d = (k : ℚ) * (10 : ℚ) ^ (-d) := by
  obtain ⟨k, hk⟩ := cround_isInt (v * (10 : ℚ) ^ d)
  refine ⟨k, ?_⟩
  unfold roundToDecimals
  simp only
  rw [hk, zpow_neg, div_eq_mul_inv]

theorem roundToDecimals_mul_factor (v : ℚ) (d : Int) :
    ∃ k : Int, roundToDecimals v d * (10 : ℚ) ^ d = (k : ℚ) := by
  obtain ⟨k, hk⟩ := cround_isInt (v * (10 : ℚ) ^ d)
  refine ⟨k, ?_⟩
  unfold roundToDecimals
  simp only
  rw [hk, div_mul_cancel₀ _ (factor_pos d).ne']

theorem roundToDecimals_idem (v : ℚ) (d : Int) :
    roundToDecimals (roundToDecimals v d) d = roundToDecimals v d := by
  obtain ⟨k, hk⟩ := roundToDecimals_mul_factor v d
  have h1 : roundToDecimals (roundToDecimals v d) d
      = cround (roundToDecimals v d * (10 : ℚ) ^ d) / (10 : ℚ) ^ d := rfl
  rw [h1, hk, cround_intCast, ← hk, mul_div_cancel_right₀ _ (factor_pos d).ne']

theorem roundToDecimals_sub (v : ℚ) (d : Int) :
    roundToDecimals v d - v
      = (cround (v * (10 : ℚ) ^ d) - v * (10 : ℚ) ^ d) / (10 : ℚ) ^ d := by
  have hf := factor_pos d
  unfold roundToDecimals
  simp only
  field_simp
  ring

theorem roundToDecimals_abs_sub (v : ℚ) (d : Int) :
    |roundToDecimals v d - v| ≤ 1 / 2 * (10 : ℚ) ^ (-d) := by
  have hf := factor_pos d
  have h1 := roundToDecimals_sub v d
  rw [h1, abs_div, abs_of_pos hf, zpow_neg, ← div_eq_mul_inv]
  exact div_le_div_of_nonneg_right (cround_abs_sub _) hf.le

theorem roundToDecimals_tie (v : ℚ) (d : Int)
    (h : |roundToDecimals v d - v| = 1 / 2 * (10 : ℚ) ^ (-d)) :
    |v| < |roundToDecimals v d| := by
  have hf := factor_pos d
  have h1 := roundToDecimals_sub v d
  rw [h1, abs_div, abs_of_pos hf, zpow_neg, ← div_eq_mul_inv] at h
  have h2 : |cround (v * (10 : ℚ) ^ d) - v * (10 : ℚ) ^ d| = 1 / 2 :=
    (div_left_inj' hf.ne').mp h
  have h3 := cround_tie _ h2
  rw [abs_mul, abs_of_pos hf] at h3
  have h4 : |roundToDecimals v d| = |cround (v * (10 : ℚ) ^ d)| / (10 : ℚ) ^ d := by
    unfold roundToDecimals
    simp only
    rw [abs_div, abs_of_pos hf]
  rw [h4, lt_div_iff₀ hf]
  exact h3

theorem roundToDecimals_formula (v : ℚ) (d : Int) :
    roundToDecimals v d
      = ((SignType.sign v : SignType) : ℚ) * ((⌊|v| * (10 : ℚ) ^ d + 1 / 2⌋ : Int) : ℚ)
          / (10 : ℚ) ^ d := by
  have hf := factor_pos d
  unfold roundToDecimals
  simp only
  rw [cround_eq, abs_mul, abs_of_pos hf]
  congr 2
  rcases lt_trichotomy v 0 with h | h | h
  · rw [sign_neg h, sign_neg (mul_neg_of_neg_of_pos h hf)]
  · subst h
    simp
  · rw [sign_pos h, sign_pos (mul_pos h hf)]

theorem roundToDecimals_nearest_multiple (v : ℚ) (d : Int) (j : Int) :
    |roundToDecimals v d - v| ≤ |(j : ℚ) * (10 : ℚ) ^ (-d) - v| := by
  have hf := factor_pos (-d)
  obtain ⟨k, hk⟩ := roundToDecimals_isMultiple v d
  have hb := roundToDecimals_abs_sub v d
  by_cases hjk : j = k
  · rw [hjk, ← hk]
  · have hne : (1 : ℚ) ≤ |((j - k : Int) : ℚ)| := by
      rw [← Int.cast_abs]
      have : (1 : Int) ≤ |j - k| := Int.one_le_abs (sub_ne_zero.mpr hjk)
      exact_mod_cast this
    have h1 : (10 : ℚ) ^ (-d) ≤ |(j : ℚ) * (10 : ℚ) ^ (-d) - roundToDecimals v d| := by
      rw [hk, ← sub_mul, abs_mul, abs_of_pos hf]
      push_cast at hne
      nlinarith
    have h2 : |(j : ℚ) * (10 : ℚ) ^ (-d) - roundToDecimals v d|
        ≤ |(j : ℚ) * (10 : ℚ) ^ (-d) - v| + |roundToDecimals v d - v| := by
      have := abs_sub_le ((j : ℚ) * (10 : ℚ) ^ (-d)) v (roundToDecimals v d)
      rw [abs_sub_comm v] at this
      exact this
    linarith

/-- C28: for every value `v` and every number of decimals `d` (in particular every
`d >= 0`), `roundToDecimals(v, d)` equals `sign(v) * floor(|v| * 10^d + 1/2) / 10^d`; it
is an integer multiple of `10^-d`, no integer multiple of `10^-d` is nearer to `v`, it
differs from `v` by at most `0.5 * 10^-d`, and when it differs by exactly that much (a
tie) it is the candidate of larger magnitude (away from zero).  Examples:
`roundToDecimals(0.0005, 3) = 0.001` and `roundToDecimals(-0.0005, 3) = -0.001`. -/
theorem roundToDecimals_half_away_from_zero :
    (∀ (v : ℚ) (d : Int),
      roundToDecimals v d
        = ((SignType.sign v : SignType) : ℚ) * ((⌊|v| * (10 : ℚ) ^ d + 1 / 2⌋ : Int) : ℚ)
            / (10 : ℚ) ^ d ∧
      (∃ k : Int, roundToDecimals v d = (k : ℚ) * (10 : ℚ) ^ (-d)) ∧
      (∀ j : Int, |roundToDecimals v d - v| ≤ |(j : ℚ) * (10 : ℚ) ^ (-d) - v|) ∧
      |roundToDecimals v d - v| ≤ 1 / 2 * (10 : ℚ) ^ (-d) ∧
      (|roundToDecimals v d - v| = 1 / 2 * (10 : ℚ) ^ (-d) → |v| < |roundToDecimals v d|)) ∧
    roundToDecimals (5 / 10000) 3 = 1 / 1000 ∧
    roundToDecimals (-(5 / 10000)) 3 = -(1 / 1000) := by
  refine ⟨fun v d => ⟨roundToDecimals_formula v d, roundToDecimals_isMultiple v d,
    roundToDecimals_nearest_multiple v d, roundToDecimals_abs_sub v d,
    roundToDecimals_tie v d⟩, ?_, ?_⟩
  · norm_num [roundToDecimals, cround]
  · norm_num [roundToDecimals, cround]

/-! ## Properties: the prices after simulate, two simulations in one process -/

/-- C21: on a market with `n >= 1` trading days, each with an allocated price slot,
`simulate()` completes; afterwards `price[0] = roundToDecimals(initialPrice, 3)` and for
every `i` with `1 <= i <= n - 1`
`price[i] = roundToDecimals(price[i-1] * exp((expectedYearlyReturn - 0.5 * volatility^2)
* (1/252) + volatility * sqrt(1/252) * Z_i), 3)`, where `Z_i` is the value of the
`i`-th call of `generateZ` during this call of `simulate` (call number `drawn + i - 1`
of the process-wide generator); the call makes exactly `n - 1` draws. -/
theorem simulate_gbm_recurrence (lib : CMath) (src : RandomSource) (g : GenState) (m : Market)
    (ha : m.Allocated) (hn : 1 ≤ m.getNumTradingDays) :
    ∃ m1 g1, m.simulateGen lib src g = some (m1, g1) ∧
      m1.getNumTradingDays = m.getNumTradingDays ∧
      m1.getPrice 0 = roundToDecimals m.initialPrice 3 ∧
      (∀ i : Int, 1 ≤ i → i ≤ m.getNumTradingDays - 1 →
        m1.getPrice i = roundToDecimals
          (m1.getPrice (i - 1) * lib.exp
            ((m.expectedYearlyReturn - (1 / 2) * m.volatility ^ 2) * (1 / 252)
              + m.volatility * lib.sqrt (1 / 252)
                * src.normal (g.seed.getD m.seed) (g.drawn + (i - 1).toNat))) 3) ∧
      g1.drawn = g.drawn + (m.getNumTradingDays - 1).toNat := by
  unfold Market.getNumTradingDays at hn ⊢
  obtain ⟨m1, hsim, hm1, -, h0, hrec⟩ :=
    simulate_recurrence lib (Market.drawAt src g m) m ha hn
  refine ⟨m1, (if m.numTradingDays ≤ 1 then g
    else ⟨some (g.seed.getD m.seed), g.drawn + (m.numTradingDays - 1).toNat⟩), ?_, ?_, h0, ?_, ?_⟩
  · rw [simulateGen_eq_simulate, hsim]
    rfl
  · rw [hm1]
  · intro i hi1 hi2
    rw [hrec i hi1 (by omega)]
    unfold Market.nextPrice Market.drawAt TRADING_DAYS_PER_YEAR
    norm_num [pow_two]
  · by_cases h1 : m.numTradingDays ≤ 1
    · rw [if_pos h1]
      have : (m.numTradingDays - 1).toNat = 0 := by omega
      simp [this]
    · rw [if_neg h1]

/-- Witness for C21: the market `Market(100, 0.2, 0.5, 3, 42)` simulated at the start
of a process. -/
theorem simulate_gbm_recurrence_witness :
    ∃ m1 g1, freshMarket.simulateGen exampleMath exampleSource GenState.start = some (m1, g1) ∧
      m1.getNumTradingDays = freshMarket.getNumTradingDays ∧
      m1.getPrice 0 = roundToDecimals freshMarket.initialPrice 3 ∧
      (∀ i : Int, 1 ≤ i → i ≤ freshMarket.getNumTradingDays - 1 →
        m1.getPrice i = roundToDecimals
          (m1.getPrice (i - 1) * exampleMath.exp
            ((freshMarket.expectedYearlyReturn - (1 / 2) * freshMarket.volatility ^ 2)
                * (1 / 252)
              + freshMarket.volatility * exampleMath.sqrt (1 / 252)
                * exampleSource.normal (GenState.start.seed.getD freshMarket.seed)
                    (GenState.start.drawn + (i - 1).toNat))) 3) ∧
      g1.drawn = GenState.start.drawn + (freshMarket.getNumTradingDays - 1).toNat :=
  simulate_gbm_recurrence exampleMath exampleSource GenState.start freshMarket
    (allocated_new 100 (1 / 5) (1 / 2) 3 42 freshMarket rfl) (by decide)

/-- C22: on a market with `n >= 1` trading days, each with an allocated price slot,
`simulate()` completes for every choice of parameters, of `exp` and `sqrt` and of random
draws, and afterwards every stored price `p` (index `0..n-1`) is rounded to 3 decimals:
`1000 * p` is an integer and `roundToDecimals(p, 3) = p`. -/
theorem simulate_prices_rounded (lib : CMath) (Z : Int → ℚ) (m : Market)
    (ha : m.Allocated) (hn : 1 ≤ m.getNumTradingDays) :
    ∃ m1, m.simulate lib Z = some m1 ∧
      ∀ i : Int, 0 ≤ i → i < m.getNumTradingDays →
        (∃ k : Int, 1000 * m1.getPrice i = (k : ℚ)) ∧
        roundToDecimals (m1.getPrice i) 3 = m1.getPrice i := by
  unfold Market.getNumTradingDays at hn ⊢
  obtain ⟨m1, hsim, -, -, h0, hrec⟩ := simulate_recurrence lib Z m ha hn
  refine ⟨m1, hsim, ?_⟩
  intro i hi0 hin
  have hform : ∃ x, m1.getPrice i = roundToDecimals x 3 := by
    by_cases hi : i = 0
    · subst hi
      exact ⟨_, h0⟩
    · exact ⟨_, hrec i (by omega) hin⟩
  obtain ⟨x, hx⟩ := hform
  rw [hx]
  refine ⟨?_, roundToDecimals_idem x 3⟩
  obtain ⟨k, hk⟩ := roundToDecimals_mul_factor x 3
  refine ⟨k, ?_⟩
  rw [← hk]
  norm_num
  ring

/-- Witness for C22: the market `Market(100, 0.2, 0.5, 3, 42)`. -/
theorem simulate_prices_rounded_witness :
    ∃ m1, freshMarket.simulate exampleMath (fun i => (i : ℚ)) = some m1 ∧
      ∀ i : Int, 0 ≤ i → i < freshMarket.getNumTradingDays →
        (∃ k : Int, 1000 * m1.getPrice i = (k : ℚ)) ∧
        roundToDecimals (m1.getPrice i) 3 = m1.getPrice i :=
  simulate_prices_rounded exampleMath (fun i => (i : ℚ)) freshMarket
    (allocated_new 100 (1 / 5) (1 / 2) 3 42 freshMarket rfl) (by decide)

/-- C23: for every initial price, every `n >= 1`, every seed and every sequence of
random draws, a market with `volatility = 0` and `expectedYearlyReturn = 0` (each day
with an allocated price slot) has, after `simulate()`, all `n` prices equal to
`roundToDecimals(initialPrice, 3)`, given that `exp(0) = 1`. -/
theorem simulate_zero_volatility (lib : CMath) (Z : Int → ℚ) (m : Market)
    (ha : m.Allocated) (hn : 1 ≤ m.getNumTradingDays)
    (hv : m.volatility = 0) (hr : m.expectedYearlyReturn = 0) (hexp : lib.exp 0 = 1) :
    ∃ m1, m.simulate lib Z = some m1 ∧
      ∀ i : Int, 0 ≤ i → i < m.getNumTradingDays →
        m1.getPrice i = roundToDecimals m.initialPrice 3 := by
  unfold Market.getNumTradingDays at hn ⊢
  obtain ⟨m1, hsim, -, -, h0, hrec⟩ := simulate_recurrence lib Z m ha hn
  refine ⟨m1, hsim, ?_⟩
  have hnext : ∀ (prev z : ℚ), Market.nextPrice lib m prev z = roundToDecimals prev 3 := by
    intro prev z
    unfold Market.nextPrice
    rw [hv, hr]
    norm_num [hexp]
  intro i hi0
  refine @Int.le_induction (fun i => i < m.numTradingDays →
    m1.getPrice i = roundToDecimals m.initialPrice 3) 0 ?_ ?_ i hi0
  · intro _
    exact h0
  · intro k hk ih
    beta_reduce at ih ⊢
    intro hlt
    rw [hrec (k + 1) (by omega) hlt, hnext]
    have : k + 1 - 1 = k := by omega
    rw [this, ih (by omega), roundToDecimals_idem]

/-- Witness for C23: the market `Market(100, 0, 0, 5, 42)` has five prices equal to
100 after `simulate()`. -/
theorem simulate_zero_volatility_witness :
    roundToDecimals flatFresh.initialPrice 3 = 100 ∧
    ∃ m1, flatFresh.simulate exampleMath (fun i => (i : ℚ)) = some m1 ∧
      ∀ i : Int, 0 ≤ i → i < flatFresh.getNumTradingDays →
        m1.getPrice i = roundToDecimals flatFresh.initialPrice 3 :=
  ⟨by norm_num [flatFresh, roundToDecimals, cround],
    simulate_zero_volatility exampleMath (fun i => (i : ℚ)) flatFresh
      (allocated_new 100 0 0 5 42 flatFresh rfl) (by decide) rfl rfl
      (by norm_num [exampleMath])⟩

theorem simulateGen_recurrence (lib : CMath) (src : RandomSource) (g : GenState) (m : Market)
    (ha : m.Allocated) (hn : 1 ≤ m.numTradingDays) :
    ∃ m1 g1, m.simulateGen lib src g = some (m1, g1) ∧
      m1.numTradingDays = m.numTradingDays ∧
      g1.seed.getD m.seed = g.seed.getD m.seed ∧
      g1.drawn = g.drawn + (m.numTradingDays - 1).toNat ∧
      m1.getPrice 0 = roundToDecimals m.initialPrice 3 ∧
      ∀ i : Int, 1 ≤ i → i < m.numTradingDays →
        m1.getPrice i = Market.nextPrice lib m (m1.getPrice (i - 1))
          (src.normal (g.seed.getD m.seed) (g.drawn + (i - 1).toNat)) := by
  obtain ⟨m1, hsim, hm1, -, h0, hrec⟩ :=
    simulate_recurrence lib (Market.drawAt src g m) m ha hn
  refine ⟨m1, (if m.numTradingDays ≤ 1 then g
    else ⟨some (g.seed.getD m.seed), g.drawn + (m.numTradingDays - 1).toNat⟩),
    ?_, ?_, ?_, ?_, h0, hrec⟩
  · rw [simulateGen_eq_simulate, hsim]
    rfl
  · rw [hm1]
  · split_ifs <;> simp
  · by_cases h1 : m.numTradingDays ≤ 1
    · rw [if_pos h1]
      have : (m.numTradingDays - 1).toNat = 0 := by omega
      simp [this]
    · rw [if_neg h1]

/-- Counterexample to C26: two markets `Market(100, 1, 0, 2, 42)` simulated one after
the other from the start of a process, with the stand-ins `exp x = 1 + x`,
`sqrt x = x` and a generator whose call number `k` returns `k + 1`.  The first market
uses the first draw and holds `price[1] = 100.198`; the second continues with the
second draw of the same generator and holds `price[1] = 100.595`. -/
theorem simulate_twice_counterexample :
    ∃ m1 g1 m2 g2,
      twoDayFresh.simulateGen exampleMath exampleSource GenState.start = some (m1, g1) ∧
      twoDayFresh.simulateGen exampleMath exampleSource g1 = some (m2, g2) ∧
      m1.getPrice 1 = 100198 / 1000 ∧ m2.getPrice 1 = 100595 / 1000 ∧
      m1.getPrice 1 ≠ m2.getPrice 1 := by
  have hr : forRange 1 2 = [1] := by decide
  refine ⟨⟨100, 1, 0, 2, some [some 100, some (100198 / 1000)], 42⟩, ⟨some 42, 1⟩,
    ⟨100, 1, 0, 2, some [some 100, some (100595 / 1000)], 42⟩, ⟨some 42, 2⟩, ?_, ?_, ?_, ?_, ?_⟩
  · norm_num [Market.simulateGen, twoDayFresh, hr, Market.simulateStepGen, Market.generateZ,
      Market.readSlot, Market.writeSlot, GenState.start, exampleMath, exampleSource,
      roundToDecimals, cround, TRADING_DAYS_PER_YEAR]
  · norm_num [Market.simulateGen, twoDayFresh, hr, Market.simulateStepGen, Market.generateZ,
      Market.readSlot, Market.writeSlot, GenState.start, exampleMath, exampleSource,
      roundToDecimals, cround, TRADING_DAYS_PER_YEAR]
  · norm_num [Market.getPrice]
  · norm_num [Market.getPrice]
  · norm_num [Market.getPrice]

/-- C26 (amended): two freshly constructed markets with identical parameters and
`n >= 1` trading days, each simulated once in the same process one after the other,
both complete; they hold the same `price[0]`, and for `1 <= i <= n - 1` the first
derives `price[i]` from call number `drawn + i - 1` of the process-wide generator while
the second derives it from call number `drawn + (n - 1) + i - 1` of the same generator,
the generator being constructed from the seed of the first call of the process only.
The two price sequences are identical when those draws agree pairwise, in particular
when `n = 1`. -/
theorem simulate_twice (lib : CMath) (src : RandomSource) (g : GenState) (m : Market)
    (ha : m.Allocated) (hn : 1 ≤ m.getNumTradingDays) :
    ∃ m1 g1 m2 g2,
      m.simulateGen lib src g = some (m1, g1) ∧ m.simulateGen lib src g1 = some (m2, g2) ∧
      g2.drawn = g.drawn + 2 * (m.getNumTradingDays - 1).toNat ∧
      m1.getPrice 0 = roundToDecimals m.initialPrice 3 ∧
      m2.getPrice 0 = roundToDecimals m.initialPrice 3 ∧
      (∀ i : Int, 1 ≤ i → i ≤ m.getNumTradingDays - 1 →
        m1.getPrice i = Market.nextPrice lib m (m1.getPrice (i - 1))
          (src.normal (g.seed.getD m.seed) (g.drawn + (i - 1).toNat)) ∧
        m2.getPrice i = Market.nextPrice lib m (m2.getPrice (i - 1))
          (src.normal (g.seed.getD m.seed)
            (g.drawn + (m.getNumTradingDays - 1).toNat + (i - 1).toNat))) ∧
      ((∀ i : Int, 1 ≤ i → i ≤ m.getNumTradingDays - 1 →
          src.normal (g.seed.getD m.seed) (g.drawn + (i - 1).toNat)
            = src.normal (g.seed.getD m.seed)
                (g.drawn + (m.getNumTradingDays - 1).toNat + (i - 1).toNat)) →
        ∀ i : Int, m1.getPrice i = m2.getPrice i) := by
  unfold Market.getNumTradingDays at hn ⊢
  obtain ⟨m1, g1, hs1, hd1, hseed1, hdr1, h10, hrec1⟩ := simulateGen_recurrence lib src g m ha hn
  obtain ⟨m2, g2, hs2, hd2, -, hdr2, h20, hrec2⟩ := simulateGen_recurrence lib src g1 m ha hn
  rw [hseed1, hdr1] at hrec2
  refine ⟨m1, g1, m2, g2, hs1, hs2, ?_, h10, h20, ?_, ?_⟩
  · rw [hdr2, hdr1]
    omega
  · intro i hi1 hi2
    exact ⟨hrec1 i hi1 (by omega), hrec2 i hi1 (by omega)⟩
  · intro hZ i
    by_cases hout : i < 0 ∨ i ≥ m.numTradingDays
    · rw [getPrice_out_of_range m1 i (by unfold Market.getNumTradingDays; rw [hd1]; exact hout),
        getPrice_out_of_range m2 i (by unfold Market.getNumTradingDays; rw [hd2]; exact hout)]
    · have hi0 : 0 ≤ i := by omega
      have hin : i < m.numTradingDays := by omega
      revert hin
      refine @Int.le_induction (fun i => i < m.numTradingDays →
        m1.getPrice i = m2.getPrice i) 0 ?_ ?_ i hi0
      · intro _
        rw [h10, h20]
      · intro k hk ih
        beta_reduce at ih ⊢
        intro hlt
        rw [hrec1 (k + 1) (by omega) hlt, hrec2 (k + 1) (by omega) hlt,
          hZ (k + 1) (by omega) (by omega)]
        have : k + 1 - 1 = k := by omega
        rw [this, ih (by omega)]

/-- Witness for C26 (amended): two markets `Market(100, 1, 0, 2, 42)` simulated one
after the other from the start of a process. -/
theorem simulate_twice_witness :
    ∃ m1 g1 m2 g2,
      twoDayFresh.simulateGen exampleMath exampleSource GenState.start = some (m1, g1) ∧
      twoDayFresh.simulateGen exampleMath exampleSource g1 = some (m2, g2) ∧
      g2.drawn = GenState.start.drawn + 2 * (twoDayFresh.getNumTradingDays - 1).toNat ∧
      m1.getPrice 0 = roundToDecimals twoDayFresh.initialPrice 3 ∧
      m2.getPrice 0 = roundToDecimals twoDayFresh.initialPrice 3 ∧
      (∀ i : Int, 1 ≤ i → i ≤ twoDayFresh.getNumTradingDays - 1 →
        m1.getPrice i = Market.nextPrice exampleMath twoDayFresh (m1.getPrice (i - 1))
          (exampleSource.normal (GenState.start.seed.getD twoDayFresh.seed)
            (GenState.start.drawn + (i - 1).toNat)) ∧
        m2.getPrice i = Market.nextPrice exampleMath twoDayFresh (m2.getPrice (i - 1))
          (exampleSource.normal (GenState.start.seed.getD twoDayFresh.seed)
            (GenState.start.drawn + (twoDayFresh.getNumTradingDays - 1).toNat
              + (i - 1).toNat))) ∧
      ((∀ i : Int, 1 ≤ i → i ≤ twoDayFresh.getNumTradingDays - 1 →
          exampleSource.normal (GenState.start.seed.getD twoDayFresh.seed)
              (GenState.start.drawn + (i - 1).toNat)
            = exampleSource.normal (GenState.start.seed.getD twoDayFresh.seed)
                (GenState.start.drawn + (twoDayFresh.getNumTradingDays - 1).toNat
                  + (i - 1).toNat)) →
        ∀ i : Int, m1.getPrice i = m2.getPrice i) :=
  simulate_twice exampleMath exampleSource GenState.start twoDayFresh
    (allocated_new 100 1 0 2 42 twoDayFresh rfl) (by decide)

/-! ## Properties: trend following with equal windows -/

theorem decideAction_equal_windows (self : TrendFollowingStrategy)
    (heq : self.shortMovingAverageWindow = self.longMovingAverageWindow)
    (market : Market) (index : Int) (currentHolding : ℚ) :
    self.decideAction market index currentHolding
      = if currentHolding = 1 then Action.SELL else Action.HOLD := by
  unfold TrendFollowingStrategy.decideAction TrendFollowingStrategy.decideActionWith
  rw [heq]
  simp

/-- Counterexample to C24: on the series of five prices of 100, at day index 2 with
a long position (`holding = 1`), `TrendFollowingStrategy("TF", 2, 2)` returns SELL: both
averages are 100, so `isUptrend` is false and the branch `!isUptrend && holding == 1`
is taken. -/
theorem flat_trend_counterexample :
    (∀ i : Int, 0 ≤ i → i < flatMarket.getNumTradingDays → flatMarket.getPrice i = 100) ∧
    Strategy.calculateMovingAverage (some flatMarket) 2 2 = 100 ∧
    flatTrend.decideAction flatMarket 2 1 = Action.SELL ∧
    Action.SELL ≠ Action.HOLD := by
  refine ⟨?_, ?_, ?_, by decide⟩
  · intro i h0 h5
    have h5a : i < 5 := h5
    have hcases : i = 0 ∨ i = 1 ∨ i = 2 ∨ i = 3 ∨ i = 4 := by omega
    rcases hcases with h | h | h | h | h <;> subst h <;> rfl
  · have r : forRange 1 3 = [1, 2] := by decide
    have p1 : flatMarket.getPrice 1 = 100 := rfl
    have p2 : flatMarket.getPrice 2 = 100 := rfl
    norm_num [Strategy.calculateMovingAverage, Strategy.calculateMovingAverageCounted, r,
      Strategy.sumStep, p1, p2]
  · rw [decideAction_equal_windows flatTrend rfl]
    simp

/-- C24 (amended): a `TrendFollowingStrategy` whose short and long windows are equal
(in particular short = 2 and long = 2) computes two equal averages on every series (in
particular one whose prices are all equal) at every day index, so it never signals
Buy; it returns HOLD when flat (`holding = 0`) and SELL when long (`holding = 1`). -/
theorem flat_trend_actions (self : TrendFollowingStrategy)
    (heq : self.shortMovingAverageWindow = self.longMovingAverageWindow)
    (market : Market) (index : Int) :
    Strategy.calculateMovingAverage (some market) index self.shortMovingAverageWindow
      = Strategy.calculateMovingAverage (some market) index self.longMovingAverageWindow ∧
    self.decideAction market index 0 = Action.HOLD ∧
    self.decideAction market index 1 = Action.SELL ∧
    ∀ currentHolding : ℚ, self.decideAction market index currentHolding ≠ Action.BUY := by
  refine ⟨by rw [heq], ?_, ?_, ?_⟩
  · rw [decideAction_equal_windows self heq]
    simp
  · rw [decideAction_equal_windows self heq]
    simp
  · intro h
    rw [decideAction_equal_windows self heq]
    split_ifs <;> decide

/-- Witness for C24 (amended): `TrendFollowingStrategy("TF", 2, 2)` on the series of
five prices of 100 at day index 2. -/
theorem flat_trend_actions_witness :
    Strategy.calculateMovingAverage (some flatMarket) 2 flatTrend.shortMovingAverageWindow
      = Strategy.calculateMovingAverage (some flatMarket) 2 flatTrend.longMovingAverageWindow ∧
    flatTrend.decideAction flatMarket 2 0 = Action.HOLD ∧
    flatTrend.decideAction flatMarket 2 1 = Action.SELL ∧
    ∀ currentHolding : ℚ, flatTrend.decideAction flatMarket 2 currentHolding ≠ Action.BUY :=
  flat_trend_actions flatTrend rfl flatMarket 2

theorem foldl_dayStep_never_buys (market : Market) (s : Strategy)
    (hflat : ∀ i, s.decideAction market i 0 ≠ Action.BUY) (l : List Int) (st : EvalState)
    (h0 : st.currentHolding = 0) :
    (l.foldl (TradingBot.dayStep market s) st).profit = st.profit ∧
    (l.foldl (TradingBot.dayStep market s) st).currentHolding = 0 ∧
    (l.foldl (TradingBot.dayStep market s) st).buyPrice = st.buyPrice := by
  induction l generalizing st with
  | nil => simp [h0]
  | cons j t ih =>
    rw [List.foldl_cons]
    have hstep : (TradingBot.dayStep market s st j).profit = st.profit ∧
        (TradingBot.dayStep market s st j).currentHolding = 0 ∧
        (TradingBot.dayStep market s st j).buyPrice = st.buyPrice := by
      unfold TradingBot.dayStep
      by_cases hj : j < 0 ∨ j ≥ market.getNumTradingDays
      · rw [if_pos hj]
        exact ⟨rfl, h0, rfl⟩
      · rw [if_neg hj]
        have hb : ¬ (s.decideAction market j st.currentHolding = Action.BUY ∧
            st.currentHolding = 0) := by
          rw [h0]
          exact fun hb => hflat j hb.1
        have hs : ¬ (s.decideAction market j st.currentHolding = Action.SELL ∧
            st.currentHolding = 1) := by
          rw [h0]
          norm_num
        simp only
        rw [if_neg hb, if_neg hs]
        exact ⟨rfl, h0, rfl⟩
    obtain ⟨h1, h2, h3⟩ := ih (TradingBot.dayStep market s st j) hstep.2.1
    exact ⟨h1.trans hstep.1, h2, h3.trans hstep.2.2⟩

theorem strategyProfit_never_buys (market : Market) (s : Strategy)
    (hflat : ∀ i, s.decideAction market i 0 ≠ Action.BUY) :
    TradingBot.strategyProfit market s = 0 := by
  obtain ⟨h1, h2, -⟩ := foldl_dayStep_never_buys market s hflat
    (forRange (max (market.getNumTradingDays - 101) 0) market.getNumTradingDays) EvalState.init
    rfl
  have h1a : (TradingBot.dayLoop market s).profit = 0 := h1
  have h2a : (TradingBot.dayLoop market s).currentHolding = 0 := h2
  simp only [TradingBot.strategyProfit, h1a, h2a]
  norm_num

/-- C25: for a market of `n > 1` trading days (whatever its prices, in particular all
equal), a bot to which the single strategy `TrendFollowingStrategy(name, 2, 2)` was added
returns from `runSimulation` that strategy as `bestStrategy` with `totalReturn` exactly 0;
after every number of days of the backtest the holding is still 0 and `buyPrice` still
0: no Buy is ever executed. -/
theorem runSimulation_flat_trend (market : Market) (c : Nat) (name : String) (bot : TradingBot)
    (hn : 1 < market.getNumTradingDays)
    (hadd : (TradingBot.new (some market) c).addStrategy
      (some (TrendFollowingStrategy.toStrategy ⟨name, 2, 2⟩)) = some bot) :
    bot.runSimulation.bestStrategy = some (TrendFollowingStrategy.toStrategy ⟨name, 2, 2⟩) ∧
    bot.runSimulation.totalReturn = 0 ∧
    ∀ k : Nat,
      (((forRange (max (market.getNumTradingDays - 101) 0) market.getNumTradingDays).take
          k).foldl (TradingBot.dayStep market (TrendFollowingStrategy.toStrategy ⟨name, 2, 2⟩))
        EvalState.init).currentHolding = 0 ∧
      (((forRange (max (market.getNumTradingDays - 101) 0) market.getNumTradingDays).take
          k).foldl (TradingBot.dayStep market (TrendFollowingStrategy.toStrategy ⟨name, 2, 2⟩))
        EvalState.init).buyPrice = 0 := by
  have hflat : ∀ i, (TrendFollowingStrategy.toStrategy ⟨name, 2, 2⟩).decideAction market i 0
      ≠ Action.BUY := by
    intro i
    show TrendFollowingStrategy.decideAction ⟨name, 2, 2⟩ market i 0 ≠ Action.BUY
    rw [decideAction_equal_windows ⟨name, 2, 2⟩ rfl]
    simp
  obtain ⟨hst, hm⟩ := stores_addStrategy _ bot [] _ (stores_new (some market) c) hadd
  rw [List.nil_append] at hst
  have hrun := runSimulation_eq_foldl_pick bot market _ hst hm hn (by simp)
  have h0 := strategyProfit_never_buys market _ hflat
  have hlt : (0 : ℚ) > -DBL_MAX := by norm_num [DBL_MAX]
  refine ⟨?_, ?_, ?_⟩
  · rw [hrun]
    simp [TradingBot.pick, h0, SimulationResult.init, hlt]
  · rw [hrun]
    simp [TradingBot.pick, h0, SimulationResult.init, hlt]
  · intro k
    obtain ⟨-, h2, h3⟩ := foldl_dayStep_never_buys market _ hflat
      ((forRange (max (market.getNumTradingDays - 101) 0) market.getNumTradingDays).take k)
      EvalState.init rfl
    exact ⟨h2, h3⟩

/-- Witness for C25: `TrendFollowingStrategy("TF", 2, 2)` on the series of five prices
of 100. -/
theorem runSimulation_flat_trend_witness :
    (⟨some flatMarket, [some flatTrend.toStrategy], 1, 1⟩ :
      TradingBot).runSimulation.bestStrategy = some (TrendFollowingStrategy.toStrategy
        ⟨"TF", 2, 2⟩) ∧
    (⟨some flatMarket, [some flatTrend.toStrategy], 1, 1⟩ :
      TradingBot).runSimulation.totalReturn = 0 ∧
    ∀ k : Nat,
      (((forRange (max (flatMarket.getNumTradingDays - 101) 0)
          flatMarket.getNumTradingDays).take
          k).foldl (TradingBot.dayStep flatMarket (TrendFollowingStrategy.toStrategy
            ⟨"TF", 2, 2⟩))
        EvalState.init).currentHolding = 0 ∧
      (((forRange (max (flatMarket.getNumTradingDays - 101) 0)
          flatMarket.getNumTradingDays).take
          k).foldl (TradingBot.dayStep flatMarket (TrendFollowingStrategy.toStrategy
            ⟨"TF", 2, 2⟩))
        EvalState.init).buyPrice = 0 :=
  runSimulation_flat_trend flatMarket 1 "TF" ⟨some flatMarket, [some flatTrend.toStrategy], 1, 1⟩
    (by decide) rfl

/-! ## Properties: the total weight, windows longer than the history -/

theorem calculateExponentialWeight_ge_one (position : Int) :
    1 ≤ WeightedTrendFollowingStrategy.calculateExponentialWeight position := by
  rw [calculateExponentialWeight_eq]
  exact one_le_pow₀ (by norm_num)

theorem length_le_sum_weights (startIdx : Int) (l : List Int) :
    (l.length : ℚ) ≤ (l.map (fun i => (11 / 10 : ℚ) ^ (i - startIdx).toNat)).sum := by
  induction l with
  | nil => simp
  | cons a t ih =>
    have h1 : (1 : ℚ) ≤ (11 / 10 : ℚ) ^ (a - startIdx).toNat := one_le_pow₀ (by norm_num)
    simp only [List.length_cons, List.map_cons, List.sum_cons]
    push_cast
    linarith

/-- C29: for every market, `index >= 0` and `window > 0`, every weight
`calculateExponentialWeight(position)` is at least 1, the loop of
`WeightedTrendFollowingStrategy::calculateMovingAverage` runs over at least one day, and
the total weight is at least 1 after every positive number of iterations, hence when the
loop is left: the guard `totalWeight <= 0.0` is not taken, and the one division
performed, `weightedSum / totalWeight`, has a divisor different from zero. -/
theorem weighted_totalWeight_ge_one (market : Market) (index window : Int)
    (hi : 0 ≤ index) (hw : 0 < window) :
    (∀ position : Int, 1 ≤ WeightedTrendFollowingStrategy.calculateExponentialWeight position) ∧
    1 ≤ (forRange (max (index - window + 1) 0) (index + 1)).length ∧
    (∀ k : Nat, 1 ≤ k →
      1 ≤ (((forRange (max (index - window + 1) 0) (index + 1)).take k).foldl
        (WeightedTrendFollowingStrategy.weightStep market (max (index - window + 1) 0))
        (0, 0)).2) ∧
    1 ≤ ((forRange (max (index - window + 1) 0) (index + 1)).foldl
        (WeightedTrendFollowingStrategy.weightStep market (max (index - window + 1) 0))
        (0, 0)).2 ∧
    (WeightedTrendFollowingStrategy.calculateMovingAverageCounted market index
      window).divisions = 1 ∧
    (WeightedTrendFollowingStrategy.calculateMovingAverageCounted market index window).value
      = ((forRange (max (index - window + 1) 0) (index + 1)).foldl
          (WeightedTrendFollowingStrategy.weightStep market (max (index - window + 1) 0))
          (0, 0)).1
        / ((forRange (max (index - window + 1) 0) (index + 1)).foldl
          (WeightedTrendFollowingStrategy.weightStep market (max (index - window + 1) 0))
          (0, 0)).2 := by
  have hlen : 1 ≤ (forRange (max (index - window + 1) 0) (index + 1)).length := by
    rw [length_forRange]
    omega
  have hpre : ∀ k : Nat, 1 ≤ k →
      1 ≤ (((forRange (max (index - window + 1) 0) (index + 1)).take k).foldl
        (WeightedTrendFollowingStrategy.weightStep market (max (index - window + 1) 0))
        (0, 0)).2 := by
    intro k hk
    rw [foldl_weightStep]
    simp only [zero_add]
    have h1 := length_le_sum_weights (max (index - window + 1) 0)
      ((forRange (max (index - window + 1) 0) (index + 1)).take k)
    have h2 : 1 ≤ ((forRange (max (index - window + 1) 0) (index + 1)).take k).length := by
      rw [List.length_take]
      omega
    have h3 : (1 : ℚ) ≤ (((forRange (max (index - window + 1) 0) (index + 1)).take k).length : ℚ) := by
      exact_mod_cast h2
    linarith
  have hfull : 1 ≤ ((forRange (max (index - window + 1) 0) (index + 1)).foldl
        (WeightedTrendFollowingStrategy.weightStep market (max (index - window + 1) 0))
        (0, 0)).2 := by
    have := hpre (forRange (max (index - window + 1) 0) (index + 1)).length hlen
    rw [List.take_length] at this
    exact this
  have hg : ¬ (index < 0 ∨ window ≤ 0) := by omega
  have hguard : ¬ ((forRange (max (index - window + 1) 0) (index + 1)).foldl
        (WeightedTrendFollowingStrategy.weightStep market (max (index - window + 1) 0))
        (0, 0)).2 ≤ 0 := by linarith
  refine ⟨calculateExponentialWeight_ge_one, hlen, hpre, hfull, ?_, ?_⟩
  · unfold WeightedTrendFollowingStrategy.calculateMovingAverageCounted
    rw [if_neg hg]
    simp only
    rw [if_neg hguard]
  · unfold WeightedTrendFollowingStrategy.calculateMovingAverageCounted
    rw [if_neg hg]
    simp only
    rw [if_neg hguard]

/-- Witness for C29: day index 2 of the five-day example market with window 2. -/
theorem weighted_totalWeight_ge_one_witness :
    (∀ position : Int, 1 ≤ WeightedTrendFollowingStrategy.calculateExponentialWeight position) ∧
    1 ≤ (forRange (max (2 - 2 + 1) 0) (2 + 1)).length ∧
    (∀ k : Nat, 1 ≤ k →
      1 ≤ (((forRange (max (2 - 2 + 1) 0) (2 + 1)).take k).foldl
        (WeightedTrendFollowingStrategy.weightStep exampleMarket (max (2 - 2 + 1) 0))
        (0, 0)).2) ∧
    1 ≤ ((forRange (max (2 - 2 + 1) 0) (2 + 1)).foldl
        (WeightedTrendFollowingStrategy.weightStep exampleMarket (max (2 - 2 + 1) 0))
        (0, 0)).2 ∧
    (WeightedTrendFollowingStrategy.calculateMovingAverageCounted exampleMarket 2
      2).divisions = 1 ∧
    (WeightedTrendFollowingStrategy.calculateMovingAverageCounted exampleMarket 2 2).value
      = ((forRange (max (2 - 2 + 1) 0) (2 + 1)).foldl
          (WeightedTrendFollowingStrategy.weightStep exampleMarket (max (2 - 2 + 1) 0))
          (0, 0)).1
        / ((forRange (max (2 - 2 + 1) 0) (2 + 1)).foldl
          (WeightedTrendFollowingStrategy.weightStep exampleMarket (max (2 - 2 + 1) 0))
          (0, 0)).2 :=
  weighted_totalWeight_ge_one exampleMarket 2 2 (by decide) (by decide)

/-- C30: for every index with `0 <= index < getNumTradingDays()` (an `int`, so at most
`INT_MAX`) and every window with `index + 1 <= window <= INT_MAX`, the 32-bit
computation `index - window + 1` of `Strategy::calculateMovingAverage` does not overflow
(nor does any other `int` expression of the call), the start index clamps to 0, and the
result is the arithmetic mean of `prices[0..index]`; with non-negative prices the result
is `>= 0`. -/
theorem calculateMovingAverage_long_window (market : Market) (index window : Int)
    (hn : market.getNumTradingDays ≤ INT_MAX)
    (hi : 0 ≤ index) (hin : index < market.getNumTradingDays)
    (hw : index + 1 ≤ window) (hwmax : window ≤ INT_MAX) :
    fitsInt (index - window) = true ∧ fitsInt (index - window + 1) = true ∧
    (Strategy.calculateMovingAverageCounted (some market) index window).overflow = false ∧
    max (index - window + 1) 0 = 0 ∧
    Strategy.calculateMovingAverage (some market) index window
      = (∑ i ∈ Finset.Icc 0 index, market.getPrice i) / ((index + 1 : Int) : ℚ) ∧
    ((∀ i : Int, 0 ≤ market.getPrice i) →
      0 ≤ Strategy.calculateMovingAverage (some market) index window) := by
  have hstart : max (index - window + 1) 0 = 0 := by omega
  have hmean : Strategy.calculateMovingAverage (some market) index window
      = (∑ i ∈ Finset.Icc 0 index, market.getPrice i) / ((index + 1 : Int) : ℚ) := by
    rw [calculateMovingAverage_eq_mean market index window hi (by omega), hstart]
    simp
  have hmax : index < INT_MAX := by omega
  refine ⟨?_, ?_, calculateMovingAverage_fits market index window hi hmax (by omega) hwmax,
    hstart, hmean, ?_⟩
  · unfold INT_MAX at hmax hwmax
    simp only [fitsInt, INT_MIN, INT_MAX, Bool.and_eq_true, decide_eq_true_eq]
    omega
  · unfold INT_MAX at hmax hwmax
    simp only [fitsInt, INT_MIN, INT_MAX, Bool.and_eq_true, decide_eq_true_eq]
    omega
  · intro hpos
    rw [hmean]
    apply div_nonneg
    · exact Finset.sum_nonneg (fun i _ => hpos i)
    · exact_mod_cast (by omega : (0 : Int) ≤ index + 1)

/-- Witness for C30: index 5 and window `INT_MAX` on a market of ten trading days, as in
the test. -/
theorem calculateMovingAverage_long_window_witness :
    fitsInt (5 - INT_MAX) = true ∧ fitsInt (5 - INT_MAX + 1) = true ∧
    (Strategy.calculateMovingAverageCounted (some tenDayMarket) 5 INT_MAX).overflow = false ∧
    max (5 - INT_MAX + 1) 0 = 0 ∧
    Strategy.calculateMovingAverage (some tenDayMarket) 5 INT_MAX
      = (∑ i ∈ Finset.Icc 0 5, tenDayMarket.getPrice i) / ((5 + 1 : Int) : ℚ) ∧
    ((∀ i : Int, 0 ≤ tenDayMarket.getPrice i) →
      0 ≤ Strategy.calculateMovingAverage (some tenDayMarket) 5 INT_MAX) :=
  calculateMovingAverage_long_window tenDayMarket 5 INT_MAX (by decide) (by decide) (by decide)
    (by decide) (by decide)

/-! ## Properties: the market file -/

theorem streamDouble_example : streamDouble (1234567 / 1000) = 123457 / 100 := by
  have hlog : Int.log 10 |(1234567 / 1000 : ℚ)| = 3 := by
    rw [abs_of_pos (by norm_num)]
    rw [Int.log_of_one_le_right _ (by norm_num)]
    have hfl : ⌊(1234567 / 1000 : ℚ)⌋₊ = 1234 := by
      rw [Nat.floor_eq_iff (by norm_num)]
      constructor <;> norm_num
    rw [hfl]
    have : Nat.log 10 1234 = 3 := by
      rw [Nat.log_eq_iff (by norm_num)]
      norm_num
    rw [this]
    rfl
  have hfloor : ⌊(1234567 / 10 : ℚ)⌋ = 123456 := by
    rw [Int.floor_eq_iff]
    constructor <;> norm_num
  unfold streamDouble
  rw [if_neg (by norm_num)]
  simp only [hlog]
  norm_num [roundHalfEven, hfloor]

/-- C27 (code defect): `writeToFile` sends every `double` through `ostream << double`
with the default precision of six significant digits.  The market
`Market(1234.567, 0, 0, 1, 42)` holds `price[0] = 1234.567` after `simulate()`; the file
written holds the tokens `1234.57` for the initial price and for the price, so both the
market constructed from the file and the market on which `loadFromFile` is called have
the initial price 1234.57 and `price[0] = 1234.57`, not those of the original. -/
theorem writeToFile_loses_digits (lib : CMath) (Z : Int → ℚ) :
    Market.new (1234567 / 1000) 0 0 1 42 = some thousandFresh ∧
    ∃ m f m1 m2,
      thousandFresh.simulate lib Z = some m ∧
      m.initialPrice = 1234567 / 1000 ∧ m.getPrice 0 = 1234567 / 1000 ∧
      m.writeToFile = some f ∧
      f.initialPrice = 123457 / 100 ∧ f.prices = [123457 / 100] ∧
      Market.fromFile f = some m1 ∧ m.loadFromFile f = some m2 ∧
      m1.initialPrice = 123457 / 100 ∧ m1.getPrice 0 = 123457 / 100 ∧
      m2.initialPrice = 123457 / 100 ∧ m2.getPrice 0 = 123457 / 100 ∧
      m1.initialPrice ≠ m.initialPrice ∧ m1.getPrice 0 ≠ m.getPrice 0 ∧
      m2.initialPrice ≠ m.initialPrice ∧ m2.getPrice 0 ≠ m.getPrice 0 := by
  have hr1 : forRange 1 1 = [] := by decide
  have hr0 : forRange 0 1 = [0] := by decide
  have hround : roundToDecimals (1234567 / 1000) 3 = 1234567 / 1000 := by
    norm_num [roundToDecimals, cround]
  have hz : streamDouble 0 = 0 := by simp [streamDouble]
  refine ⟨rfl, ⟨1234567 / 1000, 0, 0, 1, some [some (1234567 / 1000)], 42⟩,
    ⟨123457 / 100, 0, 0, 1, 42, [123457 / 100]⟩,
    ⟨123457 / 100, 0, 0, 1, some [some (123457 / 100)], 42⟩,
    ⟨123457 / 100, 0, 0, 1, some [some (123457 / 100)], 42⟩, ?_, rfl, ?_, ?_, rfl, rfl, ?_, ?_,
    rfl, ?_, rfl, ?_, ?_, ?_, ?_, ?_⟩
  · simp [Market.simulate, thousandFresh, hr1, Market.writeSlot, Market.readSlot, hround]
  · norm_num [Market.getPrice]
  · simp [Market.writeToFile, hr0, Market.readSlot, streamDouble_example, hz]
  · simp [Market.fromFile, Market.fillStep]
  · simp [Market.loadFromFile, Market.loadStep]
  · norm_num [Market.getPrice]
  · norm_num [Market.getPrice]
  · norm_num
  · norm_num [Market.getPrice]
  · norm_num
  · norm_num [Market.getPrice]

/-! ## Properties: the three strategies trade only when the trade can be executed -/

theorem decideActionWith_sound (avg : Market → Int → Int → ℚ) (self : TrendFollowingStrategy)
    (market : Market) (index : Int) (holding : ℚ) :
    (TrendFollowingStrategy.decideActionWith avg self market index holding = Action.BUY →
      holding = 0) ∧
    (TrendFollowingStrategy.decideActionWith avg self market index holding = Action.SELL →
      holding = 1) ∧
    (holding ≠ 0 → holding ≠ 1 →
      TrendFollowingStrategy.decideActionWith avg self market index holding = Action.HOLD) := by
  unfold TrendFollowingStrategy.decideActionWith
  by_cases hu : avg market index self.shortMovingAverageWindow
      > avg market index self.longMovingAverageWindow
  · by_cases h0 : holding = 0
    · simp [hu, h0]
    · by_cases h1 : holding = 1
      · simp [hu, h1]
      · simp [hu, h0, h1]
  · by_cases h1 : holding = 1
    · simp [hu, h1]
    · by_cases h0 : holding = 0
      · simp [hu, h0]
      · simp [hu, h0, h1]

theorem meanReversion_sound (self : MeanReversionStrategy) (market : Market) (index : Int)
    (holding : ℚ) :
    (self.decideAction market index holding = Action.BUY → holding = 0) ∧
    (self.decideAction market index holding = Action.SELL → holding = 1) ∧
    (holding ≠ 0 → holding ≠ 1 → self.decideAction market index holding = Action.HOLD) := by
  unfold MeanReversionStrategy.decideAction
  by_cases h0 : holding = 0
  · simp only [h0, if_true]
    refine ⟨fun _ => trivial, ?_, fun h => absurd rfl h⟩
    split_ifs <;> simp
  · by_cases h1 : holding = 1
    · simp only [h1, if_true]
      refine ⟨?_, fun _ => trivial, fun _ h => absurd rfl h⟩
      norm_num
      split_ifs <;> simp
    · simp [h0, h1]

/-- C31: each of the three concrete strategies (MeanReversion, TrendFollowing,
WeightedTrendFollowing), for every market, index and parameter choice, returns BUY only
when the holding argument is 0 and SELL only when it is 1, and returns HOLD for every
holding other than 0 and 1; consequently, on a day of the market, a BUY it returns to
the day loop of `runSimulation` is executed (the holding becomes 1 and `buyPrice` the
price of the day) and a SELL it returns is executed (the holding becomes 0 and the
profit grows by the price of the day minus `buyPrice`). -/
theorem concrete_strategies_sound (mr : MeanReversionStrategy) (tf : TrendFollowingStrategy)
    (wtf : WeightedTrendFollowingStrategy) (s : Strategy)
    (hs : s = mr.toStrategy ∨ s = tf.toStrategy ∨ s = wtf.toStrategy)
    (market : Market) (index : Int) (holding : ℚ) :
    (s.decideAction market index holding = Action.BUY → holding = 0) ∧
    (s.decideAction market index holding = Action.SELL → holding = 1) ∧
    (holding ≠ 0 → holding ≠ 1 → s.decideAction market index holding = Action.HOLD) ∧
    (∀ st : EvalState, st.currentHolding = holding →
      0 ≤ index → index < market.getNumTradingDays →
      (s.decideAction market index holding = Action.BUY →
        TradingBot.dayStep market s st index
          = ⟨st.profit, 1, market.getPrice index, st.calls ++ [index]⟩) ∧
      (s.decideAction market index holding = Action.SELL →
        TradingBot.dayStep market s st index
          = ⟨st.profit + (market.getPrice index - st.buyPrice), 0, st.buyPrice,
              st.calls ++ [index]⟩)) := by
  have hsound : (s.decideAction market index holding = Action.BUY → holding = 0) ∧
      (s.decideAction market index holding = Action.SELL → holding = 1) ∧
      (holding ≠ 0 → holding ≠ 1 → s.decideAction market index holding = Action.HOLD) := by
    rcases hs with h | h | h
    · rw [h]
      exact meanReversion_sound mr market index holding
    · rw [h]
      exact decideActionWith_sound (fun m i w => Strategy.calculateMovingAverage (some m) i w)
        tf market index holding
    · rw [h]
      exact decideActionWith_sound WeightedTrendFollowingStrategy.calculateMovingAverage
        wtf.toTrendFollowingStrategy market index holding
  refine ⟨hsound.1, hsound.2.1, hsound.2.2, ?_⟩
  intro st hst h0 hn
  subst hst
  exact ⟨fun ha => dayStep_buy market s st index ⟨h0, hn⟩ ha (hsound.1 ha),
    fun ha => dayStep_sell market s st index ⟨h0, hn⟩ ha (hsound.2.1 ha)⟩

/-- Witness for C31: `TrendFollowingStrategy("TF_1_2", 1, 2)` on day 1 of the market
with the prices 0, `DBL_MAX`, 0, where it returns BUY for the holding 0. -/
theorem concrete_strategies_sound_witness :
    exampleTrend.toStrategy.decideAction spikeMarket 1 0 = Action.BUY ∧
    ((exampleTrend.toStrategy.decideAction spikeMarket 1 0 = Action.BUY → (0 : ℚ) = 0) ∧
    (exampleTrend.toStrategy.decideAction spikeMarket 1 0 = Action.SELL → (0 : ℚ) = 1) ∧
    ((0 : ℚ) ≠ 0 → (0 : ℚ) ≠ 1 →
      exampleTrend.toStrategy.decideAction spikeMarket 1 0 = Action.HOLD) ∧
    (∀ st : EvalState, st.currentHolding = 0 →
      (0 : Int) ≤ 1 → 1 < spikeMarket.getNumTradingDays →
      (exampleTrend.toStrategy.decideAction spikeMarket 1 0 = Action.BUY →
        TradingBot.dayStep spikeMarket exampleTrend.toStrategy st 1
          = ⟨st.profit, 1, spikeMarket.getPrice 1, st.calls ++ [1]⟩) ∧
      (exampleTrend.toStrategy.decideAction spikeMarket 1 0 = Action.SELL →
        TradingBot.dayStep spikeMarket exampleTrend.toStrategy st 1
          = ⟨st.profit + (spikeMarket.getPrice 1 - st.buyPrice), 0, st.buyPrice,
              st.calls ++ [1]⟩))) :=
  ⟨spikeMarket_day1,
    concrete_strategies_sound exampleMeanReversion exampleTrend ⟨exampleTrend⟩
      exampleTrend.toStrategy (Or.inr (Or.inl rfl)) spikeMarket 1 0⟩

/-! ## Properties: the profit as a sum of daily price changes -/

theorem dayStep_marked (market : Market) (s : Strategy) (st : EvalState) (j : Int) :
    (TradingBot.dayStep market s st j).profit
        + (TradingBot.dayStep market s st j).currentHolding
          * (market.getPrice j - (TradingBot.dayStep market s st j).buyPrice)
      = st.profit + st.currentHolding * (market.getPrice j - st.buyPrice) := by
  unfold TradingBot.dayStep
  by_cases hj : j < 0 ∨ j ≥ market.getNumTradingDays
  · rw [if_pos hj]
  · rw [if_neg hj]
    simp only
    by_cases hb : s.decideAction market j st.currentHolding = Action.BUY ∧ st.currentHolding = 0
    · rw [if_pos hb, hb.2]
      simp
    · rw [if_neg hb]
      by_cases hs : s.decideAction market j st.currentHolding = Action.SELL ∧
          st.currentHolding = 1
      · rw [if_pos hs, hs.2]
        simp
      · rw [if_neg hs]

theorem foldl_dayStep_marked (market : Market) (s : Strategy) (lo hi : Int) (h : lo ≤ hi) :
    ((forRange lo hi).foldl (TradingBot.dayStep market s) EvalState.init).profit
        + ((forRange lo hi).foldl (TradingBot.dayStep market s) EvalState.init).currentHolding
          * (market.getPrice (hi - 1)
            - ((forRange lo hi).foldl (TradingBot.dayStep market s) EvalState.init).buyPrice)
      = ((forRange lo (hi - 1)).map (fun j =>
          ((forRange lo (j + 1)).foldl (TradingBot.dayStep market s)
              EvalState.init).currentHolding
            * (market.getPrice (j + 1) - market.getPrice j))).sum := by
  refine @Int.le_induction (fun hi =>
    ((forRange lo hi).foldl (TradingBot.dayStep market s) EvalState.init).profit
        + ((forRange lo hi).foldl (TradingBot.dayStep market s) EvalState.init).currentHolding
          * (market.getPrice (hi - 1)
            - ((forRange lo hi).foldl (TradingBot.dayStep market s) EvalState.init).buyPrice)
      = ((forRange lo (hi - 1)).map (fun j =>
          ((forRange lo (j + 1)).foldl (TradingBot.dayStep market s)
              EvalState.init).currentHolding
            * (market.getPrice (j + 1) - market.getPrice j))).sum) lo ?_ ?_ hi h
  · beta_reduce
    rw [forRange_of_le lo lo le_rfl, forRange_of_le lo (lo - 1) (by omega)]
    simp [EvalState.init]
  · intro k hk ih
    beta_reduce at ih ⊢
    have hk1 : k + 1 - 1 = k := by omega
    rw [hk1, forRange_snoc lo k hk, List.foldl_append]
    simp only [List.foldl_cons, List.foldl_nil]
    rw [dayStep_marked]
    by_cases hlo : k = lo
    · subst hlo
      rw [forRange_of_le k k le_rfl]
      simp [EvalState.init]
    · have hlt : lo ≤ k - 1 := by omega
      have hsn := forRange_snoc lo (k - 1) hlt
      have hk2 : k - 1 + 1 = k := by omega
      rw [hk2] at hsn
      conv_rhs => rw [hsn, List.map_append, List.sum_append]
      rw [← ih]
      simp only [List.map_cons, List.map_nil, List.sum_cons, List.sum_nil, hk2]
      ring

theorem strategyProfit_eq_marked (market : Market) (s : Strategy)
    (hn : 0 < market.getNumTradingDays) :
    TradingBot.strategyProfit market s
      = (TradingBot.dayLoop market s).profit
        + (TradingBot.dayLoop market s).currentHolding
          * (market.getPrice (market.getNumTradingDays - 1)
            - (TradingBot.dayLoop market s).buyPrice) := by
  have hh : (TradingBot.dayLoop market s).currentHolding = 0 ∨
      (TradingBot.dayLoop market s).currentHolding = 1 :=
    foldl_dayStep_holding market s _ EvalState.init (Or.inl rfl)
  unfold TradingBot.strategyProfit
  simp only
  rcases hh with h0 | h1
  · have hne : ¬ ((TradingBot.dayLoop market s).currentHolding = 1 ∧
        market.getNumTradingDays > 0) := by
      rw [h0]
      norm_num
    rw [if_neg hne, h0]
    ring
  · rw [if_pos ⟨h1, hn⟩, h1]
    ring

theorem strategyProfit_eq_sum (market : Market) (s : Strategy)
    (hn : 1 < market.getNumTradingDays) :
    TradingBot.strategyProfit market s
      = ∑ j ∈ Finset.Icc (max (market.getNumTradingDays - 101) 0)
            (market.getNumTradingDays - 2),
          TradingBot.holdingAfter market s j * (market.getPrice (j + 1) - market.getPrice j) := by
  have hIco : Finset.Ico (max (market.getNumTradingDays - 101) 0) (market.getNumTradingDays - 1)
      = Finset.Icc (max (market.getNumTradingDays - 101) 0) (market.getNumTradingDays - 2) := by
    ext j
    simp only [Finset.mem_Ico, Finset.mem_Icc]
    omega
  rw [strategyProfit_eq_marked market s (by omega)]
  have hm := foldl_dayStep_marked market s (max (market.getNumTradingDays - 101) 0)
    market.getNumTradingDays (by omega)
  unfold TradingBot.dayLoop
  simp only
  rw [hm, sum_map_forRange, hIco]
  rfl

theorem holdingAfter_cases (market : Market) (s : Strategy) (j : Int) :
    TradingBot.holdingAfter market s j = 0 ∨ TradingBot.holdingAfter market s j = 1 :=
  foldl_dayStep_holding market s _ EvalState.init (Or.inl rfl)

/-- C32: for every market with `n > 1` trading days and every strategy (arbitrary
decision function), with `start = max(n - 101, 0)` and `h_j` the holding right after day
`j` has been processed, every `h_j` is 0 or 1 and the profit `runSimulation` computes for
the strategy equals the sum over `j` from `start` to `n - 2` of
`h_j * (price[j+1] - price[j])`. -/
theorem strategyProfit_telescopes (market : Market) (s : Strategy)
    (hn : 1 < market.getNumTradingDays) :
    (∀ j : Int, TradingBot.holdingAfter market s j = 0 ∨
      TradingBot.holdingAfter market s j = 1) ∧
    TradingBot.strategyProfit market s
      = ∑ j ∈ Finset.Icc (max (market.getNumTradingDays - 101) 0)
            (market.getNumTradingDays - 2),
          TradingBot.holdingAfter market s j * (market.getPrice (j + 1) - market.getPrice j) :=
  ⟨holdingAfter_cases market s, strategyProfit_eq_sum market s hn⟩

/-- Witness for C32: `TF_1_2` on the five-day example market. -/
theorem strategyProfit_telescopes_witness :
    (∀ j : Int, TradingBot.holdingAfter exampleMarket exampleTrend.toStrategy j = 0 ∨
      TradingBot.holdingAfter exampleMarket exampleTrend.toStrategy j = 1) ∧
    TradingBot.strategyProfit exampleMarket exampleTrend.toStrategy
      = ∑ j ∈ Finset.Icc (max (exampleMarket.getNumTradingDays - 101) 0)
            (exampleMarket.getNumTradingDays - 2),
          TradingBot.holdingAfter exampleMarket exampleTrend.toStrategy j
            * (exampleMarket.getPrice (j + 1) - exampleMarket.getPrice j) :=
  strategyProfit_telescopes exampleMarket exampleTrend.toStrategy (by decide)

theorem strategyProfit_nonneg (market : Market) (s : Strategy)
    (hn : 1 < market.getNumTradingDays)
    (hmono : ∀ j : Int, max (market.getNumTradingDays - 101) 0 ≤ j →
      j + 1 ≤ market.getNumTradingDays - 1 → market.getPrice j ≤ market.getPrice (j + 1)) :
    0 ≤ TradingBot.strategyProfit market s := by
  rw [strategyProfit_eq_sum market s hn]
  apply Finset.sum_nonneg
  intro j hj
  rw [Finset.mem_Icc] at hj
  have hp := hmono j hj.1 (by omega)
  rcases holdingAfter_cases market s j with h | h
  · rw [h]
    simp
  · rw [h]
    linarith

/-- C33: for every market with `n > 1` trading days whose prices are non-decreasing
over the evaluation window `[max(n - 101, 0), n - 1]`, every strategy (arbitrary decision
function) obtains a profit `>= 0`, and a bot to which at least one strategy has been
added returns a non-null `bestStrategy` with `totalReturn >= 0`. -/
theorem runSimulation_nonneg_of_rising (market : Market) (c : Nat) (ss : List Strategy)
    (bot : TradingBot) (hn : 1 < market.getNumTradingDays) (hne : ss ≠ [])
    (hadd : (TradingBot.new (some market) c).addAll (ss.map some) = some bot)
    (hmono : ∀ j : Int, max (market.getNumTradingDays - 101) 0 ≤ j →
      j + 1 ≤ market.getNumTradingDays - 1 → market.getPrice j ≤ market.getPrice (j + 1)) :
    (∀ s : Strategy, 0 ≤ TradingBot.strategyProfit market s) ∧
    (∃ s ∈ ss, bot.runSimulation.bestStrategy = some s) ∧
    0 ≤ bot.runSimulation.totalReturn := by
  have hall : ∀ s : Strategy, 0 ≤ TradingBot.strategyProfit market s :=
    fun s => strategyProfit_nonneg market s hn hmono
  obtain ⟨hst, hm⟩ := stores_addAll ss _ bot [] (stores_new (some market) c) hadd
  rw [List.nil_append] at hst
  have hrun := runSimulation_eq_foldl_pick bot market ss hst hm hn hne
  have hlt : -DBL_MAX < (0 : ℚ) := by norm_num [DBL_MAX]
  rcases foldl_pick_spec market ss with ⟨hle, -⟩ | ⟨pre, s, post, hl, hres, -, -, -⟩
  · obtain ⟨t, ht⟩ := List.exists_mem_of_ne_nil ss hne
    exact absurd (hle t ht) (not_le.mpr (lt_of_lt_of_le hlt (hall t)))
  · refine ⟨hall, ⟨s, ?_, ?_⟩, ?_⟩
    · rw [hl]
      simp
    · rw [hrun, hres]
    · rw [hrun, hres]
      exact hall s

/-- Witness for C33: `TF_1_2` added to a bot on the market with the prices
100, 101, ..., 109. -/
theorem runSimulation_nonneg_of_rising_witness :
    (∀ s : Strategy, 0 ≤ TradingBot.strategyProfit tenDayMarket s) ∧
    (∃ s ∈ [exampleTrend.toStrategy], risingBot.runSimulation.bestStrategy = some s) ∧
    0 ≤ risingBot.runSimulation.totalReturn :=
  runSimulation_nonneg_of_rising tenDayMarket 1 [exampleTrend.toStrategy] risingBot
    (by decide) (by simp) rfl
    (by
      intro j h0 h1
      have hn : tenDayMarket.getNumTradingDays = 10 := rfl
      rw [hn] at h0 h1
      have hcases : j = 0 ∨ j = 1 ∨ j = 2 ∨ j = 3 ∨ j = 4 ∨ j = 5 ∨ j = 6 ∨ j = 7 ∨ j = 8 := by
        omega
      have p0 : tenDayMarket.getPrice 0 = 100 := rfl
      have p1 : tenDayMarket.getPrice 1 = 101 := rfl
      have p2 : tenDayMarket.getPrice 2 = 102 := rfl
      have p3 : tenDayMarket.getPrice 3 = 103 := rfl
      have p4 : tenDayMarket.getPrice 4 = 104 := rfl
      have p5 : tenDayMarket.getPrice 5 = 105 := rfl
      have p6 : tenDayMarket.getPrice 6 = 106 := rfl
      have p7 : tenDayMarket.getPrice 7 = 107 := rfl
      have p8 : tenDayMarket.getPrice 8 = 108 := rfl
      have p9 : tenDayMarket.getPrice 9 = 109 := rfl
      rcases hcases with h | h | h | h | h | h | h | h | h <;> subst h <;>
        norm_num [p0, p1, p2, p3, p4, p5, p6, p7, p8, p9])

/-! ## Properties: the weighted average as a convex combination -/

theorem weighted_between (market : Market) (index window : Int) (hi : 0 ≤ index)
    (hw : 0 < window) (lo up : ℚ)
    (hlo : ∀ i ∈ Finset.Icc (max (index - window + 1) 0) index, lo ≤ market.getPrice i)
    (hup : ∀ i ∈ Finset.Icc (max (index - window + 1) 0) index, market.getPrice i ≤ up) :
    lo ≤ WeightedTrendFollowingStrategy.calculateMovingAverage market index window ∧
    WeightedTrendFollowingStrategy.calculateMovingAverage market index window ≤ up := by
  rw [weighted_calculateMovingAverage_eq market index window hi hw]
  have hpos := weight_sum_pos (max (index - window + 1) 0) index (by omega)
  have hwpos : ∀ i : Int, (0 : ℚ) < (11 / 10 : ℚ) ^ (i - max (index - window + 1) 0).toNat :=
    fun i => by positivity
  constructor
  · rw [le_div_iff₀ hpos, Finset.mul_sum]
    exact Finset.sum_le_sum (fun i hi => mul_le_mul_of_nonneg_right (hlo i hi) (hwpos i).le)
  · rw [div_le_iff₀ hpos, Finset.mul_sum]
    exact Finset.sum_le_sum (fun i hi => mul_le_mul_of_nonneg_right (hup i hi) (hwpos i).le)

theorem weighted_between_min_max (market : Market) (index window : Int) (hi : 0 ≤ index)
    (hw : 0 < window) :
    ∃ a ∈ Finset.Icc (max (index - window + 1) 0) index,
    ∃ b ∈ Finset.Icc (max (index - window + 1) 0) index,
      (∀ i ∈ Finset.Icc (max (index - window + 1) 0) index,
        market.getPrice a ≤ market.getPrice i ∧ market.getPrice i ≤ market.getPrice b) ∧
      market.getPrice a
        ≤ WeightedTrendFollowingStrategy.calculateMovingAverage market index window ∧
      WeightedTrendFollowingStrategy.calculateMovingAverage market index window
        ≤ market.getPrice b := by
  have hne : (Finset.Icc (max (index - window + 1) 0) index).Nonempty :=
    ⟨index, Finset.mem_Icc.mpr ⟨by omega, le_rfl⟩⟩
  obtain ⟨a, ha, hmin⟩ := Finset.exists_min_image _ market.getPrice hne
  obtain ⟨b, hb, hmax⟩ := Finset.exists_max_image _ market.getPrice hne
  obtain ⟨h1, h2⟩ := weighted_between market index window hi hw _ _ hmin hmax
  exact ⟨a, ha, b, hb, fun i hi => ⟨hmin i hi, hmax i hi⟩, h1, h2⟩

/-- C34 (code defect, the one of C9 and C12): at `index = INT_MAX` with `window = 1` the
loop `for (int i = startIdx; i <= index; i++)` of
`WeightedTrendFollowingStrategy::calculateMovingAverage` handles the single day
`INT_MAX` of the window and then increments `i` beyond `INT_MAX`, a signed overflow: the
call is undefined and returns no value between the minimum and the maximum of the
window.  For every index with `0 <= index < INT_MAX` and every window with
`0 < window <= INT_MAX` no `int` expression overflows and the value returned lies
between the smallest and the largest `getPrice(i)` of the clamped window. -/
theorem weighted_between_overflow_at_max :
    (forRange (max ((2147483647 : Int) - 1 + 1) 0) (2147483647 + 1) = [2147483647] ∧
      INT_MAX = 2147483647 ∧
      Strategy.loopFits 2147483647 1 = false ∧
      (WeightedTrendFollowingStrategy.calculateMovingAverageCounted exampleMarket 2147483647
        1).overflow = true) ∧
    (∀ (market : Market) (index window : Int), 0 ≤ index → index < INT_MAX → 0 < window →
      window ≤ INT_MAX →
      (WeightedTrendFollowingStrategy.calculateMovingAverageCounted market index
        window).overflow = false ∧
      ∃ a ∈ Finset.Icc (max (index - window + 1) 0) index,
      ∃ b ∈ Finset.Icc (max (index - window + 1) 0) index,
        (∀ i ∈ Finset.Icc (max (index - window + 1) 0) index,
          market.getPrice a ≤ market.getPrice i ∧ market.getPrice i ≤ market.getPrice b) ∧
        market.getPrice a
          ≤ WeightedTrendFollowingStrategy.calculateMovingAverage market index window ∧
        WeightedTrendFollowingStrategy.calculateMovingAverage market index window
          ≤ market.getPrice b) := by
  refine ⟨⟨by decide, rfl, by decide, ?_⟩, ?_⟩
  · have hf : Strategy.loopFits 2147483647 1 = false := by decide
    have hg : ¬ ((2147483647 : Int) < 0 ∨ (1 : Int) ≤ 0) := by decide
    simp only [WeightedTrendFollowingStrategy.calculateMovingAverageCounted, hg, if_false, hf]
    split_ifs <;> rfl
  · intro market index window hi hmax hw hwmax
    exact ⟨weighted_calculateMovingAverage_fits market index window hi hmax hw hwmax,
      weighted_between_min_max market index window hi hw⟩

/-! ## Properties: a bot of initial capacity zero -/

/-- C35 (code defect): for a bot constructed with the initial capacity 0, the first
`addStrategy` call with a non-null strategy finds `strategyCount == strategyCapacity`
(both 0) and reallocates to the capacity `0 * 2 = 0`, an array without slots; the store
`availableStrategies[strategyCount++] = strategy` then writes slot 0, outside the
allocated array.  For every initial capacity `c >= 1` and every sequence of non-null
strategies, all calls succeed, and afterwards `strategyCount <= strategyCapacity`, the
array has `strategyCapacity` slots and the slot written last, `strategyCount - 1`, lies
inside it. -/
theorem addStrategy_zero_capacity (market : Option Market) (s : Strategy) :
    ((TradingBot.new market 0).strategyCount = 0 ∧
      (TradingBot.new market 0).strategyCapacity = 0 ∧
      (TradingBot.new market 0).grow.strategyCapacity = 0 ∧
      (TradingBot.new market 0).grow.availableStrategies.length = 0 ∧
      (TradingBot.new market 0).addStrategy (some s) = none) ∧
    (∀ (c : Nat) (ss : List Strategy), 1 ≤ c →
      ∃ bot, (TradingBot.new market c).addAll (ss.map some) = some bot ∧
        bot.strategyCount = ss.length ∧
        bot.strategyCount ≤ bot.strategyCapacity ∧
        bot.availableStrategies.length = bot.strategyCapacity ∧
        (ss ≠ [] → bot.strategyCount - 1 < bot.availableStrategies.length ∧
          bot.availableStrategies[bot.strategyCount - 1]? = some ss.getLast?)) := by
  refine ⟨⟨rfl, rfl, rfl, rfl, ?_⟩, ?_⟩
  · simp [TradingBot.addStrategy, TradingBot.new, TradingBot.grow]
  · intro c ss hc
    obtain ⟨bot, hadd, hst, -, -, -⟩ := addAll_succeeds c ss (TradingBot.new market c) []
      (stores_new market c) hc (Or.inl rfl) ⟨0, by simp [TradingBot.new]⟩
    rw [List.nil_append] at hst
    obtain ⟨hlen, hcnt, hcap, hget⟩ := hst
    refine ⟨bot, hadd, hcnt, by omega, hlen, ?_⟩
    intro hne
    have hpos : 0 < ss.length := List.length_pos.mpr hne
    refine ⟨by omega, ?_⟩
    rw [hcnt, hget (ss.length - 1) (by omega), List.getLast?_eq_getElem?]

/-! ## Properties: a factory called with an inverted range -/

theorem generateSet_initialised {α : Type} (make : String → Int → Int → α) (baseName : String)
    (min1 max1 step1 min2 max2 step2 : Int) (h1 : min1 ≤ max1) (h2 : min2 ≤ max2)
    (hs1 : 0 < step1) (hs2 : 0 < step2) :
    ∃ g, generateSet make baseName min1 max1 step1 min2 max2 step2 = some g ∧
      (g.slots.length : Int)
        = (Int.tdiv (max1 - min1) step1 + 1) * (Int.tdiv (max2 - min2) step2 + 1) ∧
      ∀ slot ∈ g.slots, slot.isSome = true := by
  have e1 : Int.tdiv (max1 - min1) step1 = (max1 - min1) / step1 :=
    Int.tdiv_eq_ediv (by omega) (le_of_lt hs1)
  have e2 : Int.tdiv (max2 - min2) step2 = (max2 - min2) / step2 :=
    Int.tdiv_eq_ediv (by omega) (le_of_lt hs2)
  have hq1 : 0 ≤ (max1 - min1) / step1 := Int.ediv_nonneg (by omega) hs1.le
  have hq2 : 0 ≤ (max2 - min2) / step2 := Int.ediv_nonneg (by omega) hs2.le
  obtain ⟨g, hg, hlen, -⟩ := generateSet_slots make baseName min1 max1 step1 min2 max2 step2
    h1 h2 hs1 hs2
  refine ⟨g, hg, ?_, ?_⟩
  · rw [hlen, e1, e2]
    push_cast
    rw [Int.toNat_of_nonneg (by omega), Int.toNat_of_nonneg (by omega)]
  · have heq := generateSet_eq make baseName min1 max1 step1 min2 max2 step2 h1 h2 hs1 hs2
    rw [hg] at heq
    have hg2 := Option.some.inj heq
    intro slot hslot
    rw [hg2] at hslot
    simp only [List.mem_map] at hslot
    obtain ⟨x, -, hx⟩ := hslot
    rw [← hx]
    rfl

/-- C36 (code defect): `MeanReversionStrategy::generateStrategySet("MR", 5, 4, 2, 1, 1, 1)`
(window range 5 to 4, inverted) computes `numWindows = (4 - 5) / 2 + 1 = 1` by truncating
division and `numThresholds = 1`, allocates one slot, and its outer loop writes nothing:
the slot of the returned array is never initialised.  With the window range 5 to 3 in
steps of 1 the size is `-1` and the allocation fails.  When both ranges have
`min <= max` and both steps are positive, the array size equals the number of strategies
written and every slot is initialised. -/
theorem generateStrategySet_inverted_range :
    (Int.tdiv (4 - 5) 2 + 1 = 1 ∧ Int.tdiv (1 - 1) 1 + 1 = 1 ∧
      sweepValues 5 4 2 = some [] ∧
      (MeanReversionStrategy.generateStrategySet "MR" 5 4 2 1 1 1).map
        (fun g => (g.slots.map Option.isSome, g.overflow)) = some ([false], false)) ∧
    ((Int.tdiv (3 - 5) 1 + 1) * (Int.tdiv (1 - 1) 1 + 1) = -1 ∧
      (MeanReversionStrategy.generateStrategySet "MR" 5 3 1 1 1 1).isNone = true) ∧
    (∀ (baseName : String)
        (minWindow maxWindow windowStep minThreshold maxThreshold thresholdStep : Int),
      minWindow ≤ maxWindow → minThreshold ≤ maxThreshold → 0 < windowStep →
      0 < thresholdStep →
      ∃ g, MeanReversionStrategy.generateStrategySet baseName minWindow maxWindow windowStep
          minThreshold maxThreshold thresholdStep = some g ∧
        (g.slots.length : Int)
          = (Int.tdiv (maxWindow - minWindow) windowStep + 1)
            * (Int.tdiv (maxThreshold - minThreshold) thresholdStep + 1) ∧
        ∀ slot ∈ g.slots, slot.isSome = true) := by
  refine ⟨⟨by decide, by decide, by decide, by decide⟩, ⟨by decide, by decide⟩, ?_⟩
  intro baseName minWindow maxWindow windowStep minThreshold maxThreshold thresholdStep
    h1 h2 hs1 hs2
  exact generateSet_initialised _ baseName minWindow maxWindow windowStep minThreshold
    maxThreshold thresholdStep h1 h2 hs1 hs2

/-! ## Properties: loading a file whose day count differs from its number of prices -/

theorem foldl_loadStep (xs pre : List ℚ) :
    xs.foldl Market.loadStep (pre.map some ++ List.replicate xs.length (some 0), pre.length)
      = ((pre ++ xs).map some, pre.length + xs.length) := by
  induction xs generalizing pre with
  | nil => simp
  | cons x t ih =>
    rw [List.foldl_cons]
    have hstep : Market.loadStep
        (pre.map some ++ List.replicate (x :: t).length (some 0), pre.length) x
        = ((pre ++ [x]).map some ++ List.replicate t.length (some 0), (pre ++ [x]).length) := by
      unfold Market.loadStep
      simp only [List.length_cons, List.replicate_succ, List.map_append, List.map_cons,
        List.map_nil, List.length_append, List.length_singleton, List.length_nil,
        List.append_assoc, List.singleton_append]
      congr 1
      have hlen : (pre.map some).length = pre.length := List.length_map _ _
      rw [List.set_append_right _ _ (by rw [hlen])]
      simp [hlen]
    rw [hstep, ih (pre ++ [x])]
    simp only [List.append_assoc, List.singleton_append, List.length_append,
      List.length_singleton, List.length_cons, List.length_nil, Prod.mk.injEq, true_and]
    omega

theorem loadFromFile_slots (m m1 : Market) (f : MarketFile)
    (h : m.loadFromFile f = some m1) :
    m1.prices = some (f.prices.map some) ∧ m1.numTradingDays = f.numTradingDays ∧
    m1.initialPrice = f.initialPrice ∧ m1.volatility = f.volatility ∧
    m1.expectedYearlyReturn = f.expectedYearlyReturn ∧ m1.seed = f.seed := by
  unfold Market.loadFromFile at h
  simp only at h
  split_ifs at h
  have hm := Option.some.inj h
  subst hm
  have hfold := foldl_loadStep f.prices []
  simp only [List.map_nil, List.nil_append, List.length_nil] at hfold
  refine ⟨?_, rfl, rfl, rfl, rfl, rfl⟩
  simp only [hfold]

/-- C37 (code defect): `loadFromFile` on a market built by `Market(100, 0.2, 0.5, 3, 42)`
with a file whose header is `100 0.2 0.5 3 42` and which holds the single price token
`100` succeeds, sets `numTradingDays = 3` from the header and allocates one price slot,
the number of price tokens: index 1 passes the bounds check of `getPrice` and refers to
no allocated slot.  In general the array has one slot for each price token; when the
number of tokens equals the day count of the header, every index `i` with
`0 <= i < getNumTradingDays()` refers to an allocated slot and `getPrice(i)` is the
`i`-th token. -/
theorem loadFromFile_count_mismatch :
    (∃ m1, freshMarket.loadFromFile shortFile = some m1 ∧
      m1.getNumTradingDays = 3 ∧ m1.prices = some [some 100] ∧
      ¬ ((1 : Int) < 0 ∨ (1 : Int) ≥ m1.numTradingDays ∨ m1.prices.isNone = true) ∧
      Market.readSlot (m1.prices.getD []) 1 = none ∧
      ((m1.prices.getD []).length : Int) ≠ m1.getNumTradingDays) ∧
    (∀ (m m1 : Market) (f : MarketFile), m.loadFromFile f = some m1 →
      m1.getNumTradingDays = f.numTradingDays ∧
      (m1.prices.getD []).length = f.prices.length ∧
      ((f.prices.length : Int) = f.numTradingDays →
        ∀ i : Nat, (i : Int) < m1.getNumTradingDays →
          ∃ p, f.prices[i]? = some p ∧ Market.readSlot (m1.prices.getD []) i = some p ∧
            m1.getPrice i = p)) := by
  constructor
  · refine ⟨⟨100, 1 / 5, 1 / 2, 3, some [some 100], 42⟩, ?_, rfl, rfl, ?_, ?_, ?_⟩
    · simp [Market.loadFromFile, freshMarket, shortFile, Market.loadStep]
    · simp
    · simp [Market.readSlot]
    · simp [Market.getNumTradingDays]
  · intro m m1 f h
    obtain ⟨hp, hn, -⟩ := loadFromFile_slots m m1 f h
    refine ⟨hn, by simp [hp], ?_⟩
    intro hk i hi
    unfold Market.getNumTradingDays at hi
    rw [hn, ← hk] at hi
    have hlt : i < f.prices.length := by exact_mod_cast hi
    have hr : Market.readSlot (m1.prices.getD []) (i : Int) = some (f.prices[i]) := by
      unfold Market.readSlot
      rw [if_pos (by omega), hp]
      simp [hlt]
    refine ⟨f.prices[i], List.getElem?_eq_getElem hlt, hr, ?_⟩
    exact getPrice_of_readSlot m1 (m1.prices.getD []) i _ (by rw [hp]; rfl) (by omega)
      (by unfold Market.getNumTradingDays; rw [hn, ← hk]; exact_mod_cast hlt) hr

/-! ## Properties: simulating a market without trading days -/

/-- C38 (code defect): on the market built by `Market(100, 0.2, 0.5, 0, 42)`, whose
price array has no slot, `simulate()` executes `*prices[0] = roundToDecimals(...)`
unconditionally, a write to slot 0 outside the array.  For every market built by the
parametric constructor with `numTradingDays >= 1` the array has `numTradingDays` slots
and `simulate()` completes, every slot it reads or writes lying in the array. -/
theorem simulate_zero_days (lib : CMath) (Z : Int → ℚ) (src : RandomSource) (g : GenState) :
    (Market.new 100 (1 / 5) (1 / 2) 0 42 = some emptyFresh ∧
      emptyFresh.prices = some [] ∧
      Market.readSlot [] 0 = none ∧
      Market.writeSlot [] 0 (roundToDecimals emptyFresh.initialPrice 3) = none ∧
      emptyFresh.simulate lib Z = none ∧
      emptyFresh.simulateGen lib src g = none) ∧
    (∀ (initialPrice volatility expectedYearlyReturn : ℚ) (numTradingDays seed : Int)
        (m : Market), 1 ≤ numTradingDays →
      Market.new initialPrice volatility expectedYearlyReturn numTradingDays seed = some m →
      ((m.prices.getD []).length : Int) = numTradingDays ∧
      (∃ m1, m.simulate lib Z = some m1) ∧
      ∃ m1 g1, m.simulateGen lib src g = some (m1, g1)) := by
  constructor
  · refine ⟨rfl, rfl, ?_, ?_, ?_, ?_⟩
    · simp [Market.readSlot]
    · simp [Market.writeSlot, Market.readSlot]
    · simp [Market.simulate, emptyFresh, Market.writeSlot, Market.readSlot,
        forRange_of_le 1 0 (by decide)]
    · simp [Market.simulateGen, emptyFresh, Market.writeSlot, Market.readSlot,
        forRange_of_le 1 0 (by decide)]
  · intro initialPrice volatility expectedYearlyReturn numTradingDays seed m hn hm
    have ha := allocated_new initialPrice volatility expectedYearlyReturn numTradingDays seed
      m hm
    have hdays : m.numTradingDays = numTradingDays ∧
        ((m.prices.getD []).length : Int) = numTradingDays := by
      unfold Market.new at hm
      rw [if_neg (by omega)] at hm
      have := Option.some.inj hm
      subst this
      refine ⟨rfl, ?_⟩
      simp only [Option.getD_some, List.length_replicate]
      omega
    have hn1 : 1 ≤ m.numTradingDays := by rw [hdays.1]; exact hn
    obtain ⟨m1, h1, -⟩ := simulate_recurrence lib Z m ha hn1
    obtain ⟨m2, g2, h2, -⟩ := simulateGen_recurrence lib src g m ha hn1
    exact ⟨hdays.2, ⟨m1, h1⟩, m2, g2, h2⟩

end TradingBotSim
